import Mathlib

/-!
# LuauTokenizer: a shallow embedding of `src/luautokenizer.cpp`

The C++ class `Tokenizer` is embedded as a record of its four member fields and
every member function as a pure function on that record.  A C++ `char` is
embedded as a Lean `Char`, a `std::string` as a `List Char`, and the in-band
end-of-input sentinel `'\0'` as `NUL`.  The `int` members `m_position` and
`m_line` are embedded as natural numbers.  They only ever grow by one,
starting from 0 and 1, and an increment beyond `INT_MAX = 2^31 - 1` is a
signed overflow, on which the source has no defined behaviour; the embedding
gives the values of the members wherever they are at most `INT_MAX`.  The
section "The counters stay in the range of `int`" shows that on a source
shorter than `INT_MAX` characters the position never passes the length of
the source plus one and the line counter never passes the number of newlines
plus one, so that both stay at most `INT_MAX` throughout a run
(`inRange_rounds`).  The theorems on the cursor, on progress, on line numbers
and on reconstruction rest on these values and are stated for such sources.

The `<cctype>` functions are taken in the "C" locale and answer false on
every character outside ASCII.

Inner `while` loops of the sub-scanners consume one character per round, so
they are embedded as structurally recursive functions over a round budget
computed from the state (`Tokenizer.budget`); the lemmas in the section
"Budget adequacy" show that the budget is never the reason a loop stops.
The dispatch loop of `tokenize` can run forever, so it takes an explicit
`fuel` and answers `none` when the fuel is used up; `rounds n` is the same
loop cut off after at most `n` rounds, which gives the live variables of
`tokenize` also on a run that never returns.
-/

namespace LuauTokenizer

/-! ## Data model -/

/-- Token types, `enum TokenType` of the source. -/
inductive TokenType where
  | UNKNOWN
  | KEYWORD
  | IDENTIFIER
  | OPERATOR
  | NUMERIC_LITERAL
  | COMMENT
  deriving DecidableEq, Repr

/-- Token structure, `struct Token` of the source. -/
structure Token where
  type : TokenType
  value : List Char
  line : Nat
  deriving DecidableEq, Repr

/-- One line written to `std::cerr` by the `catch` block of `tokenize`:
`"Error on line " << m_line << ": " << e.what()`. -/
structure Diagnostic where
  line : Nat
  what : String
  deriving DecidableEq, Repr

/-- The member fields of `class Tokenizer`. -/
structure Tokenizer where
  m_sourceCode : List Char
  m_currentChar : Char
  m_position : Nat
  m_line : Nat
  deriving DecidableEq, Repr

/-- The character `'\0'`, used by the source as end-of-input sentinel. -/
def NUL : Char := Char.ofNat 0

/-! ## `<cctype>` classification, "C" locale -/

/-- Library function `isdigit`: the ten ASCII digits. -/
def isdigit (c : Char) : Bool := decide (48 ≤ c.toNat ∧ c.toNat ≤ 57)

/-- Library function `isalpha` in the "C" locale: the 52 ASCII letters. -/
def isalpha (c : Char) : Bool :=
  decide ((65 ≤ c.toNat ∧ c.toNat ≤ 90) ∨ (97 ≤ c.toNat ∧ c.toNat ≤ 122))

/-- Library function `isalnum`: `isalpha` or `isdigit`. -/
def isalnum (c : Char) : Bool := isalpha c || isdigit c

/-- Library function `isspace` in the "C" locale: space, `\t`, `\n`, `\v`,
`\f` and `\r`. -/
def isspace (c : Char) : Bool := decide (c.toNat = 32 ∨ (9 ≤ c.toNat ∧ c.toNat ≤ 13))

/-! ## Cursor primitives -/

/-- Constructor `Tokenizer(sourceCode)`: `m_currentChar(m_sourceCode[0])`,
`m_position(0)`, `m_line(1)`.  For an empty `std::string`, `operator[](0)`
yields `'\0'`. -/
def Tokenizer.ctor (sourceCode : List Char) : Tokenizer :=
  { m_sourceCode := sourceCode
    m_currentChar := sourceCode.getD 0 NUL
    m_position := 0
    m_line := 1 }

/-- Member `getNextChar`: `m_sourceCode[m_position + 1]`, without a bounds
check; reading at `size()` yields `'\0'`, reading further is undefined and
is embedded as `none`. -/
def getNextChar (s : Tokenizer) : Option Char :=
  if s.m_position + 1 ≤ s.m_sourceCode.length then
    some (s.m_sourceCode.getD (s.m_position + 1) NUL)
  else none

/-- Member `consumeChar`.  The member `m_position` is an `int` that the
source increments and then compares with `m_sourceCode.size()`; the
embedding counts in `Nat`, which is the value of the member as long as it is
at most `INT_MAX`.  On a source shorter than `INT_MAX` characters no state of
a run leaves that range (`inRange_rounds`); the theorems that rest on the
value of the position are stated for such sources. -/
def consumeChar (s : Tokenizer) : Tokenizer :=
  { s with
    m_position := s.m_position + 1
    m_currentChar :=
      if h : s.m_position + 1 < s.m_sourceCode.length then
        s.m_sourceCode[s.m_position + 1]
      else NUL }

/-- Round budget of the inner loops: one more than the number of characters
at or after the cursor. -/
def Tokenizer.budget (s : Tokenizer) : Nat :=
  s.m_sourceCode.length - s.m_position + 1

/-- The `while (isspace(m_currentChar)) consumeChar();` loop. -/
def skipWhitespaceLoop : Nat → Tokenizer → Tokenizer
  | 0, s => s
  | n + 1, s =>
    if isspace s.m_currentChar then skipWhitespaceLoop n (consumeChar s) else s

/-- Member `skipWhitespace`. -/
def skipWhitespace (s : Tokenizer) : Tokenizer :=
  skipWhitespaceLoop s.budget s

/-- The `while (m_currentChar != '\n' && m_currentChar != '\0') consumeChar();`
loop. -/
def skipUntilNextLineLoop : Nat → Tokenizer → Tokenizer
  | 0, s => s
  | n + 1, s =>
    if s.m_currentChar ≠ '\n' ∧ s.m_currentChar ≠ NUL then
      skipUntilNextLineLoop n (consumeChar s)
    else s

/-- Member `skipUntilNextLine`. -/
def skipUntilNextLine (s : Tokenizer) : Tokenizer :=
  skipUntilNextLineLoop s.budget s

/-! ## Sub-scanners

Each returns the state it leaves behind together with its result; a scanner
that can `throw` returns `Except.error` with the `what()` text, and the state
reached at the `throw`. -/

/-- The `while` loop of `scanComment`. -/
def scanCommentLoop : Nat → Tokenizer → List Char → Tokenizer × List Char
  | 0, s, commentValue => (s, commentValue)
  | n + 1, s, commentValue =>
    if s.m_currentChar ≠ '\n' ∧ s.m_currentChar ≠ NUL then
      scanCommentLoop n (consumeChar s) (commentValue ++ [s.m_currentChar])
    else (s, commentValue)

/-- Member `scanComment`. -/
def scanComment (s : Tokenizer) : Tokenizer × Token :=
  let commentValue := [s.m_currentChar]
  let s1 := consumeChar s
  let r := scanCommentLoop s1.budget s1 commentValue
  (r.1, ⟨TokenType.COMMENT, r.2, r.1.m_line⟩)

/-- Member `scanOperator(char firstChar)`; the default argument `'\0'` is
passed explicitly as `NUL`. -/
def scanOperator (s : Tokenizer) (firstChar : Char) : Tokenizer × Token :=
  let operatorValue : List Char := if firstChar ≠ NUL then [firstChar] else []
  let operatorValue := operatorValue ++ [s.m_currentChar]
  let s1 := consumeChar s
  if (firstChar = NUL ∧ (s1.m_currentChar = '<' ∨ s1.m_currentChar = '>' ∨
        s1.m_currentChar = '=' ∨ s1.m_currentChar = '~')) ∨
      (firstChar ≠ NUL ∧ s1.m_currentChar = '=') then
    let s2 := consumeChar s1
    (s2, ⟨TokenType.OPERATOR, operatorValue ++ [s1.m_currentChar], s2.m_line⟩)
  else
    (s1, ⟨TokenType.OPERATOR, operatorValue, s1.m_line⟩)

/-- Member `scanSymbol(char symbolChar)`; the default argument `'\0'` is
passed explicitly as `NUL`. -/
def scanSymbol (s : Tokenizer) (symbolChar : Char) : Tokenizer × Token :=
  if symbolChar ≠ NUL then
    (s, ⟨TokenType.UNKNOWN, [symbolChar], s.m_line⟩)
  else
    let s1 := consumeChar s
    (s1, ⟨TokenType.UNKNOWN, [s.m_currentChar], s1.m_line⟩)

/-- Member `scanDot`. -/
def scanDot (s : Tokenizer) : Tokenizer × Except String Token :=
  let dotValue := [s.m_currentChar]
  let s1 := consumeChar s
  if s1.m_currentChar = '.' then
    let dotValue := dotValue ++ [s1.m_currentChar]
    let s2 := consumeChar s1
    if s2.m_currentChar = '.' then
      let dotValue := dotValue ++ [s2.m_currentChar]
      let s3 := consumeChar s2
      (s3, Except.ok ⟨TokenType.UNKNOWN, dotValue, s3.m_line⟩)
    else
      (s2, Except.error "Unexpected character")
  else
    (s1, Except.ok ⟨TokenType.UNKNOWN, dotValue, s1.m_line⟩)

/-- The `while` loop of `scanNumericLiteral`, with its local `hasDecimal`. -/
def scanNumericLiteralLoop :
    Nat → Tokenizer → List Char → Bool → Tokenizer × Except String (List Char)
  | 0, s, numValue, _ => (s, Except.ok numValue)
  | n + 1, s, numValue, hasDecimal =>
    if isdigit s.m_currentChar ∨ s.m_currentChar = '.' then
      if s.m_currentChar = '.' then
        if hasDecimal then
          (s, Except.error "Invalid numeric literal")
        else
          scanNumericLiteralLoop n (consumeChar s) (numValue ++ [s.m_currentChar]) true
      else
        scanNumericLiteralLoop n (consumeChar s) (numValue ++ [s.m_currentChar]) hasDecimal
    else (s, Except.ok numValue)

/-- Member `scanNumericLiteral`. -/
def scanNumericLiteral (s : Tokenizer) : Tokenizer × Except String Token :=
  match scanNumericLiteralLoop s.budget s [] false with
  | (s1, Except.ok numValue) =>
    (s1, Except.ok ⟨TokenType.NUMERIC_LITERAL, numValue, s1.m_line⟩)
  | (s1, Except.error e) => (s1, Except.error e)

/-- The keyword test of `scanIdentifier`: the chain of 21 `idValue == "..."`
comparisons. -/
def isKeyword (idValue : List Char) : Bool :=
  idValue = "and".toList || idValue = "break".toList || idValue = "do".toList ||
  idValue = "else".toList || idValue = "elseif".toList || idValue = "end".toList ||
  idValue = "false".toList || idValue = "for".toList || idValue = "function".toList ||
  idValue = "if".toList || idValue = "in".toList || idValue = "local".toList ||
  idValue = "nil".toList || idValue = "not".toList || idValue = "or".toList ||
  idValue = "repeat".toList || idValue = "return".toList || idValue = "then".toList ||
  idValue = "true".toList || idValue = "until".toList || idValue = "while".toList

/-- The `while` loop of `scanIdentifier`. -/
def scanIdentifierLoop : Nat → Tokenizer → List Char → Tokenizer × List Char
  | 0, s, idValue => (s, idValue)
  | n + 1, s, idValue =>
    if isalnum s.m_currentChar ∨ s.m_currentChar = '_' then
      scanIdentifierLoop n (consumeChar s) (idValue ++ [s.m_currentChar])
    else (s, idValue)

/-- Member `scanIdentifier`. -/
def scanIdentifier (s : Tokenizer) : Tokenizer × Token :=
  let r := scanIdentifierLoop s.budget s []
  if isKeyword r.2 then (r.1, ⟨TokenType.KEYWORD, r.2, r.1.m_line⟩)
  else (r.1, ⟨TokenType.IDENTIFIER, r.2, r.1.m_line⟩)

/-! ## The dispatch loop -/

/-- The `switch (m_currentChar)` statement inside the `try` block: the state
it leaves, and either the token pushed (if any) or the exception thrown.
The `m_line++` of `case '\n'` is on an `int`; the embedding counts in `Nat`,
which is the value of the member as long as it is at most `INT_MAX`, and it
is on every source shorter than `INT_MAX` characters (`inRange_rounds`). -/
def dispatch (s : Tokenizer) : Tokenizer × Except String (Option Token) :=
  let c := s.m_currentChar
  if c = ' ' ∨ c = '\t' then
    (skipWhitespace s, Except.ok none)
  else if c = '\n' then
    let s1 := consumeChar s
    ({ s1 with m_line := s1.m_line + 1 }, Except.ok none)
  else if c = '-' then
    let s1 := consumeChar s
    if s1.m_currentChar = '-' then
      let r := scanComment s1
      (r.1, Except.ok (some r.2))
    else
      let r := scanOperator s1 '-'
      (r.1, Except.ok (some r.2))
  else if c = '+' ∨ c = '*' ∨ c = '/' ∨ c = '^' ∨ c = '%' ∨ c = '#' then
    let r := scanOperator s NUL
    (r.1, Except.ok (some r.2))
  else if c = '>' ∨ c = '<' ∨ c = '=' ∨ c = '~' then
    let r := scanOperator s NUL
    (r.1, Except.ok (some r.2))
  else if c = '(' ∨ c = ')' ∨ c = '{' ∨ c = '}' ∨ c = ';' ∨ c = ',' then
    let r := scanSymbol s NUL
    (r.1, Except.ok (some r.2))
  else if c = '[' then
    let r := scanSymbol s '['
    (r.1, Except.ok (some r.2))
  else if c = ']' then
    let r := scanSymbol s ']'
    (r.1, Except.ok (some r.2))
  else if c = '.' then
    match scanDot s with
    | (s1, Except.ok t) => (s1, Except.ok (some t))
    | (s1, Except.error e) => (s1, Except.error e)
  else if isdigit c then
    match scanNumericLiteral s with
    | (s1, Except.ok t) => (s1, Except.ok (some t))
    | (s1, Except.error e) => (s1, Except.error e)
  else if isalpha c ∨ c = '_' then
    let r := scanIdentifier s
    (r.1, Except.ok (some r.2))
  else
    (s, Except.error "Unexpected character")

/-- The live variables of `tokenize`: the object itself, the local vector
`tokens`, and what has been written to `std::cerr` so far. -/
structure Run where
  self : Tokenizer
  tokens : List Token
  cerr : List Diagnostic
  deriving DecidableEq, Repr

/-- One round of the `while` loop of `tokenize`: the `try` block, and the
`catch` block when the `try` block throws. -/
def iteration (r : Run) : Run :=
  match dispatch r.self with
  | (s, Except.ok none) => ⟨s, r.tokens, r.cerr⟩
  | (s, Except.ok (some t)) => ⟨s, r.tokens ++ [t], r.cerr⟩
  | (s, Except.error e) => ⟨skipUntilNextLine s, r.tokens, r.cerr ++ [⟨s.m_line, e⟩]⟩

/-- The loop `while (m_currentChar != '\0') { ... }` of `tokenize`, run for at
most `fuel` tests of its condition; `none` when the fuel does not suffice. -/
def tokenizeLoop : Nat → Run → Option Run
  | 0, _ => none
  | fuel + 1, r =>
    if r.self.m_currentChar = NUL then some r else tokenizeLoop fuel (iteration r)

/-- The state in which `tokenize` enters its loop on a fresh `Tokenizer`. -/
def Run.start (sourceCode : List Char) : Run :=
  ⟨Tokenizer.ctor sourceCode, [], []⟩

/-- Constructing a `Tokenizer` on `sourceCode` and calling `tokenize` once:
the returned vector and the diagnostics written, or `none` when `fuel` loop
rounds do not reach the end of the loop. -/
def tokenize (fuel : Nat) (sourceCode : List Char) :
    Option (List Token × List Diagnostic) :=
  (tokenizeLoop fuel (Run.start sourceCode)).map (fun r => (r.tokens, r.cerr))

/-! ## Vocabulary of the statements -/

/-- The state whose source is `pre ++ rest`, with the cursor on the first
character of `rest` and line counter `L`. -/
def cursorAt (pre rest : List Char) (L : Nat) : Tokenizer :=
  { m_sourceCode := pre ++ rest
    m_currentChar := rest.headD NUL
    m_position := pre.length
    m_line := L }

/-- The part of the source at and after the cursor. -/
def Tokenizer.rest (s : Tokenizer) : List Char :=
  s.m_sourceCode.drop s.m_position

/-- A token moved `k` lines down. -/
def Token.shift (k : Nat) (t : Token) : Token :=
  { t with line := t.line + k }

/-- A diagnostic moved `k` lines down. -/
def Diagnostic.shift (k : Nat) (d : Diagnostic) : Diagnostic :=
  { d with line := d.line + k }

/-- Two states that agree on the unread input and on the current character,
the first being `k` lines further down than the second. -/
def Sim (k : Nat) (a b : Tokenizer) : Prop :=
  a.rest = b.rest ∧ a.m_currentChar = b.m_currentChar ∧ a.m_line = b.m_line + k

instance (k : Nat) (a b : Tokenizer) : Decidable (Sim k a b) := by
  unfold Sim; infer_instance

/-- The output `(tokens, diagnostics)` of a run, moved `k` lines down and
put after the tokens `pt` and diagnostics `pd`. -/
def after (pt : List Token) (pd : List Diagnostic) (k : Nat)
    (out : List Token × List Diagnostic) : List Token × List Diagnostic :=
  (pt ++ out.1.map (Token.shift k), pd ++ out.2.map (Diagnostic.shift k))

/-- An outcome of a throwing scanner, moved `k` lines down. -/
def shiftOutcome (k : Nat) : Except String Token → Except String Token
  | Except.ok t => Except.ok (t.shift k)
  | Except.error e => Except.error e

/-- An outcome of the `switch` statement, moved `k` lines down. -/
def shiftDispatch (k : Nat) : Except String (Option Token) → Except String (Option Token)
  | Except.ok t => Except.ok (t.map (Token.shift k))
  | Except.error e => Except.error e

/-- Two runs whose states simulate each other, the first having emitted
`pt`, `pd` and then what the second has emitted, moved `k` lines down. -/
def RunSim (pt : List Token) (pd : List Diagnostic) (k : Nat) (x y : Run) : Prop :=
  Sim k x.self y.self ∧ (x.tokens, x.cerr) = after pt pd k (y.tokens, y.cerr)

/-- The characters that have a `case` label of their own in the `switch`. -/
def caseLabels : List Char :=
  [' ', '\t', '\n', '-', '+', '*', '/', '^', '%', '#', '>', '<', '=', '~',
   '(', ')', '{', '}', ';', ',', '[', ']', '.']

/-- Output of a run, as returned by `tokenize`. -/
def Run.out (r : Run) : List Token × List Diagnostic := (r.tokens, r.cerr)

/-- A character that matches none of the dispatch rules: it has no `case`
label and is neither an ASCII digit, an ASCII letter nor an underscore. -/
def Unrecognised (c : Char) : Prop :=
  c ∉ caseLabels ∧ isdigit c = false ∧ isalpha c = false ∧ c ≠ '_'

instance (c : Char) : Decidable (Unrecognised c) := by
  unfold Unrecognised; infer_instance

/-- The 21 reserved words, as the specification lists them. -/
def keywords : List String :=
  ["and", "break", "do", "else", "elseif", "end", "false", "for", "function", "if", "in",
   "local", "nil", "not", "or", "repeat", "return", "then", "true", "until", "while"]

/-- The loop condition of `skipUntilNextLine` and of `scanComment`:
`m_currentChar != '\n' && m_currentChar != '\0'`. -/
def notLineEnd (c : Char) : Bool := decide (c ≠ '\n' ∧ c ≠ NUL)

/-- The loop condition of `scanIdentifier`:
`isalnum(m_currentChar) || m_currentChar == '_'`. -/
def isIdentChar (c : Char) : Bool := decide (isalnum c = true ∨ c = '_')

/-- The string `w0 t1 w1 ... tn wn` made of the texts of the tokens `t1..tn`
with the strings `w0..wn` put between and around them. -/
def interleave : List (List Char) → List Token → List Char
  | [], _ => []
  | w :: _, [] => w
  | w :: ws, t :: ts => w ++ t.value ++ interleave ws ts

/-- Lossless reconstruction of `src` from the tokens `toks`: there are
strings `w0..wn`, made only of space, tab and newline characters, with
`src = w0 ++ t1.text ++ w1 ++ ... ++ tn.text ++ wn`. -/
def Reconstructs (src : List Char) (toks : List Token) : Prop :=
  ∃ ws : List (List Char), ws.length = toks.length + 1 ∧
    (∀ w ∈ ws, ∀ c ∈ w, c = ' ' ∨ c = '\t' ∨ c = '\n') ∧ src = interleave ws toks

/-- The consumed text `p` is made of the texts of the tokens `ts`, in order,
with runs of space, tab and newline characters between and around them. -/
inductive Covered : List Char → List Token → Prop where
  | blank (w : List Char) (hw : ∀ c ∈ w, c = ' ' ∨ c = '\t' ∨ c = '\n') : Covered w []
  | token (p : List Char) (ts : List Token) (t : Token) (w : List Char)
      (hp : Covered p ts) (hw : ∀ c ∈ w, c = ' ' ∨ c = '\t' ∨ c = '\n') :
      Covered (p ++ t.value ++ w) (ts ++ [t])

/-- A character outside the ones on which the scanner departs from the
lossless-reconstruction property: not NUL, not `-`, not a square bracket,
and not vertical tab, form feed or carriage return. -/
def Clean (c : Char) : Prop :=
  c ≠ NUL ∧ c ≠ '-' ∧ c ≠ '[' ∧ c ≠ ']' ∧
    c ≠ Char.ofNat 11 ∧ c ≠ Char.ofNat 12 ∧ c ≠ '\r'

instance (c : Char) : Decidable (Clean c) := by
  unfold Clean; infer_instance

/-- The current character is the one the source has at the cursor, or NUL
when the cursor is at or past the end. -/
def Tokenizer.Consistent (s : Tokenizer) : Prop :=
  s.m_currentChar = s.rest.headD NUL

instance (s : Tokenizer) : Decidable s.Consistent := by
  unfold Tokenizer.Consistent; infer_instance

/-- The loop condition of `scanNumericLiteral`:
`isdigit(m_currentChar) || m_currentChar == '.'`. -/
def isNumChar (c : Char) : Bool := decide (isdigit c = true ∨ c = '.')

/-- The state `s'` is the state `s` after at least one `consumeChar`: same
source, same line counter, position strictly further, and the current
character agreeing with the source. -/
def Advanced (s s' : Tokenizer) : Prop :=
  s'.m_sourceCode = s.m_sourceCode ∧ s'.m_line = s.m_line ∧
    s'.Consistent ∧ s.m_position < s'.m_position

/-- The state `s'` is the state `s`, or the state `s` after at least one
`consumeChar`. -/
def Adv (s s' : Tokenizer) : Prop := s' = s ∨ Advanced s s'

/-- The cursor invariant: the current character is the character of the
source at the position when the position is inside the source, and the
sentinel NUL when the position is at or past its end. -/
def CursorInv (s : Tokenizer) : Prop :=
  (∀ h : s.m_position < s.m_sourceCode.length,
      s.m_currentChar = s.m_sourceCode.get ⟨s.m_position, h⟩) ∧
    (s.m_sourceCode.length ≤ s.m_position → s.m_currentChar = NUL)

/-- The loop of `tokenize` cut off after at most `n` rounds: the live
variables it has then, whether or not it has reached the end of the loop. -/
def rounds : Nat → Run → Run
  | 0, r => r
  | n + 1, r => if r.self.m_currentChar = NUL then r else rounds n (iteration r)

/-- The kind of a token is consistent with its text: the text of a Keyword
is one of the 21 reserved words; the text of an Identifier is a non-empty
string of ASCII letters, digits and underscores that does not start with a
digit and is not a reserved word; the text of a NumericLiteral starts with a
digit, consists of digits and dots only and has at most one dot; the text of
a Comment has no newline. -/
def WellKinded (t : Token) : Prop :=
  match t.type with
  | TokenType.KEYWORD => t.value ∈ keywords.map String.toList
  | TokenType.IDENTIFIER =>
    t.value ≠ [] ∧ (∀ c ∈ t.value, isalpha c = true ∨ isdigit c = true ∨ c = '_') ∧
      isdigit (t.value.headD NUL) = false ∧ t.value ∉ keywords.map String.toList
  | TokenType.NUMERIC_LITERAL =>
    isdigit (t.value.headD NUL) = true ∧ (∀ c ∈ t.value, isdigit c = true ∨ c = '.') ∧
      t.value.count '.' ≤ 1
  | TokenType.COMMENT => '\n' ∉ t.value
  | TokenType.OPERATOR => True
  | TokenType.UNKNOWN => True

instance (t : Token) : Decidable (WellKinded t) := by
  unfold WellKinded; split <;> infer_instance

/-- What one loop round does to the live variables of `tokenize`: it skips
white space, or counts a newline, or pushes one token stamped with the
current line, or rejects a lexeme with one diagnostic citing the current
line and skips to the end of the line. -/
inductive Round : Run → Run → Prop where
  | blank (x : Run) (s' : Tokenizer) (hn : x.self.m_currentChar ≠ '\n')
      (ha : Advanced x.self s') : Round x ⟨s', x.tokens, x.cerr⟩
  | newline (x : Run) (hn : x.self.m_currentChar = '\n') :
      Round x ⟨{ consumeChar x.self with m_line := x.self.m_line + 1 }, x.tokens, x.cerr⟩
  | token (x : Run) (s' : Tokenizer) (t : Token) (hn : x.self.m_currentChar ≠ '\n')
      (ha : Adv x.self s')
      (hp : x.self.m_currentChar ≠ '[' → x.self.m_currentChar ≠ ']' →
        x.self.m_position < s'.m_position)
      (hl : t.line = x.self.m_line) (hk : WellKinded t) :
      Round x ⟨s', x.tokens ++ [t], x.cerr⟩
  | reject (x : Run) (s' : Tokenizer) (e : String) (hn : x.self.m_currentChar ≠ '\n')
      (ha : Adv x.self s')
      (hp : x.self.m_currentChar ≠ NUL → x.self.m_position < s'.m_position)
      (hc : s'.m_currentChar = '\n' ∨ s'.m_currentChar = NUL) :
      Round x ⟨s', x.tokens, x.cerr ++ [⟨x.self.m_line, e⟩]⟩

/-- The invariant of the loop of `tokenize` on the source `src`: the cursor
agrees with the source; the line counter is at least 1 and at most 1 plus
the number of newlines consumed; every token pushed has a line between 1
and the line counter and a kind consistent with its text, and the token
lines never decrease; every diagnostic cites a line between 1 and the line
counter, the cited lines strictly increase, and after a diagnostic on the
current line the cursor is on a newline or at the end of input. -/
def RunInv (src : List Char) (x : Run) : Prop :=
  x.self.m_sourceCode = src ∧ x.self.Consistent ∧
  1 ≤ x.self.m_line ∧
  x.self.m_line ≤ 1 + (src.take x.self.m_position).count '\n' ∧
  (∀ t ∈ x.tokens, 1 ≤ t.line ∧ t.line ≤ x.self.m_line ∧ WellKinded t) ∧
  x.tokens.Pairwise (fun a b => a.line ≤ b.line) ∧
  (∀ d ∈ x.cerr, 1 ≤ d.line ∧ d.line ≤ x.self.m_line) ∧
  x.cerr.Pairwise (fun a b => a.line < b.line) ∧
  ((∃ d ∈ x.cerr, d.line = x.self.m_line) →
    x.self.m_currentChar = '\n' ∨ x.self.m_currentChar = NUL)

/-- The largest value of the type `int` (32 bits wide), which is the type of
the members `m_position` and `m_line` in the source: `2^31 - 1`. -/
def INT_MAX : Nat := 2147483647

/-- The source has at most `B` characters and the position is at most one
past `B`. -/
def Tokenizer.Within (s : Tokenizer) (B : Nat) : Prop :=
  s.m_sourceCode.length ≤ B ∧ s.m_position ≤ B + 1

/-- Both counters hold a value of the type `int`: no `m_position++` and no
`m_line++` on the way to this state has overflowed, and the natural numbers
of the embedding are the values the members have in the source. -/
def Tokenizer.InRange (s : Tokenizer) : Prop :=
  s.m_position ≤ INT_MAX ∧ s.m_line ≤ INT_MAX

/-! ## Cursor lemmas -/

theorem ctor_eq_cursorAt (src : List Char) : Tokenizer.ctor src = cursorAt [] src 1 := by
  cases src <;> simp [Tokenizer.ctor, cursorAt]

theorem consumeChar_cursorAt (pre : List Char) (c : Char) (rest : List Char) (L : Nat) :
    consumeChar (cursorAt pre (c :: rest) L) = cursorAt (pre ++ [c]) rest L := by
  cases rest with
  | nil => simp [consumeChar, cursorAt]
  | cons d rest =>
    simp [consumeChar, cursorAt]
    rw [List.getElem_append_right (by simp)]
    simp

theorem budget_cursorAt (pre rest : List Char) (L : Nat) :
    (cursorAt pre rest L).budget = rest.length + 1 := by
  simp [Tokenizer.budget, cursorAt]

theorem rest_consumeChar (s : Tokenizer) : (consumeChar s).rest = s.rest.tail := by
  simp [Tokenizer.rest, consumeChar, List.tail_drop]

theorem cur_consumeChar (s : Tokenizer) :
    (consumeChar s).m_currentChar = s.rest.tail.headD NUL := by
  simp only [Tokenizer.rest, consumeChar, List.tail_drop]
  split
  · rename_i h
    rw [List.headD_eq_head?_getD, List.head?_drop, List.getElem?_eq_getElem h]
    rfl
  · rename_i h
    rw [List.drop_eq_nil_of_le (by omega)]
    rfl

theorem budget_eq (s : Tokenizer) : s.budget = s.rest.length + 1 := by
  simp [Tokenizer.budget, Tokenizer.rest]

theorem line_consumeChar (s : Tokenizer) : (consumeChar s).m_line = s.m_line := rfl

/-! ## Simulation: the scanner only looks at the unread input -/

theorem sim_consumeChar {k : Nat} {a b : Tokenizer} (h : Sim k a b) :
    Sim k (consumeChar a) (consumeChar b) := by
  obtain ⟨h1, h2, h3⟩ := h
  refine ⟨?_, ?_, ?_⟩
  · rw [rest_consumeChar, rest_consumeChar, h1]
  · rw [cur_consumeChar, cur_consumeChar, h1]
  · simpa [line_consumeChar] using h3

theorem sim_budget {k : Nat} {a b : Tokenizer} (h : Sim k a b) : a.budget = b.budget := by
  rw [budget_eq, budget_eq, h.1]

theorem sim_skipWhitespaceLoop {k : Nat} (n : Nat) :
    ∀ {a b : Tokenizer}, Sim k a b → Sim k (skipWhitespaceLoop n a) (skipWhitespaceLoop n b) := by
  induction n with
  | zero => intro a b h; simpa [skipWhitespaceLoop] using h
  | succ n ih =>
    intro a b h
    simp only [skipWhitespaceLoop, h.2.1]
    split
    · exact ih (sim_consumeChar h)
    · exact h

theorem sim_skipWhitespace {k : Nat} {a b : Tokenizer} (h : Sim k a b) :
    Sim k (skipWhitespace a) (skipWhitespace b) := by
  unfold skipWhitespace
  rw [(sim_budget h)]
  exact sim_skipWhitespaceLoop _ h

theorem sim_skipUntilNextLineLoop {k : Nat} (n : Nat) :
    ∀ {a b : Tokenizer}, Sim k a b →
      Sim k (skipUntilNextLineLoop n a) (skipUntilNextLineLoop n b) := by
  induction n with
  | zero => intro a b h; simpa [skipUntilNextLineLoop] using h
  | succ n ih =>
    intro a b h
    simp only [skipUntilNextLineLoop, h.2.1]
    split
    · exact ih (sim_consumeChar h)
    · exact h

theorem sim_skipUntilNextLine {k : Nat} {a b : Tokenizer} (h : Sim k a b) :
    Sim k (skipUntilNextLine a) (skipUntilNextLine b) := by
  unfold skipUntilNextLine
  rw [(sim_budget h)]
  exact sim_skipUntilNextLineLoop _ h

theorem sim_scanCommentLoop {k : Nat} (n : Nat) :
    ∀ {a b : Tokenizer} (v : List Char), Sim k a b →
      Sim k (scanCommentLoop n a v).1 (scanCommentLoop n b v).1 ∧
      (scanCommentLoop n a v).2 = (scanCommentLoop n b v).2 := by
  induction n with
  | zero => intro a b v h; simpa [scanCommentLoop] using h
  | succ n ih =>
    intro a b v h
    simp only [scanCommentLoop, h.2.1]
    split
    · exact ih _ (sim_consumeChar h)
    · exact ⟨h, rfl⟩

theorem sim_scanComment {k : Nat} {a b : Tokenizer} (h : Sim k a b) :
    Sim k (scanComment a).1 (scanComment b).1 ∧
    (scanComment a).2 = (scanComment b).2.shift k := by
  have h1 := (sim_consumeChar h)
  have h2 := sim_scanCommentLoop (consumeChar b).budget [b.m_currentChar] h1
  simp only [scanComment, (sim_budget h1), h.2.1, Token.shift]
  refine ⟨h2.1, ?_⟩
  rw [h2.2, h2.1.2.2]

theorem sim_scanOperator {k : Nat} {a b : Tokenizer} (h : Sim k a b) (firstChar : Char) :
    Sim k (scanOperator a firstChar).1 (scanOperator b firstChar).1 ∧
    (scanOperator a firstChar).2 = (scanOperator b firstChar).2.shift k := by
  have h1 := (sim_consumeChar h)
  have h2 := (sim_consumeChar h1)
  simp only [scanOperator, h.2.1, h1.2.1, Token.shift]
  split
  · exact ⟨h2, by simp [h2.2.2]⟩
  · exact ⟨h1, by simp [h1.2.2]⟩

theorem sim_scanSymbol {k : Nat} {a b : Tokenizer} (h : Sim k a b) (symbolChar : Char) :
    Sim k (scanSymbol a symbolChar).1 (scanSymbol b symbolChar).1 ∧
    (scanSymbol a symbolChar).2 = (scanSymbol b symbolChar).2.shift k := by
  have h1 := (sim_consumeChar h)
  simp only [scanSymbol, h.2.1, Token.shift]
  split
  · exact ⟨h, by simp [h.2.2]⟩
  · exact ⟨h1, by simp [h1.2.2]⟩

theorem sim_scanDot {k : Nat} {a b : Tokenizer} (h : Sim k a b) :
    Sim k (scanDot a).1 (scanDot b).1 ∧
    (scanDot a).2 = shiftOutcome k (scanDot b).2 := by
  have h1 := (sim_consumeChar h)
  have h2 := (sim_consumeChar h1)
  have h3 := (sim_consumeChar h2)
  simp only [scanDot, h.2.1, h1.2.1, h2.2.1]
  split
  · split
    · exact ⟨h3, by simp [shiftOutcome, Token.shift, h3.2.2]⟩
    · exact ⟨h2, rfl⟩
  · exact ⟨h1, by simp [shiftOutcome, Token.shift, h1.2.2]⟩

theorem sim_scanNumericLiteralLoop {k : Nat} (n : Nat) :
    ∀ {a b : Tokenizer} (v : List Char) (d : Bool), Sim k a b →
      Sim k (scanNumericLiteralLoop n a v d).1 (scanNumericLiteralLoop n b v d).1 ∧
      (scanNumericLiteralLoop n a v d).2 = (scanNumericLiteralLoop n b v d).2 := by
  induction n with
  | zero => intro a b v d h; simpa [scanNumericLiteralLoop] using h
  | succ n ih =>
    intro a b v d h
    simp only [scanNumericLiteralLoop, h.2.1]
    split
    · split
      · split
        · exact ⟨h, rfl⟩
        · exact ih _ _ (sim_consumeChar h)
      · exact ih _ _ (sim_consumeChar h)
    · exact ⟨h, rfl⟩

theorem sim_scanNumericLiteral {k : Nat} {a b : Tokenizer} (h : Sim k a b) :
    Sim k (scanNumericLiteral a).1 (scanNumericLiteral b).1 ∧
    (scanNumericLiteral a).2 = shiftOutcome k (scanNumericLiteral b).2 := by
  have h2 := sim_scanNumericLiteralLoop b.budget [] false h
  unfold scanNumericLiteral
  rw [(sim_budget h)]
  revert h2
  rcases scanNumericLiteralLoop b.budget a [] false with ⟨sa, ra⟩
  rcases scanNumericLiteralLoop b.budget b [] false with ⟨sb, rb⟩
  rintro ⟨h3, h4⟩
  simp only at h3 h4
  subst h4
  cases ra with
  | ok v => exact ⟨h3, by simp [shiftOutcome, Token.shift, h3.2.2]⟩
  | error e => exact ⟨h3, rfl⟩

theorem sim_scanIdentifierLoop {k : Nat} (n : Nat) :
    ∀ {a b : Tokenizer} (v : List Char), Sim k a b →
      Sim k (scanIdentifierLoop n a v).1 (scanIdentifierLoop n b v).1 ∧
      (scanIdentifierLoop n a v).2 = (scanIdentifierLoop n b v).2 := by
  induction n with
  | zero => intro a b v h; simpa [scanIdentifierLoop] using h
  | succ n ih =>
    intro a b v h
    simp only [scanIdentifierLoop, h.2.1]
    split
    · exact ih _ (sim_consumeChar h)
    · exact ⟨h, rfl⟩

theorem sim_scanIdentifier {k : Nat} {a b : Tokenizer} (h : Sim k a b) :
    Sim k (scanIdentifier a).1 (scanIdentifier b).1 ∧
    (scanIdentifier a).2 = (scanIdentifier b).2.shift k := by
  have h2 := sim_scanIdentifierLoop b.budget [] h
  simp only [scanIdentifier, (sim_budget h), h2.2]
  split
  · exact ⟨h2.1, by simp [Token.shift, h2.1.2.2]⟩
  · exact ⟨h2.1, by simp [Token.shift, h2.1.2.2]⟩

theorem sim_dispatch {k : Nat} {a b : Tokenizer} (h : Sim k a b) :
    Sim k (dispatch a).1 (dispatch b).1 ∧
    (dispatch a).2 = shiftDispatch k (dispatch b).2 := by
  have hc := sim_consumeChar h
  unfold dispatch
  rw [h.2.1]
  dsimp only
  by_cases c1 : b.m_currentChar = ' ' ∨ b.m_currentChar = '\t'
  · rw [if_pos c1, if_pos c1]
    exact ⟨sim_skipWhitespace h, rfl⟩
  rw [if_neg c1, if_neg c1]
  by_cases c2 : b.m_currentChar = '\n'
  · rw [if_pos c2, if_pos c2]
    exact ⟨⟨hc.1, hc.2.1, by simp [hc.2.2]; omega⟩, rfl⟩
  rw [if_neg c2, if_neg c2]
  by_cases c3 : b.m_currentChar = '-'
  · rw [if_pos c3, if_pos c3, hc.2.1]
    by_cases c3a : (consumeChar b).m_currentChar = '-'
    · rw [if_pos c3a, if_pos c3a]
      have := sim_scanComment hc
      exact ⟨this.1, by simp [shiftDispatch, this.2]⟩
    · rw [if_neg c3a, if_neg c3a]
      have := sim_scanOperator hc '-'
      exact ⟨this.1, by simp [shiftDispatch, this.2]⟩
  rw [if_neg c3, if_neg c3]
  by_cases c4 : b.m_currentChar = '+' ∨ b.m_currentChar = '*' ∨ b.m_currentChar = '/' ∨
      b.m_currentChar = '^' ∨ b.m_currentChar = '%' ∨ b.m_currentChar = '#'
  · rw [if_pos c4, if_pos c4]
    have := sim_scanOperator h NUL
    exact ⟨this.1, by simp [shiftDispatch, this.2]⟩
  rw [if_neg c4, if_neg c4]
  by_cases c5 : b.m_currentChar = '>' ∨ b.m_currentChar = '<' ∨ b.m_currentChar = '=' ∨
      b.m_currentChar = '~'
  · rw [if_pos c5, if_pos c5]
    have := sim_scanOperator h NUL
    exact ⟨this.1, by simp [shiftDispatch, this.2]⟩
  rw [if_neg c5, if_neg c5]
  by_cases c6 : b.m_currentChar = '(' ∨ b.m_currentChar = ')' ∨ b.m_currentChar = '{' ∨
      b.m_currentChar = '}' ∨ b.m_currentChar = ';' ∨ b.m_currentChar = ','
  · rw [if_pos c6, if_pos c6]
    have := sim_scanSymbol h NUL
    exact ⟨this.1, by simp [shiftDispatch, this.2]⟩
  rw [if_neg c6, if_neg c6]
  by_cases c7 : b.m_currentChar = '['
  · rw [if_pos c7, if_pos c7]
    have := sim_scanSymbol h '['
    exact ⟨this.1, by simp [shiftDispatch, this.2]⟩
  rw [if_neg c7, if_neg c7]
  by_cases c8 : b.m_currentChar = ']'
  · rw [if_pos c8, if_pos c8]
    have := sim_scanSymbol h ']'
    exact ⟨this.1, by simp [shiftDispatch, this.2]⟩
  rw [if_neg c8, if_neg c8]
  by_cases c9 : b.m_currentChar = '.'
  · rw [if_pos c9, if_pos c9]
    have := sim_scanDot h
    revert this
    rcases scanDot a with ⟨sa, ra⟩
    rcases scanDot b with ⟨sb, rb⟩
    rintro ⟨h3, h4⟩
    simp only at h3 h4
    subst h4
    cases rb <;> exact ⟨h3, rfl⟩
  rw [if_neg c9, if_neg c9]
  by_cases c10 : isdigit b.m_currentChar = true
  · rw [if_pos c10, if_pos c10]
    have := sim_scanNumericLiteral h
    revert this
    rcases scanNumericLiteral a with ⟨sa, ra⟩
    rcases scanNumericLiteral b with ⟨sb, rb⟩
    rintro ⟨h3, h4⟩
    simp only at h3 h4
    subst h4
    cases rb <;> exact ⟨h3, rfl⟩
  rw [if_neg c10, if_neg c10]
  by_cases c11 : isalpha b.m_currentChar = true ∨ b.m_currentChar = '_'
  · rw [if_pos c11, if_pos c11]
    have := sim_scanIdentifier h
    exact ⟨this.1, by simp [shiftDispatch, this.2]⟩
  rw [if_neg c11, if_neg c11]
  exact ⟨h, rfl⟩

theorem runSim_iteration {pt : List Token} {pd : List Diagnostic} {k : Nat} {x y : Run}
    (h : RunSim pt pd k x y) : RunSim pt pd k (iteration x) (iteration y) := by
  obtain ⟨h1, h2⟩ := h
  have hd := sim_dispatch h1
  simp only [after, Prod.mk.injEq] at h2
  unfold iteration
  revert hd
  rcases dispatch x.self with ⟨sa, ra⟩
  rcases dispatch y.self with ⟨sb, rb⟩
  rintro ⟨h3, h4⟩
  simp only at h3 h4
  subst h4
  rcases rb with e | t | t
  · refine ⟨sim_skipUntilNextLine h3, ?_⟩
    simp [shiftDispatch, after, h2.1, h2.2, Diagnostic.shift, h3.2.2]
  · exact ⟨h3, by simp [shiftDispatch, after, h2.1, h2.2]⟩
  · exact ⟨h3, by simp [shiftDispatch, after, h2.1, h2.2]⟩

theorem runSim_tokenizeLoop {pt : List Token} {pd : List Diagnostic} {k : Nat} (fuel : Nat) :
    ∀ {x y : Run}, RunSim pt pd k x y →
      (tokenizeLoop fuel x).map (fun r => (r.tokens, r.cerr)) =
        (tokenizeLoop fuel y).map (fun r => after pt pd k (r.tokens, r.cerr)) := by
  induction fuel with
  | zero => intro x y _; rfl
  | succ n ih =>
    intro x y h
    simp only [tokenizeLoop, h.1.2.1]
    split
    · simp [h.2]
    · exact ih (runSim_iteration h)

/-! ## Runs of characters under the cursor -/

@[simp] theorem cur_cursorAt_cons (pre : List Char) (c : Char) (rest : List Char) (L : Nat) :
    (cursorAt pre (c :: rest) L).m_currentChar = c := rfl

@[simp] theorem cur_cursorAt_nil (pre : List Char) (L : Nat) :
    (cursorAt pre [] L).m_currentChar = NUL := rfl

@[simp] theorem line_cursorAt (pre rest : List Char) (L : Nat) :
    (cursorAt pre rest L).m_line = L := rfl

@[simp] theorem position_cursorAt (pre rest : List Char) (L : Nat) :
    (cursorAt pre rest L).m_position = pre.length := rfl

theorem rest_cursorAt (pre rest : List Char) (L : Nat) : (cursorAt pre rest L).rest = rest := by
  simp [Tokenizer.rest, cursorAt]

theorem sim_cursorAt (pre rest : List Char) (L k : Nat) :
    Sim k (cursorAt pre rest (L + k)) (cursorAt [] rest L) :=
  ⟨by rw [rest_cursorAt, rest_cursorAt], rfl, rfl⟩

theorem tokenizeLoop_succ (fuel : Nat) (r : Run) :
    tokenizeLoop (fuel + 1) r =
      if r.self.m_currentChar = NUL then some r else tokenizeLoop fuel (iteration r) := rfl

/-- From a state that simulates a fresh scanner on `r`, the loop produces
what has been produced so far, followed by the output for `r` moved down. -/
theorem tokenizeLoop_resume (fuel : Nat) (x : Run) (r : List Char) (k : Nat)
    (h : Sim k x.self (Tokenizer.ctor r)) :
    (tokenizeLoop fuel x).map (fun y => (y.tokens, y.cerr)) =
      (tokenize fuel r).map (after x.tokens x.cerr k) := by
  have hx : RunSim x.tokens x.cerr k x (Run.start r) := ⟨h, by simp [after, Run.start]⟩
  rw [runSim_tokenizeLoop fuel hx, tokenize, Option.map_map]
  rfl

theorem skipUntilNextLineLoop_run (t : List Char)
    (ht : ∀ c ∈ t, c ≠ '\n' ∧ c ≠ NUL) :
    ∀ (n : Nat) (pre rest : List Char) (L : Nat),
      skipUntilNextLineLoop (t.length + n) (cursorAt pre (t ++ rest) L) =
        skipUntilNextLineLoop n (cursorAt (pre ++ t) rest L) := by
  induction t with
  | nil => intro n pre rest L; simp
  | cons c t ih =>
    intro n pre rest L
    have hc := ht c (List.mem_cons_self _ _)
    have := ih (fun d hd => ht d (List.mem_cons_of_mem _ hd)) n (pre ++ [c]) rest L
    rw [List.length_cons, Nat.add_right_comm, skipUntilNextLineLoop]
    simp only [List.cons_append, cur_cursorAt_cons, consumeChar_cursorAt]
    rw [if_pos hc, this]
    simp

theorem skipUntilNextLineLoop_stop (n : Nat) (s : Tokenizer)
    (h : s.m_currentChar = '\n' ∨ s.m_currentChar = NUL) :
    skipUntilNextLineLoop n s = s := by
  cases n with
  | zero => rfl
  | succ n =>
    rw [skipUntilNextLineLoop, if_neg]
    rcases h with h | h <;> simp [h]

theorem skipUntilNextLine_line (t : List Char) (ht : ∀ c ∈ t, c ≠ '\n' ∧ c ≠ NUL)
    (pre rest : List Char) (L : Nat) :
    skipUntilNextLine (cursorAt pre (t ++ '\n' :: rest) L) =
      cursorAt (pre ++ t) ('\n' :: rest) L := by
  rw [skipUntilNextLine, budget_cursorAt, List.length_append, Nat.add_assoc,
    skipUntilNextLineLoop_run t ht, skipUntilNextLineLoop_stop]
  simp

theorem isdigit_ne_dot {c : Char} (h : isdigit c = true) : c ≠ '.' := by
  intro e; rw [e] at h; exact absurd h (by decide)

theorem scanNumericLiteralLoop_digits (a : List Char) (ha : ∀ c ∈ a, isdigit c = true) :
    ∀ (n : Nat) (pre rest : List Char) (L : Nat) (v : List Char) (d : Bool),
      scanNumericLiteralLoop (a.length + n) (cursorAt pre (a ++ rest) L) v d =
        scanNumericLiteralLoop n (cursorAt (pre ++ a) rest L) (v ++ a) d := by
  induction a with
  | nil => intro n pre rest L v d; simp
  | cons c a ih =>
    intro n pre rest L v d
    have hc := ha c (List.mem_cons_self _ _)
    have := ih (fun d hd => ha d (List.mem_cons_of_mem _ hd)) n (pre ++ [c]) rest L (v ++ [c]) d
    rw [List.length_cons, Nat.add_right_comm, scanNumericLiteralLoop]
    simp only [List.cons_append, cur_cursorAt_cons, consumeChar_cursorAt]
    rw [if_pos (Or.inl hc), if_neg (isdigit_ne_dot hc), this]
    simp

theorem scanNumericLiteralLoop_firstDot (n : Nat) (pre rest : List Char) (L : Nat)
    (v : List Char) :
    scanNumericLiteralLoop (n + 1) (cursorAt pre ('.' :: rest) L) v false =
      scanNumericLiteralLoop n (cursorAt (pre ++ ['.']) rest L) (v ++ ['.']) true := by
  rw [scanNumericLiteralLoop]
  simp [consumeChar_cursorAt]

theorem scanNumericLiteralLoop_secondDot (n : Nat) (pre rest : List Char) (L : Nat)
    (v : List Char) :
    scanNumericLiteralLoop (n + 1) (cursorAt pre ('.' :: rest) L) v true =
      (cursorAt pre ('.' :: rest) L, Except.error "Invalid numeric literal") := by
  rw [scanNumericLiteralLoop]
  simp

theorem scanNumericLiteralLoop_stop (n : Nat) (s : Tokenizer) (v : List Char) (d : Bool)
    (h1 : isdigit s.m_currentChar = false) (h2 : s.m_currentChar ≠ '.') :
    scanNumericLiteralLoop n s v d = (s, Except.ok v) := by
  cases n with
  | zero => rfl
  | succ n =>
    rw [scanNumericLiteralLoop, if_neg]
    simp [h1, h2]

/-! ## The `switch` statement, case by case -/

theorem dispatch_default (s : Tokenizer) (h : s.m_currentChar ∉ caseLabels) :
    dispatch s =
      if isdigit s.m_currentChar then
        match scanNumericLiteral s with
        | (s1, Except.ok t) => (s1, Except.ok (some t))
        | (s1, Except.error e) => (s1, Except.error e)
      else if isalpha s.m_currentChar ∨ s.m_currentChar = '_' then
        ((scanIdentifier s).1, Except.ok (some (scanIdentifier s).2))
      else (s, Except.error "Unexpected character") := by
  simp only [caseLabels, List.mem_cons, List.mem_singleton, not_or, List.not_mem_nil,
    not_false_eq_true, and_true] at h
  obtain ⟨h1, h2, h3, h4, h5, h6, h7, h8, h9, h10, h11, h12, h13, h14, h15, h16, h17, h18,
    h19, h20, h21, h22, h23⟩ := h
  unfold dispatch
  dsimp only
  rw [if_neg (by simp [h1, h2]), if_neg h3, if_neg h4, if_neg (by simp [h5, h6, h7, h8, h9, h10]),
    if_neg (by simp [h11, h12, h13, h14]), if_neg (by simp [h15, h16, h17, h18, h19, h20]),
    if_neg h21, if_neg h22, if_neg h23]

theorem isdigit_not_caseLabel {c : Char} (h : isdigit c = true) : c ∉ caseLabels := by
  intro hm
  simp only [caseLabels, List.mem_cons, List.mem_singleton, List.not_mem_nil, or_false] at hm
  rcases hm with e | e | e | e | e | e | e | e | e | e | e | e | e | e | e | e | e | e | e | e |
    e | e | e <;> (rw [e] at h; exact absurd h (by decide))

theorem isdigit_ne_NUL {c : Char} (h : isdigit c = true) : c ≠ NUL := by
  intro e; rw [e] at h; exact absurd h (by decide)

theorem dispatch_newline (pre rest : List Char) (L : Nat) :
    dispatch (cursorAt pre ('\n' :: rest) L) =
      (cursorAt (pre ++ ['\n']) rest (L + 1), Except.ok none) := by
  unfold dispatch
  dsimp only
  rw [if_neg (by simp), if_pos (by simp), consumeChar_cursorAt]
  rfl

theorem scanNumericLiteral_twoDots (a b : List Char) (ha : ∀ c ∈ a, isdigit c = true)
    (hb : ∀ c ∈ b, isdigit c = true) (pre rest : List Char) (L : Nat) :
    scanNumericLiteral (cursorAt pre (a ++ '.' :: (b ++ '.' :: rest)) L) =
      (cursorAt (pre ++ a ++ '.' :: b) ('.' :: rest) L,
        Except.error "Invalid numeric literal") := by
  have hf : (cursorAt pre (a ++ '.' :: (b ++ '.' :: rest)) L).budget =
      a.length + ((b.length + (rest.length + 1 + 1)) + 1) := by
    simp [budget_cursorAt]; omega
  rw [scanNumericLiteral, hf, scanNumericLiteralLoop_digits a ha,
    scanNumericLiteralLoop_firstDot, scanNumericLiteralLoop_digits b hb,
    scanNumericLiteralLoop_secondDot]
  simp

theorem tokenizeLoop_mono (n k : Nat) :
    ∀ (r x : Run), tokenizeLoop n r = some x → tokenizeLoop (n + k) r = some x := by
  induction n with
  | zero => intro r x h; simp [tokenizeLoop] at h
  | succ n ih =>
    intro r x h
    rw [Nat.add_right_comm, tokenizeLoop_succ]
    rw [tokenizeLoop_succ] at h
    split
    · rename_i hc; rw [if_pos hc] at h; exact h
    · rename_i hc; rw [if_neg hc] at h; exact ih _ _ h

theorem tokenize_mono (n k : Nat) (src : List Char) (o : List Token × List Diagnostic)
    (h : tokenize n src = some o) : tokenize (n + k) src = some o := by
  unfold tokenize at h ⊢
  cases hx : tokenizeLoop n (Run.start src) with
  | none => simp [hx] at h
  | some x =>
    rw [tokenizeLoop_mono n k _ x hx]
    simpa [hx] using h

theorem token_shift_zero (t : Token) : t.shift 0 = t := rfl

theorem diagnostic_shift_zero (d : Diagnostic) : d.shift 0 = d := rfl

theorem after_zero (pt : List Token) (pd : List Diagnostic) (o : List Token × List Diagnostic) :
    after pt pd 0 o = (pt ++ o.1, pd ++ o.2) := by
  have h1 : Token.shift 0 = id := funext token_shift_zero
  have h2 : Diagnostic.shift 0 = id := funext diagnostic_shift_zero
  simp [after, h1, h2]

/-- With the cursor on a newline, the loop spends one round on it and then
behaves as a fresh scanner on the text after it, one line further down. -/
theorem tokenizeLoop_newline (fuel : Nat) (pre r : List Char) (L : Nat) (ts : List Token)
    (ds : List Diagnostic) :
    (tokenizeLoop (fuel + 1) ⟨cursorAt pre ('\n' :: r) L, ts, ds⟩).map Run.out =
      (tokenize fuel r).map (after ts ds L) := by
  have e : iteration ⟨cursorAt pre ('\n' :: r) L, ts, ds⟩ =
      ⟨cursorAt (pre ++ ['\n']) r (1 + L), ts, ds⟩ := by
    rw [iteration]
    dsimp only
    rw [dispatch_newline, Nat.add_comm]
  rw [tokenizeLoop_succ, if_neg (by simp; decide), e]
  exact tokenizeLoop_resume fuel _ r L (by rw [ctor_eq_cursorAt]; exact sim_cursorAt _ _ 1 L)

theorem skipUntilNextLine_cons_line (c : Char) (t : List Char) (hc : c ≠ '\n' ∧ c ≠ NUL)
    (ht : ∀ d ∈ t, d ≠ '\n' ∧ d ≠ NUL) (pre rest : List Char) (L : Nat) :
    skipUntilNextLine (cursorAt pre (c :: (t ++ '\n' :: rest)) L) =
      cursorAt (pre ++ c :: t) ('\n' :: rest) L := by
  have ht2 : ∀ d ∈ c :: t, d ≠ '\n' ∧ d ≠ NUL := by
    intro d hd
    rcases List.mem_cons.1 hd with e | e
    · rw [e]; exact hc
    · exact ht d e
  exact skipUntilNextLine_line (c :: t) ht2 pre rest L

theorem not_caseLabel_ne_newline {c : Char} (h : c ∉ caseLabels) : c ≠ '\n' := by
  intro e; rw [e] at h; exact h (by decide)

/-! ## Identifiers and operators under the cursor -/

theorem scanIdentifierLoop_run (t : List Char) (ht : ∀ c ∈ t, isalnum c = true ∨ c = '_') :
    ∀ (n : Nat) (pre rest : List Char) (L : Nat) (v : List Char),
      scanIdentifierLoop (t.length + n) (cursorAt pre (t ++ rest) L) v =
        scanIdentifierLoop n (cursorAt (pre ++ t) rest L) (v ++ t) := by
  induction t with
  | nil => intro n pre rest L v; simp
  | cons c t ih =>
    intro n pre rest L v
    have hc := ht c (List.mem_cons_self _ _)
    have := ih (fun d hd => ht d (List.mem_cons_of_mem _ hd)) n (pre ++ [c]) rest L (v ++ [c])
    rw [List.length_cons, Nat.add_right_comm, scanIdentifierLoop]
    simp only [List.cons_append, cur_cursorAt_cons, consumeChar_cursorAt]
    rw [if_pos hc, this]
    simp

theorem scanIdentifierLoop_stop (n : Nat) (s : Tokenizer) (v : List Char)
    (h : ¬ (isalnum s.m_currentChar = true ∨ s.m_currentChar = '_')) :
    scanIdentifierLoop n s v = (s, v) := by
  cases n with
  | zero => rfl
  | succ n => rw [scanIdentifierLoop, if_neg h]

theorem scanIdentifier_run (t : List Char) (ht : ∀ c ∈ t, isalnum c = true ∨ c = '_')
    (pre rest : List Char) (L : Nat)
    (hstop : ¬ (isalnum (rest.headD NUL) = true ∨ rest.headD NUL = '_')) :
    scanIdentifier (cursorAt pre (t ++ rest) L) =
      (cursorAt (pre ++ t) rest L,
        ⟨if isKeyword t then TokenType.KEYWORD else TokenType.IDENTIFIER, t, L⟩) := by
  have e : scanIdentifierLoop (cursorAt pre (t ++ rest) L).budget (cursorAt pre (t ++ rest) L) [] =
      (cursorAt (pre ++ t) rest L, t) := by
    rw [budget_cursorAt, List.length_append, Nat.add_assoc, scanIdentifierLoop_run t ht,
      scanIdentifierLoop_stop _ _ _ hstop]
    simp
  rw [scanIdentifier, e]
  split <;> simp_all

theorem isKeyword_iff (v : List Char) :
    isKeyword v = true ↔ v ∈ keywords.map String.toList := by
  simp only [isKeyword, keywords, List.map_cons, List.map_nil, List.mem_cons,
    List.mem_singleton, Bool.or_eq_true, decide_eq_true_eq, List.not_mem_nil, or_false, or_assoc]

theorem identStart_not_caseLabel {c : Char} (h : isalpha c = true ∨ c = '_') :
    c ∉ caseLabels := by
  intro hm
  simp only [caseLabels, List.mem_cons, List.mem_singleton, List.not_mem_nil, or_false] at hm
  rcases hm with e | e | e | e | e | e | e | e | e | e | e | e | e | e | e | e | e | e | e | e |
    e | e | e <;> (rw [e] at h; exact absurd h (by decide))

theorem identStart_not_digit {c : Char} (h : isalpha c = true ∨ c = '_') :
    isdigit c = false := by
  rcases h with h | h
  · simp only [isalpha, decide_eq_true_eq] at h
    simp only [isdigit, decide_eq_false_iff_not]
    omega
  · rw [h]; decide

theorem identStart_ne_NUL {c : Char} (h : isalpha c = true ∨ c = '_') : c ≠ NUL := by
  intro e; rw [e] at h; exact absurd h (by decide)

theorem identStart_isalnum {c : Char} (h : isalpha c = true ∨ c = '_') :
    isalnum c = true ∨ c = '_' := by
  rcases h with h | h
  · exact Or.inl (by simp [isalnum, h])
  · exact Or.inr h

/-- An identifier that runs to the end of the source is the only token. -/
theorem tokenize_identifier (c : Char) (s : List Char) (hc : isalpha c = true ∨ c = '_')
    (hs : ∀ d ∈ s, isalnum d = true ∨ d = '_') :
    tokenize 2 (c :: s) =
      some ([⟨if isKeyword (c :: s) then TokenType.KEYWORD else TokenType.IDENTIFIER,
        c :: s, 1⟩], []) := by
  have hcs : ∀ d ∈ c :: s, isalnum d = true ∨ d = '_' := by
    intro d hd
    rcases List.mem_cons.1 hd with e | e
    · rw [e]; exact identStart_isalnum hc
    · exact hs d e
  have e1 : iteration (Run.start (c :: s)) =
      ⟨cursorAt (c :: s) [] 1,
        [⟨if isKeyword (c :: s) then TokenType.KEYWORD else TokenType.IDENTIFIER, c :: s, 1⟩],
        []⟩ := by
    rw [iteration, Run.start, ctor_eq_cursorAt]
    dsimp only
    rw [dispatch_default _ (identStart_not_caseLabel (by simpa using hc)),
      if_neg (by simp [identStart_not_digit hc]), if_pos (by simpa using hc)]
    have := scanIdentifier_run (c :: s) hcs [] [] 1 (by decide)
    rw [List.append_nil] at this
    rw [this]
    simp
  rw [tokenize, tokenizeLoop_succ,
    if_neg (by simpa [Run.start, Tokenizer.ctor] using identStart_ne_NUL hc), e1,
    tokenizeLoop_succ, if_pos (by simp)]
  rfl

/-- The characters whose `case` labels call `scanOperator()`. -/
theorem dispatch_operator (s : Tokenizer)
    (h : s.m_currentChar ∈ ['+', '*', '/', '^', '%', '#', '>', '<', '=', '~']) :
    dispatch s = ((scanOperator s NUL).1, Except.ok (some (scanOperator s NUL).2)) := by
  simp only [List.mem_cons, List.mem_singleton, List.not_mem_nil, or_false] at h
  unfold dispatch
  dsimp only
  rcases h with e | e | e | e | e | e | e | e | e | e <;> rw [e] <;>
    first
    | rw [if_neg (by decide), if_neg (by decide), if_neg (by decide), if_pos (by decide)]
    | rw [if_neg (by decide), if_neg (by decide), if_neg (by decide), if_neg (by decide),
        if_pos (by decide)]

theorem scanOperator_pair (c c2 : Char) (h2 : c2 ∈ ['<', '>', '=', '~'])
    (pre r : List Char) (L : Nat) :
    scanOperator (cursorAt pre (c :: c2 :: r) L) NUL =
      (cursorAt (pre ++ [c, c2]) r L, ⟨TokenType.OPERATOR, [c, c2], L⟩) := by
  simp only [List.mem_cons, List.mem_singleton, List.not_mem_nil, or_false] at h2
  rw [scanOperator]
  simp only [consumeChar_cursorAt, cur_cursorAt_cons, ne_eq, not_true_eq_false, if_false,
    List.nil_append, true_and, false_and, or_false, line_cursorAt]
  rw [if_pos h2]
  simp

theorem scanOperator_single (c : Char) (pre r : List Char) (L : Nat)
    (h : ∀ c2 ∈ r.head?, c2 ∉ ['<', '>', '=', '~']) :
    scanOperator (cursorAt pre (c :: r) L) NUL =
      (cursorAt (pre ++ [c]) r L, ⟨TokenType.OPERATOR, [c], L⟩) := by
  have hh : ¬ ((cursorAt (pre ++ [c]) r L).m_currentChar = '<' ∨
      (cursorAt (pre ++ [c]) r L).m_currentChar = '>' ∨
      (cursorAt (pre ++ [c]) r L).m_currentChar = '=' ∨
      (cursorAt (pre ++ [c]) r L).m_currentChar = '~') := by
    cases r with
    | nil => simp; decide
    | cons d r => simpa using h d (by simp)
  rw [scanOperator]
  simp only [consumeChar_cursorAt, cur_cursorAt_cons, ne_eq, not_true_eq_false, if_false,
    List.nil_append, true_and, false_and, or_false, line_cursorAt]
  rw [if_neg hh]

/-- When the first loop round on `src` emits the token `tok` without a
diagnostic and leaves the cursor in front of `rest`, the output for `src` is
`tok` followed by the output for `rest`. -/
theorem tokenize_first_token (src pre rest : List Char) (tok : Token) (fuel : Nat)
    (h0 : src.getD 0 NUL ≠ NUL)
    (h : iteration (Run.start src) = ⟨cursorAt pre rest 1, [tok], []⟩) :
    tokenize (fuel + 1) src = (tokenize fuel rest).map (fun o => (tok :: o.1, o.2)) := by
  rw [tokenize, tokenizeLoop_succ, if_neg (by simpa [Run.start, Tokenizer.ctor] using h0), h]
  have := tokenizeLoop_resume fuel ⟨cursorAt pre rest 1, [tok], []⟩ rest 0
    (by rw [ctor_eq_cursorAt]; exact sim_cursorAt pre rest 1 0)
  rw [this]
  congr 1
  funext o
  rw [after_zero]
  rfl

theorem operator_pair (c c2 : Char) (r : List Char) (fuel : Nat)
    (hc : c ∈ ['+', '*', '/', '^', '%', '#', '>', '<', '=', '~'])
    (h2 : c2 ∈ ['<', '>', '=', '~']) :
    iteration (Run.start (c :: c2 :: r)) =
        ⟨cursorAt [c, c2] r 1, [⟨TokenType.OPERATOR, [c, c2], 1⟩], []⟩ ∧
    tokenize (fuel + 1) (c :: c2 :: r) =
      (tokenize fuel r).map (fun o => (⟨TokenType.OPERATOR, [c, c2], 1⟩ :: o.1, o.2)) := by
  have e1 : iteration (Run.start (c :: c2 :: r)) =
      ⟨cursorAt [c, c2] r 1, [⟨TokenType.OPERATOR, [c, c2], 1⟩], []⟩ := by
    rw [iteration, Run.start, ctor_eq_cursorAt]
    dsimp only
    rw [dispatch_operator _ (by simpa using hc), scanOperator_pair c c2 h2]
    simp
  refine ⟨e1, tokenize_first_token _ _ _ _ fuel ?_ e1⟩
  simp only [List.getD_cons_zero]
  intro e; rw [e] at hc; exact absurd hc (by decide)

theorem operator_single (c : Char) (r : List Char) (fuel : Nat)
    (hc : c ∈ ['+', '*', '/', '^', '%', '#', '>', '<', '=', '~'])
    (h : ∀ c2 ∈ r.head?, c2 ∉ ['<', '>', '=', '~']) :
    iteration (Run.start (c :: r)) =
        ⟨cursorAt [c] r 1, [⟨TokenType.OPERATOR, [c], 1⟩], []⟩ ∧
    tokenize (fuel + 1) (c :: r) =
      (tokenize fuel r).map (fun o => (⟨TokenType.OPERATOR, [c], 1⟩ :: o.1, o.2)) := by
  have e1 : iteration (Run.start (c :: r)) =
      ⟨cursorAt [c] r 1, [⟨TokenType.OPERATOR, [c], 1⟩], []⟩ := by
    rw [iteration, Run.start, ctor_eq_cursorAt]
    dsimp only
    rw [dispatch_operator _ (by simpa using hc), scanOperator_single c _ _ _ h]
    simp
  refine ⟨e1, tokenize_first_token _ _ _ _ fuel ?_ e1⟩
  simp only [List.getD_cons_zero]
  intro e; rw [e] at hc; exact absurd hc (by decide)

/-- With the cursor on a bracket, a loop round pushes a token and leaves the
state as it was. -/
theorem iteration_bracket (b : Char) (hb : b = '[' ∨ b = ']') (ts : List Token)
    (ds : List Diagnostic) :
    iteration ⟨cursorAt [] [b] 1, ts, ds⟩ =
      ⟨cursorAt [] [b] 1, ts ++ [⟨TokenType.UNKNOWN, [b], 1⟩], ds⟩ := by
  rcases hb with e | e <;> rw [e] <;> rfl

theorem tokenizeLoop_bracket (b : Char) (hb : b = '[' ∨ b = ']') (fuel : Nat) :
    ∀ (ts : List Token) (ds : List Diagnostic),
      tokenizeLoop fuel ⟨cursorAt [] [b] 1, ts, ds⟩ = none := by
  induction fuel with
  | zero => intro ts ds; rfl
  | succ n ih =>
    intro ts ds
    rw [tokenizeLoop_succ, if_neg, iteration_bracket b hb]
    · exact ih _ _
    · rcases hb with e | e <;> rw [e] <;> simp <;> decide

/-! ## What each inner loop consumes -/

theorem skipWhitespaceLoop_span (rest : List Char) :
    ∀ (n : Nat) (pre : List Char) (L : Nat), rest.length ≤ n →
      skipWhitespaceLoop n (cursorAt pre rest L) =
        cursorAt (pre ++ rest.takeWhile isspace) (rest.dropWhile isspace) L := by
  induction rest with
  | nil =>
    intro n pre L _
    cases n with
    | zero => simp [skipWhitespaceLoop]
    | succ n =>
      rw [skipWhitespaceLoop, if_neg (by simp; decide)]
      simp
  | cons c r ih =>
    intro n pre L hn
    obtain ⟨m, rfl⟩ : ∃ m, n = m + 1 := ⟨n - 1, by simp at hn; omega⟩
    rw [skipWhitespaceLoop]
    by_cases hc : isspace c = true
    · rw [if_pos (by simpa using hc), consumeChar_cursorAt, ih m _ L (by simpa using hn)]
      simp [List.takeWhile_cons, List.dropWhile_cons, hc]
    · rw [if_neg (by simpa using hc)]
      simp [List.takeWhile_cons, List.dropWhile_cons, hc]

theorem skipWhitespace_span (pre rest : List Char) (L : Nat) :
    skipWhitespace (cursorAt pre rest L) =
      cursorAt (pre ++ rest.takeWhile isspace) (rest.dropWhile isspace) L := by
  rw [skipWhitespace, budget_cursorAt]
  exact skipWhitespaceLoop_span rest _ pre L (Nat.le_succ _)

theorem skipUntilNextLineLoop_span (rest : List Char) :
    ∀ (n : Nat) (pre : List Char) (L : Nat), rest.length ≤ n →
      skipUntilNextLineLoop n (cursorAt pre rest L) =
        cursorAt (pre ++ rest.takeWhile notLineEnd) (rest.dropWhile notLineEnd) L := by
  induction rest with
  | nil =>
    intro n pre L _
    cases n with
    | zero => simp [skipUntilNextLineLoop]
    | succ n =>
      rw [skipUntilNextLineLoop, if_neg (by simp)]
      simp
  | cons c r ih =>
    intro n pre L hn
    obtain ⟨m, rfl⟩ : ∃ m, n = m + 1 := ⟨n - 1, by simp at hn; omega⟩
    rw [skipUntilNextLineLoop]
    by_cases hc : notLineEnd c = true
    · rw [if_pos (by simpa [notLineEnd] using hc), consumeChar_cursorAt,
        ih m _ L (by simpa using hn)]
      simp [List.takeWhile_cons, List.dropWhile_cons, hc]
    · rw [if_neg (by simpa [notLineEnd] using hc)]
      simp [List.takeWhile_cons, List.dropWhile_cons, hc]

theorem skipUntilNextLine_span (pre rest : List Char) (L : Nat) :
    skipUntilNextLine (cursorAt pre rest L) =
      cursorAt (pre ++ rest.takeWhile notLineEnd) (rest.dropWhile notLineEnd) L := by
  rw [skipUntilNextLine, budget_cursorAt]
  exact skipUntilNextLineLoop_span rest _ pre L (Nat.le_succ _)

theorem scanCommentLoop_span (rest : List Char) :
    ∀ (n : Nat) (pre : List Char) (L : Nat) (v : List Char), rest.length ≤ n →
      scanCommentLoop n (cursorAt pre rest L) v =
        (cursorAt (pre ++ rest.takeWhile notLineEnd) (rest.dropWhile notLineEnd) L,
          v ++ rest.takeWhile notLineEnd) := by
  induction rest with
  | nil =>
    intro n pre L v _
    cases n with
    | zero => simp [scanCommentLoop]
    | succ n =>
      rw [scanCommentLoop, if_neg (by simp)]
      simp
  | cons c r ih =>
    intro n pre L v hn
    obtain ⟨m, rfl⟩ : ∃ m, n = m + 1 := ⟨n - 1, by simp at hn; omega⟩
    rw [scanCommentLoop]
    by_cases hc : notLineEnd c = true
    · rw [if_pos (by simpa [notLineEnd] using hc), consumeChar_cursorAt,
        ih m _ L _ (by simpa using hn)]
      simp [List.takeWhile_cons, List.dropWhile_cons, hc]
    · rw [if_neg (by simpa [notLineEnd] using hc)]
      simp [List.takeWhile_cons, List.dropWhile_cons, hc]

theorem scanIdentifierLoop_span (rest : List Char) :
    ∀ (n : Nat) (pre : List Char) (L : Nat) (v : List Char), rest.length ≤ n →
      scanIdentifierLoop n (cursorAt pre rest L) v =
        (cursorAt (pre ++ rest.takeWhile isIdentChar) (rest.dropWhile isIdentChar) L,
          v ++ rest.takeWhile isIdentChar) := by
  induction rest with
  | nil =>
    intro n pre L v _
    cases n with
    | zero => simp [scanIdentifierLoop]
    | succ n =>
      rw [scanIdentifierLoop, if_neg (by simp; decide)]
      simp
  | cons c r ih =>
    intro n pre L v hn
    obtain ⟨m, rfl⟩ : ∃ m, n = m + 1 := ⟨n - 1, by simp at hn; omega⟩
    rw [scanIdentifierLoop]
    by_cases hc : isIdentChar c = true
    · rw [if_pos (by simpa [isIdentChar] using hc), consumeChar_cursorAt,
        ih m _ L _ (by simpa using hn)]
      simp [List.takeWhile_cons, List.dropWhile_cons, hc]
    · rw [if_neg (by simpa [isIdentChar] using hc)]
      simp [List.takeWhile_cons, List.dropWhile_cons, hc]

theorem scanIdentifier_span (pre rest : List Char) (L : Nat) :
    scanIdentifier (cursorAt pre rest L) =
      (cursorAt (pre ++ rest.takeWhile isIdentChar) (rest.dropWhile isIdentChar) L,
        ⟨if isKeyword (rest.takeWhile isIdentChar) then TokenType.KEYWORD
          else TokenType.IDENTIFIER, rest.takeWhile isIdentChar, L⟩) := by
  rw [scanIdentifier, budget_cursorAt,
    scanIdentifierLoop_span rest _ pre L [] (Nat.le_succ _)]
  split <;> simp_all

/-- The numeric-literal loop consumes a chunk of the text under the cursor
and either returns it or throws; it consumes a leading digit. -/
theorem scanNumericLiteralLoop_span (rest : List Char) :
    ∀ (n : Nat) (pre : List Char) (L : Nat) (v : List Char) (d : Bool), rest.length ≤ n →
      ∃ chunk rest', rest = chunk ++ rest' ∧
        (isdigit (rest.headD NUL) = true → chunk ≠ []) ∧
        (scanNumericLiteralLoop n (cursorAt pre rest L) v d =
            (cursorAt (pre ++ chunk) rest' L, Except.ok (v ++ chunk)) ∨
         scanNumericLiteralLoop n (cursorAt pre rest L) v d =
            (cursorAt (pre ++ chunk) rest' L, Except.error "Invalid numeric literal")) := by
  induction rest with
  | nil =>
    intro n pre L v d _
    refine ⟨[], [], rfl, by simp; decide, Or.inl ?_⟩
    rw [scanNumericLiteralLoop_stop _ _ _ _ (by rw [cur_cursorAt_nil]; decide)
      (by rw [cur_cursorAt_nil]; decide)]
    simp
  | cons c r ih =>
    intro n pre L v d hn
    obtain ⟨m, rfl⟩ : ∃ m, n = m + 1 := ⟨n - 1, by simp at hn; omega⟩
    have hm : r.length ≤ m := by simpa using hn
    by_cases h1 : isdigit c = true
    · obtain ⟨chunk, rest', e, _, h⟩ := ih m (pre ++ [c]) L (v ++ [c]) d hm
      refine ⟨c :: chunk, rest', by simp [e], by simp, ?_⟩
      rw [scanNumericLiteralLoop]
      simp only [cur_cursorAt_cons, consumeChar_cursorAt]
      rw [if_pos (Or.inl h1), if_neg (isdigit_ne_dot h1)]
      simpa using h
    · by_cases h2 : c = '.'
      · subst h2
        cases d with
        | true =>
          refine ⟨[], '.' :: r, rfl, by simp [h1], Or.inr ?_⟩
          rw [scanNumericLiteralLoop_secondDot]
          simp
        | false =>
          obtain ⟨chunk, rest', e, _, h⟩ := ih m (pre ++ ['.']) L (v ++ ['.']) true hm
          refine ⟨'.' :: chunk, rest', by simp [e], by simp, ?_⟩
          rw [scanNumericLiteralLoop_firstDot]
          simpa using h
      · refine ⟨[], c :: r, rfl, by simp [h1], Or.inl ?_⟩
        rw [scanNumericLiteralLoop_stop _ _ _ _ (by simpa using h1) (by simpa using h2)]
        simp

/-! ## One loop round, in terms of the text it consumes -/

theorem dispatch_blank (s : Tokenizer) (h : s.m_currentChar = ' ' ∨ s.m_currentChar = '\t') :
    dispatch s = (skipWhitespace s, Except.ok none) := by
  unfold dispatch
  dsimp only
  rw [if_pos h]

theorem dispatch_symbol (s : Tokenizer)
    (h : s.m_currentChar ∈ ['(', ')', '{', '}', ';', ',']) :
    dispatch s = ((scanSymbol s NUL).1, Except.ok (some (scanSymbol s NUL).2)) := by
  simp only [List.mem_cons, List.mem_singleton, List.not_mem_nil, or_false] at h
  unfold dispatch
  dsimp only
  rcases h with e | e | e | e | e | e <;> rw [e] <;>
    rw [if_neg (by decide), if_neg (by decide), if_neg (by decide), if_neg (by decide),
      if_neg (by decide), if_pos (by decide)]

theorem dispatch_dot (s : Tokenizer) (h : s.m_currentChar = '.') :
    dispatch s =
      match scanDot s with
      | (s1, Except.ok t) => (s1, Except.ok (some t))
      | (s1, Except.error e) => (s1, Except.error e) := by
  unfold dispatch
  dsimp only
  rw [h, if_neg (by decide), if_neg (by decide), if_neg (by decide), if_neg (by decide),
    if_neg (by decide), if_neg (by decide), if_neg (by decide), if_neg (by decide),
    if_pos rfl]

theorem scanSymbol_NUL (c : Char) (pre rest : List Char) (L : Nat) :
    scanSymbol (cursorAt pre (c :: rest) L) NUL =
      (cursorAt (pre ++ [c]) rest L, ⟨TokenType.UNKNOWN, [c], L⟩) := by
  rw [scanSymbol, if_neg (by simp), consumeChar_cursorAt]
  rfl

theorem scanDot_one (pre rest : List Char) (L : Nat) (h : rest.headD NUL ≠ '.') :
    scanDot (cursorAt pre ('.' :: rest) L) =
      (cursorAt (pre ++ ['.']) rest L, Except.ok ⟨TokenType.UNKNOWN, ['.'], L⟩) := by
  rw [scanDot]
  simp only [consumeChar_cursorAt, cur_cursorAt_cons]
  rw [if_neg (by simpa [cursorAt] using h)]
  rfl

theorem scanDot_two (pre rest : List Char) (L : Nat) (h : rest.headD NUL ≠ '.') :
    scanDot (cursorAt pre ('.' :: '.' :: rest) L) =
      (cursorAt (pre ++ ['.', '.']) rest L, Except.error "Unexpected character") := by
  rw [scanDot]
  simp only [consumeChar_cursorAt, cur_cursorAt_cons]
  rw [if_pos trivial, if_neg (by simpa [cursorAt] using h)]
  simp

theorem scanDot_three (pre rest : List Char) (L : Nat) :
    scanDot (cursorAt pre ('.' :: '.' :: '.' :: rest) L) =
      (cursorAt (pre ++ ['.', '.', '.']) rest L,
        Except.ok ⟨TokenType.UNKNOWN, ['.', '.', '.'], L⟩) := by
  rw [scanDot]
  simp only [consumeChar_cursorAt, cur_cursorAt_cons]
  rw [if_pos trivial, if_pos trivial]
  simp

theorem iteration_none (x : Run) (s : Tokenizer) (h : dispatch x.self = (s, Except.ok none)) :
    iteration x = ⟨s, x.tokens, x.cerr⟩ := by
  rw [iteration, h]

theorem iteration_some (x : Run) (s : Tokenizer) (t : Token)
    (h : dispatch x.self = (s, Except.ok (some t))) :
    iteration x = ⟨s, x.tokens ++ [t], x.cerr⟩ := by
  rw [iteration, h]

theorem iteration_error (x : Run) (s : Tokenizer) (e : String)
    (h : dispatch x.self = (s, Except.error e)) :
    iteration x = ⟨skipUntilNextLine s, x.tokens, x.cerr ++ [⟨s.m_line, e⟩]⟩ := by
  rw [iteration, h]

theorem head_ne_of_not_cons (rest : List Char) (a : Char) (h0 : a ≠ NUL)
    (h : ∀ r, rest ≠ a :: r) : rest.headD NUL ≠ a := by
  cases rest with
  | nil => simpa using fun e => h0 e.symm
  | cons d r =>
    simp only [List.headD_cons]
    intro e
    exact h r (by rw [e])

theorem cons_of_headD_eq (rest : List Char) (a : Char) (h0 : a ≠ NUL)
    (h : rest.headD NUL = a) : ∃ r, rest = a :: r := by
  cases rest with
  | nil => exact absurd h.symm (by simpa using h0)
  | cons d r => exact ⟨r, by simp at h; rw [h]⟩

theorem dispatch_numeric_ok (s s1 : Tokenizer) (v : List Char)
    (hd : isdigit s.m_currentChar = true)
    (h : scanNumericLiteralLoop s.budget s [] false = (s1, Except.ok v)) :
    dispatch s = (s1, Except.ok (some ⟨TokenType.NUMERIC_LITERAL, v, s1.m_line⟩)) := by
  rw [dispatch_default _ (isdigit_not_caseLabel hd), if_pos hd, scanNumericLiteral, h]

theorem dispatch_numeric_error (s s1 : Tokenizer) (e : String)
    (hd : isdigit s.m_currentChar = true)
    (h : scanNumericLiteralLoop s.budget s [] false = (s1, Except.error e)) :
    dispatch s = (s1, Except.error e) := by
  rw [dispatch_default _ (isdigit_not_caseLabel hd), if_pos hd, scanNumericLiteral, h]

/-- A loop round that starts on a character other than NUL, `-`, `[` and `]`
consumes a non-empty chunk of the text under the cursor: a run of
`isspace` characters without emitting anything, or the text of the one token
it emits, or the text it rejects with one diagnostic. -/
theorem iteration_chunk (pre : List Char) (c : Char) (rest : List Char) (L : Nat)
    (ts : List Token) (ds : List Diagnostic)
    (h0 : c ≠ NUL) (h1 : c ≠ '-') (h2 : c ≠ '[') (h3 : c ≠ ']') :
    ∃ chunk rest', chunk ≠ [] ∧ c :: rest = chunk ++ rest' ∧
      ((∃ L', L ≤ L' ∧ L' ≤ L + chunk.count '\n' ∧ (∀ d ∈ chunk, isspace d = true) ∧
          iteration ⟨cursorAt pre (c :: rest) L, ts, ds⟩ =
            ⟨cursorAt (pre ++ chunk) rest' L', ts, ds⟩) ∨
       (∃ ty, iteration ⟨cursorAt pre (c :: rest) L, ts, ds⟩ =
          ⟨cursorAt (pre ++ chunk) rest' L, ts ++ [⟨ty, chunk, L⟩], ds⟩) ∨
       (∃ e, iteration ⟨cursorAt pre (c :: rest) L, ts, ds⟩ =
          ⟨cursorAt (pre ++ chunk) rest' L, ts, ds ++ [⟨L, e⟩]⟩)) := by
  by_cases c1 : c = ' ' ∨ c = '\t'
  · have hsp : isspace c = true := by rcases c1 with e | e <;> rw [e] <;> decide
    refine ⟨(c :: rest).takeWhile isspace, (c :: rest).dropWhile isspace, ?_,
      (List.takeWhile_append_dropWhile _ _).symm,
      Or.inl ⟨L, Nat.le_refl _, Nat.le_add_right _ _,
        fun d hd => (List.mem_takeWhile_imp hd), ?_⟩⟩
    · simp [List.takeWhile_cons, hsp]
    · rw [iteration_none _ _ (dispatch_blank _ (by simpa using c1)), skipWhitespace_span]
  by_cases c2 : c = '\n'
  · subst c2
    refine ⟨['\n'], rest, by simp, rfl, Or.inl ⟨L + 1, Nat.le_succ _, by simp, ?_, ?_⟩⟩
    · intro d hd
      rw [List.mem_singleton.1 hd]
      decide
    · rw [iteration_none _ _ (dispatch_newline _ _ _)]
  by_cases c4 : c ∈ ['+', '*', '/', '^', '%', '#', '>', '<', '=', '~']
  · have hd := dispatch_operator (cursorAt pre (c :: rest) L) (by simpa using c4)
    by_cases hf : ∀ c2 ∈ rest.head?, c2 ∉ ['<', '>', '=', '~']
    · rw [scanOperator_single c pre rest L hf] at hd
      exact ⟨[c], rest, by simp, rfl, Or.inr (Or.inl ⟨_, iteration_some _ _ _ hd⟩)⟩
    · cases rest with
      | nil => simp at hf
      | cons c2 r =>
        have hf2 : c2 ∈ ['<', '>', '=', '~'] := by
          by_contra hn
          refine hf (fun d hd => ?_)
          simp only [List.head?_cons, Option.mem_def, Option.some.injEq] at hd
          rw [← hd]
          exact hn
        rw [scanOperator_pair c c2 hf2 pre r L] at hd
        exact ⟨[c, c2], r, by simp, rfl, Or.inr (Or.inl ⟨_, iteration_some _ _ _ hd⟩)⟩
  by_cases c6 : c ∈ ['(', ')', '{', '}', ';', ',']
  · have hd := dispatch_symbol (cursorAt pre (c :: rest) L) (by simpa using c6)
    rw [scanSymbol_NUL] at hd
    exact ⟨[c], rest, by simp, rfl, Or.inr (Or.inl ⟨_, iteration_some _ _ _ hd⟩)⟩
  by_cases c9 : c = '.'
  · subst c9
    have hd := dispatch_dot (cursorAt pre ('.' :: rest) L) rfl
    by_cases d1 : rest.headD NUL = '.'
    · obtain ⟨r, rfl⟩ := cons_of_headD_eq rest '.' (by decide) d1
      by_cases d2 : r.headD NUL = '.'
      · obtain ⟨r', rfl⟩ := cons_of_headD_eq r '.' (by decide) d2
        rw [scanDot_three] at hd
        exact ⟨['.', '.', '.'], r', by simp, rfl, Or.inr (Or.inl ⟨_, iteration_some _ _ _ hd⟩)⟩
      · rw [scanDot_two _ _ _ d2] at hd
        dsimp only at hd
        refine ⟨['.', '.'] ++ r.takeWhile notLineEnd, r.dropWhile notLineEnd, by simp, ?_,
          Or.inr (Or.inr ⟨"Unexpected character", ?_⟩)⟩
        · simp [List.takeWhile_append_dropWhile]
        · rw [iteration_error _ _ _ hd, skipUntilNextLine_span]
          simp
    · rw [scanDot_one _ _ _ d1] at hd
      exact ⟨['.'], rest, by simp, rfl, Or.inr (Or.inl ⟨_, iteration_some _ _ _ hd⟩)⟩
  have hcl : c ∉ caseLabels := by
    simp only [List.mem_cons, List.mem_singleton, List.not_mem_nil, or_false, not_or] at c1 c4 c6
    simp only [caseLabels, List.mem_cons, List.mem_singleton, List.not_mem_nil, or_false, not_or]
    tauto
  by_cases c10 : isdigit c = true
  · obtain ⟨chunk, rest', e, hne, h⟩ :=
      scanNumericLiteralLoop_span (c :: rest) (rest.length + 1 + 1) pre L [] false (by simp)
    have hb : (cursorAt pre (c :: rest) L).budget = rest.length + 1 + 1 := by
      simp [budget_cursorAt]
    rw [← hb] at h
    rcases h with h | h
    · have hd := dispatch_numeric_ok _ _ _ (by simpa using c10) h
      exact ⟨chunk, rest', hne (by simpa using c10), e,
        Or.inr (Or.inl ⟨_, by simpa using iteration_some _ _ _ hd⟩)⟩
    · have hd := dispatch_numeric_error _ _ _ (by simpa using c10) h
      refine ⟨chunk ++ rest'.takeWhile notLineEnd, rest'.dropWhile notLineEnd, ?_, ?_,
        Or.inr (Or.inr ⟨"Invalid numeric literal", ?_⟩)⟩
      · simp [hne (by simpa using c10)]
      · rw [e]; simp [List.takeWhile_append_dropWhile]
      · rw [iteration_error _ _ _ hd, skipUntilNextLine_span]
        simp
  by_cases c11 : isalpha c = true ∨ c = '_'
  · have hid : isIdentChar c = true := by
      simpa [isIdentChar] using identStart_isalnum c11
    have hd : dispatch (cursorAt pre (c :: rest) L) = _ := dispatch_default _ (by simpa using hcl)
    rw [if_neg (by simpa using c10), if_pos (by simpa using c11), scanIdentifier_span] at hd
    refine ⟨(c :: rest).takeWhile isIdentChar, (c :: rest).dropWhile isIdentChar, ?_,
      (List.takeWhile_append_dropWhile _ _).symm,
      Or.inr (Or.inl ⟨_, iteration_some _ _ _ hd⟩)⟩
    simp [List.takeWhile_cons, hid]
  · have hd : dispatch (cursorAt pre (c :: rest) L) = _ := dispatch_default _ (by simpa using hcl)
    rw [if_neg (by simpa using c10), if_neg (by simpa using c11)] at hd
    have hnl : notLineEnd c = true := by simp [notLineEnd, c2, h0]
    refine ⟨(c :: rest).takeWhile notLineEnd, (c :: rest).dropWhile notLineEnd, ?_,
      (List.takeWhile_append_dropWhile _ _).symm,
      Or.inr (Or.inr ⟨"Unexpected character", ?_⟩)⟩
    · simp [List.takeWhile_cons, hnl]
    · rw [iteration_error _ _ _ hd, skipUntilNextLine_span]
      simp

/-! ## Lossless reconstruction -/

theorem covered_blank_append {p : List Char} {ts : List Token} (h : Covered p ts)
    (w : List Char) (hw : ∀ c ∈ w, c = ' ' ∨ c = '\t' ∨ c = '\n') : Covered (p ++ w) ts := by
  induction h with
  | blank w0 h0 =>
    refine Covered.blank (w0 ++ w) (fun c hc => ?_)
    rcases List.mem_append.1 hc with hc | hc
    · exact h0 c hc
    · exact hw c hc
  | token p' ts' t w1 hp h1 _ =>
    have := Covered.token p' ts' t (w1 ++ w) hp (fun c hc => by
      rcases List.mem_append.1 hc with hc | hc
      · exact h1 c hc
      · exact hw c hc)
    simpa [List.append_assoc] using this

theorem covered_token_append {p : List Char} {ts : List Token} (h : Covered p ts) (t : Token) :
    Covered (p ++ t.value) (ts ++ [t]) := by
  have := Covered.token p ts t [] h (by simp)
  simpa using this

theorem interleave_cons_cons (w : List Char) (ws : List (List Char)) (t : Token)
    (ts : List Token) :
    interleave (w :: ws) (t :: ts) = w ++ t.value ++ interleave ws ts := rfl

theorem interleave_snoc (w : List Char) (t : Token) :
    ∀ (ts : List Token) (ws : List (List Char)), ws.length = ts.length + 1 →
      interleave (ws ++ [w]) (ts ++ [t]) = interleave ws ts ++ t.value ++ w := by
  intro ts
  induction ts with
  | nil =>
    intro ws h
    match ws, h with
    | [w0], _ => simp [interleave]
  | cons t0 ts ih =>
    intro ws h
    match ws, h with
    | w0 :: ws', h =>
      have h' : ws'.length = ts.length + 1 := by simpa using h
      rw [List.cons_append, List.cons_append, interleave_cons_cons, ih ws' h',
        interleave_cons_cons]
      simp [List.append_assoc]

theorem covered_reconstructs {p : List Char} {ts : List Token} (h : Covered p ts) :
    Reconstructs p ts := by
  induction h with
  | blank w hw =>
    exact ⟨[w], rfl, by simpa using hw, rfl⟩
  | token p ts t w _ hw ih =>
    obtain ⟨ws, hl, ha, he⟩ := ih
    refine ⟨ws ++ [w], by simp [hl], ?_, ?_⟩
    · intro x hx
      rcases List.mem_append.1 hx with hx | hx
      · exact ha x hx
      · rw [List.mem_singleton.1 hx]; exact hw
    · rw [interleave_snoc w t ts ws hl, he]

theorem isspace_clean {d : Char} (hs : isspace d = true) (hc : Clean d) :
    d = ' ' ∨ d = '\t' ∨ d = '\n' := by
  obtain ⟨_, _, _, _, h11, h12, h13⟩ := hc
  have hd : d = Char.ofNat d.toNat := (Char.ofNat_toNat d).symm
  simp only [isspace, decide_eq_true_eq] at hs
  rcases hs with hs | ⟨h9, h13'⟩
  · left; rw [hd, hs]
  · have : d.toNat = 9 ∨ d.toNat = 10 ∨ d.toNat = 11 ∨ d.toNat = 12 ∨ d.toNat = 13 := by omega
    rcases this with e | e | e | e | e
    · right; left; rw [hd, e]
    · right; right; rw [hd, e]
    · exact absurd (by rw [hd, e]) h11
    · exact absurd (by rw [hd, e]) h12
    · exact absurd (by rw [hd, e]) h13

/-- On a text of clean characters the loop returns within one round per
character, and when it has emitted no diagnostic the consumed text is
covered by the tokens. -/
theorem tokenizeLoop_clean (n : Nat) :
    ∀ (rest pre : List Char) (L : Nat) (ts : List Token) (ds : List Diagnostic),
      rest.length < n → (∀ c ∈ rest, Clean c) →
      ∃ y, tokenizeLoop n ⟨cursorAt pre rest L, ts, ds⟩ = some y ∧
        (y.cerr = [] → ds = [] ∧ (Covered pre ts → Covered (pre ++ rest) y.tokens)) := by
  induction n with
  | zero => intro rest pre L ts ds h; exact absurd h (Nat.not_lt_zero _)
  | succ n ih =>
    intro rest pre L ts ds hn hcl
    cases rest with
    | nil =>
      refine ⟨⟨cursorAt pre [] L, ts, ds⟩, ?_, fun h => ⟨h, fun hc => by simpa using hc⟩⟩
      rw [tokenizeLoop_succ, if_pos (by simp)]
    | cons c r =>
      obtain ⟨h0, h1, h2, h3, _⟩ := hcl c (List.mem_cons_self _ _)
      obtain ⟨chunk, rest', hne, e, h⟩ := iteration_chunk pre c r L ts ds h0 h1 h2 h3
      have hlen : rest'.length < n := by
        have h1 : (c :: r).length = chunk.length + rest'.length := by rw [e, List.length_append]
        have h2 : 0 < chunk.length := List.length_pos.2 hne
        simp only [List.length_cons] at hn h1
        omega
      have hcl' : ∀ d ∈ rest', Clean d := fun d hd =>
        hcl d (by rw [e]; exact List.mem_append_right _ hd)
      have hclc : ∀ d ∈ chunk, Clean d := fun d hd =>
        hcl d (by rw [e]; exact List.mem_append_left _ hd)
      rw [tokenizeLoop_succ, if_neg (by simpa using h0)]
      rcases h with ⟨L', _, _, hsp, hit⟩ | ⟨ty, hit⟩ | ⟨msg, hit⟩
      · obtain ⟨y, hy, hc⟩ := ih rest' (pre ++ chunk) L' ts ds hlen hcl'
        refine ⟨y, by rw [hit, hy], fun hcerr => ?_⟩
        obtain ⟨hds, hcov⟩ := hc hcerr
        refine ⟨hds, fun hp => ?_⟩
        have := hcov (covered_blank_append hp chunk
          (fun d hd => isspace_clean (hsp d hd) (hclc d hd)))
        rwa [List.append_assoc, ← e] at this
      · obtain ⟨y, hy, hc⟩ := ih rest' (pre ++ chunk) L (ts ++ [⟨ty, chunk, L⟩]) ds hlen hcl'
        refine ⟨y, by rw [hit, hy], fun hcerr => ?_⟩
        obtain ⟨hds, hcov⟩ := hc hcerr
        refine ⟨hds, fun hp => ?_⟩
        have := hcov (covered_token_append hp ⟨ty, chunk, L⟩)
        rwa [List.append_assoc, ← e] at this
      · obtain ⟨y, hy, hc⟩ := ih rest' (pre ++ chunk) L ts (ds ++ [⟨L, msg⟩]) hlen hcl'
        refine ⟨y, by rw [hit, hy], fun hcerr => ?_⟩
        exact absurd (hc hcerr).1 (by simp)

theorem count_interleave (c : Char) (hc : ¬ (c = ' ' ∨ c = '\t' ∨ c = '\n')) :
    ∀ (ts : List Token) (ws : List (List Char)), ws.length = ts.length + 1 →
      (∀ w ∈ ws, ∀ d ∈ w, d = ' ' ∨ d = '\t' ∨ d = '\n') →
      (interleave ws ts).count c = (ts.map (fun t => t.value.count c)).sum := by
  intro ts
  induction ts with
  | nil =>
    intro ws h hw
    match ws, h with
    | [w0], _ =>
      simp only [interleave, List.map_nil, List.sum_nil]
      exact List.count_eq_zero.2 (fun hm => hc (hw w0 (by simp) c hm))
  | cons t0 ts ih =>
    intro ws h hw
    match ws, h with
    | w0 :: ws', h =>
      have h' : ws'.length = ts.length + 1 := by simpa using h
      have h0 : w0.count c = 0 :=
        List.count_eq_zero.2 (fun hm => hc (hw w0 (by simp) c hm))
      rw [interleave_cons_cons, List.count_append, List.count_append, h0,
        ih ws' h' (fun w hm => hw w (List.mem_cons_of_mem _ hm))]
      simp

/-- A necessary condition of reconstruction: a character that is not space,
tab or newline occurs in the source as often as in the token texts. -/
theorem reconstructs_count {src : List Char} {ts : List Token} (h : Reconstructs src ts)
    (c : Char) (hc : ¬ (c = ' ' ∨ c = '\t' ∨ c = '\n')) :
    src.count c = (ts.map (fun t => t.value.count c)).sum := by
  obtain ⟨ws, hl, hw, e⟩ := h
  rw [e]
  exact count_interleave c hc ts ws hl hw

/-! ## Budget adequacy

Every inner loop, run with the budget of the state it starts from, stops
because its condition fails (or because it throws), never because the
budget is used up.  This holds for every state, also one whose current
character does not agree with the source. -/

theorem consistent_consumeChar (s : Tokenizer) : (consumeChar s).Consistent := by
  rw [Tokenizer.Consistent, cur_consumeChar, rest_consumeChar]

theorem rest_ne_nil_of_cur {s : Tokenizer} (hs : s.Consistent) (h : s.m_currentChar ≠ NUL) :
    s.rest ≠ [] := by
  intro e
  rw [Tokenizer.Consistent, e] at hs
  exact h hs

theorem length_rest_consumeChar_le {s : Tokenizer} {n : Nat} (hs : s.Consistent)
    (h : s.m_currentChar ≠ NUL) (hn : s.rest.length ≤ n + 1) :
    (consumeChar s).rest.length ≤ n := by
  have := List.length_pos.2 (rest_ne_nil_of_cur hs h)
  rw [rest_consumeChar, List.length_tail]
  omega

theorem length_rest_consumeChar_le_self (s : Tokenizer) :
    (consumeChar s).rest.length ≤ s.rest.length := by
  rw [rest_consumeChar, List.length_tail]
  omega

theorem skipWhitespaceLoop_exit_consistent (n : Nat) :
    ∀ s : Tokenizer, s.Consistent → s.rest.length ≤ n →
      isspace (skipWhitespaceLoop n s).m_currentChar = false := by
  induction n with
  | zero =>
    intro s hs hn
    rw [skipWhitespaceLoop, hs, List.length_eq_zero.1 (Nat.le_zero.1 hn)]
    rfl
  | succ n ih =>
    intro s hs hn
    rw [skipWhitespaceLoop]
    by_cases hc : isspace s.m_currentChar = true
    · rw [if_pos hc]
      exact ih _ (consistent_consumeChar s)
        (length_rest_consumeChar_le hs (fun e => by rw [e] at hc; exact absurd hc (by decide)) hn)
    · rw [if_neg hc]
      simpa using hc

theorem skipWhitespace_exit (s : Tokenizer) :
    isspace (skipWhitespace s).m_currentChar = false := by
  rw [skipWhitespace, budget_eq, skipWhitespaceLoop]
  by_cases hc : isspace s.m_currentChar = true
  · rw [if_pos hc]
    exact skipWhitespaceLoop_exit_consistent _ _ (consistent_consumeChar s)
      (length_rest_consumeChar_le_self s)
  · rw [if_neg hc]
    simpa using hc

theorem skipUntilNextLineLoop_exit_consistent (n : Nat) :
    ∀ s : Tokenizer, s.Consistent → s.rest.length ≤ n →
      notLineEnd (skipUntilNextLineLoop n s).m_currentChar = false := by
  induction n with
  | zero =>
    intro s hs hn
    rw [skipUntilNextLineLoop, hs, List.length_eq_zero.1 (Nat.le_zero.1 hn)]
    rfl
  | succ n ih =>
    intro s hs hn
    rw [skipUntilNextLineLoop]
    by_cases hc : s.m_currentChar ≠ '\n' ∧ s.m_currentChar ≠ NUL
    · rw [if_pos hc]
      exact ih _ (consistent_consumeChar s) (length_rest_consumeChar_le hs hc.2 hn)
    · rw [if_neg hc]
      simpa [notLineEnd] using hc

theorem skipUntilNextLine_exit (s : Tokenizer) :
    (skipUntilNextLine s).m_currentChar = '\n' ∨ (skipUntilNextLine s).m_currentChar = NUL := by
  have : notLineEnd (skipUntilNextLine s).m_currentChar = false := by
    rw [skipUntilNextLine, budget_eq, skipUntilNextLineLoop]
    by_cases hc : s.m_currentChar ≠ '\n' ∧ s.m_currentChar ≠ NUL
    · rw [if_pos hc]
      exact skipUntilNextLineLoop_exit_consistent _ _ (consistent_consumeChar s)
        (length_rest_consumeChar_le_self s)
    · rw [if_neg hc]
      simpa [notLineEnd] using hc
  simp only [notLineEnd, decide_eq_false_iff_not, not_and_or, not_not] at this
  simpa using this

theorem scanCommentLoop_exit_consistent (n : Nat) :
    ∀ (s : Tokenizer) (v : List Char), s.Consistent → s.rest.length ≤ n →
      notLineEnd (scanCommentLoop n s v).1.m_currentChar = false := by
  induction n with
  | zero =>
    intro s v hs hn
    rw [scanCommentLoop, hs, List.length_eq_zero.1 (Nat.le_zero.1 hn)]
    rfl
  | succ n ih =>
    intro s v hs hn
    rw [scanCommentLoop]
    by_cases hc : s.m_currentChar ≠ '\n' ∧ s.m_currentChar ≠ NUL
    · rw [if_pos hc]
      exact ih _ _ (consistent_consumeChar s) (length_rest_consumeChar_le hs hc.2 hn)
    · rw [if_neg hc]
      simpa [notLineEnd] using hc

theorem scanComment_exit (s : Tokenizer) :
    (scanComment s).1.m_currentChar = '\n' ∨ (scanComment s).1.m_currentChar = NUL := by
  have : notLineEnd (scanComment s).1.m_currentChar = false := by
    rw [scanComment, budget_eq]
    exact scanCommentLoop_exit_consistent _ _ _ (consistent_consumeChar s) (Nat.le_succ _)
  simp only [notLineEnd, decide_eq_false_iff_not, not_and_or, not_not] at this
  simpa using this

theorem scanIdentifierLoop_exit_consistent (n : Nat) :
    ∀ (s : Tokenizer) (v : List Char), s.Consistent → s.rest.length ≤ n →
      isIdentChar (scanIdentifierLoop n s v).1.m_currentChar = false := by
  induction n with
  | zero =>
    intro s v hs hn
    rw [scanIdentifierLoop, hs, List.length_eq_zero.1 (Nat.le_zero.1 hn)]
    rfl
  | succ n ih =>
    intro s v hs hn
    rw [scanIdentifierLoop]
    by_cases hc : isalnum s.m_currentChar = true ∨ s.m_currentChar = '_'
    · rw [if_pos hc]
      refine ih _ _ (consistent_consumeChar s) (length_rest_consumeChar_le hs (fun e => ?_) hn)
      rw [e] at hc
      exact absurd hc (by decide)
    · rw [if_neg hc]
      simpa [isIdentChar] using hc

theorem scanIdentifier_exit (s : Tokenizer) :
    isIdentChar (scanIdentifier s).1.m_currentChar = false := by
  have : isIdentChar (scanIdentifierLoop s.budget s []).1.m_currentChar = false := by
    rw [budget_eq, scanIdentifierLoop]
    by_cases hc : isalnum s.m_currentChar = true ∨ s.m_currentChar = '_'
    · rw [if_pos hc]
      exact scanIdentifierLoop_exit_consistent _ _ _ (consistent_consumeChar s)
        (length_rest_consumeChar_le_self s)
    · rw [if_neg hc]
      simpa [isIdentChar] using hc
  rw [scanIdentifier]
  split <;> exact this

theorem scanNumericLiteralLoop_exit_consistent (n : Nat) :
    ∀ (s : Tokenizer) (v : List Char) (d : Bool), s.Consistent → s.rest.length ≤ n →
      ∀ w, (scanNumericLiteralLoop n s v d).2 = Except.ok w →
        isdigit (scanNumericLiteralLoop n s v d).1.m_currentChar = false ∧
        (scanNumericLiteralLoop n s v d).1.m_currentChar ≠ '.' := by
  induction n with
  | zero =>
    intro s v d hs hn w _
    rw [scanNumericLiteralLoop, hs, List.length_eq_zero.1 (Nat.le_zero.1 hn)]
    exact ⟨rfl, by decide⟩
  | succ n ih =>
    intro s v d hs hn w hw
    have h0 : isdigit s.m_currentChar = true ∨ s.m_currentChar = '.' → s.m_currentChar ≠ NUL := by
      intro hc e
      rw [e] at hc
      exact absurd hc (by decide)
    rw [scanNumericLiteralLoop] at hw ⊢
    by_cases hc : isdigit s.m_currentChar = true ∨ s.m_currentChar = '.'
    · have hl := length_rest_consumeChar_le hs (h0 hc) hn
      rw [if_pos hc] at hw ⊢
      by_cases hdot : s.m_currentChar = '.'
      · rw [if_pos hdot] at hw ⊢
        cases d with
        | true => simp at hw
        | false =>
          simp only [Bool.false_eq_true, if_false] at hw ⊢
          exact ih _ _ _ (consistent_consumeChar s) hl w hw
      · rw [if_neg hdot] at hw ⊢
        exact ih _ _ _ (consistent_consumeChar s) hl w hw
    · rw [if_neg hc]
      simp only [not_or] at hc
      exact ⟨by simpa using hc.1, hc.2⟩

theorem scanNumericLiteral_exit (s : Tokenizer) (t : Token)
    (h : (scanNumericLiteral s).2 = Except.ok t) :
    isdigit (scanNumericLiteral s).1.m_currentChar = false ∧
    (scanNumericLiteral s).1.m_currentChar ≠ '.' := by
  have key : ∀ w, (scanNumericLiteralLoop s.budget s [] false).2 = Except.ok w →
      isdigit (scanNumericLiteralLoop s.budget s [] false).1.m_currentChar = false ∧
      (scanNumericLiteralLoop s.budget s [] false).1.m_currentChar ≠ '.' := by
    intro w hw
    rw [budget_eq, scanNumericLiteralLoop] at hw ⊢
    by_cases hc : isdigit s.m_currentChar = true ∨ s.m_currentChar = '.'
    · rw [if_pos hc] at hw ⊢
      by_cases hdot : s.m_currentChar = '.'
      · rw [if_pos hdot] at hw ⊢
        simp only [Bool.false_eq_true, if_false] at hw ⊢
        exact scanNumericLiteralLoop_exit_consistent _ _ _ _ (consistent_consumeChar s)
          (length_rest_consumeChar_le_self s) w hw
      · rw [if_neg hdot] at hw ⊢
        exact scanNumericLiteralLoop_exit_consistent _ _ _ _ (consistent_consumeChar s)
          (length_rest_consumeChar_le_self s) w hw
    · rw [if_neg hc]
      simp only [not_or] at hc
      exact ⟨by simpa using hc.1, hc.2⟩
  rw [scanNumericLiteral] at h ⊢
  revert key h
  rcases scanNumericLiteralLoop s.budget s [] false with ⟨s1, r⟩
  cases r with
  | ok w => intro _ key; exact key w rfl
  | error e => intro h _; simp at h

/-! ## Reconstruction where the scanner departs from it -/

/-- On the source `--a` the Comment token has the text `-a`; the source has
two dashes and the token text one, so the source is not reconstructed. -/
theorem comment_not_reconstructed :
    tokenize 2 "--a".toList = some ([⟨TokenType.COMMENT, "-a".toList, 1⟩], []) ∧
    ¬ Reconstructs "--a".toList [⟨TokenType.COMMENT, "-a".toList, 1⟩] := by
  refine ⟨by decide, fun h => ?_⟩
  have := reconstructs_count h '-' (by decide)
  exact absurd this (by decide)

/-- On the source `-` the Operator token has the text `-` NUL; the source has
no NUL, so the source is not reconstructed. -/
theorem final_minus_not_reconstructed :
    tokenize 2 "-".toList = some ([⟨TokenType.OPERATOR, ['-', NUL], 1⟩], []) ∧
    ¬ Reconstructs "-".toList [⟨TokenType.OPERATOR, ['-', NUL], 1⟩] := by
  refine ⟨by decide, fun h => ?_⟩
  have := reconstructs_count h NUL (by decide)
  exact absurd this (by decide)

/-- On the source space, carriage return, `x` the carriage return is skipped
as white space, without a diagnostic; it is neither space, tab nor newline,
so the source is not reconstructed. -/
theorem carriage_return_not_reconstructed :
    tokenize 3 [' ', '\r', 'x'] = some ([⟨TokenType.IDENTIFIER, ['x'], 1⟩], []) ∧
    ¬ Reconstructs [' ', '\r', 'x'] [⟨TokenType.IDENTIFIER, ['x'], 1⟩] := by
  refine ⟨by decide, fun h => ?_⟩
  have := reconstructs_count h '\r' (by decide)
  exact absurd this (by decide)

/-! ## Line comments -/

theorem span_notLineEnd (b r : List Char) (hb : ∀ c ∈ b, c ≠ '\n' ∧ c ≠ NUL) :
    (b ++ '\n' :: r).takeWhile notLineEnd = b ∧
    (b ++ '\n' :: r).dropWhile notLineEnd = '\n' :: r := by
  induction b with
  | nil =>
    have hn : notLineEnd '\n' = false := by decide
    simp [List.takeWhile_cons, List.dropWhile_cons, hn]
  | cons c b ih =>
    have hc : notLineEnd c = true := by
      simpa [notLineEnd] using hb c (List.mem_cons_self _ _)
    have := ih (fun d hd => hb d (List.mem_cons_of_mem _ hd))
    simp [List.takeWhile_cons, List.dropWhile_cons, hc, this]

theorem dispatch_comment (pre rest : List Char) (L : Nat) :
    dispatch (cursorAt pre ('-' :: '-' :: rest) L) =
      (cursorAt (pre ++ ['-', '-'] ++ rest.takeWhile notLineEnd) (rest.dropWhile notLineEnd) L,
        Except.ok (some ⟨TokenType.COMMENT, '-' :: rest.takeWhile notLineEnd, L⟩)) := by
  unfold dispatch
  dsimp only
  rw [cur_cursorAt_cons, if_neg (by decide), if_neg (by decide), if_pos rfl,
    consumeChar_cursorAt, cur_cursorAt_cons, if_pos rfl, scanComment, cur_cursorAt_cons,
    consumeChar_cursorAt, budget_cursorAt,
    scanCommentLoop_span rest _ _ L _ (Nat.le_succ _)]
  simp

/-- A line comment `--b` followed by a newline and the text `r`: the Comment
token carries the text `-b`, with one dash, on line 1, and the output for
`r` follows, one line further down. -/
theorem tokenize_comment_line (b r : List Char) (hb : ∀ c ∈ b, c ≠ '\n' ∧ c ≠ NUL)
    (fuel : Nat) :
    tokenize (fuel + 2) ('-' :: '-' :: (b ++ '\n' :: r)) =
      (tokenize fuel r).map (after [⟨TokenType.COMMENT, '-' :: b, 1⟩] [] 1) := by
  obtain ⟨h1, h2⟩ := span_notLineEnd b r hb
  have hd := dispatch_comment [] (b ++ '\n' :: r) 1
  rw [h1, h2] at hd
  rw [tokenize, tokenizeLoop_succ, if_neg (by simp [Run.start, Tokenizer.ctor]; decide),
    Run.start, ctor_eq_cursorAt, iteration_some _ _ _ hd]
  exact tokenizeLoop_newline fuel _ r 1 _ _

/-! ## Dot sequences -/

theorem headD_ne_of_head? (r : List Char) (a : Char) (h0 : a ≠ NUL)
    (hr : ∀ c ∈ r.head?, c ≠ a) : r.headD NUL ≠ a := by
  cases r with
  | nil => simpa using fun e => h0 e.symm
  | cons d r => simpa using hr d (by simp)

/-- When the first loop round on `src` emits the diagnostic `dg` and no
token and leaves the cursor in front of `rest`, the output for `src` is `dg`
followed by the output for `rest`. -/
theorem tokenize_first_diagnostic (src pre rest : List Char) (dg : Diagnostic) (fuel : Nat)
    (h0 : src.getD 0 NUL ≠ NUL)
    (h : iteration (Run.start src) = ⟨cursorAt pre rest 1, [], [dg]⟩) :
    tokenize (fuel + 1) src = (tokenize fuel rest).map (fun o => (o.1, dg :: o.2)) := by
  rw [tokenize, tokenizeLoop_succ, if_neg (by simpa [Run.start, Tokenizer.ctor] using h0), h]
  have := tokenizeLoop_resume fuel ⟨cursorAt pre rest 1, [], [dg]⟩ rest 0
    (by rw [ctor_eq_cursorAt]; exact sim_cursorAt pre rest 1 0)
  rw [this]
  congr 1
  funext o
  rw [after_zero]
  rfl

theorem iteration_dot_one (r : List Char) (hr : r.headD NUL ≠ '.') :
    iteration (Run.start ('.' :: r)) =
      ⟨cursorAt ['.'] r 1, [⟨TokenType.UNKNOWN, ['.'], 1⟩], []⟩ := by
  have hd := dispatch_dot (cursorAt [] ('.' :: r) 1) rfl
  rw [scanDot_one _ _ _ hr] at hd
  rw [Run.start, ctor_eq_cursorAt, iteration_some _ _ _ hd]
  rfl

theorem iteration_dot_two (r : List Char) (hr : r.headD NUL ≠ '.') :
    iteration (Run.start ('.' :: '.' :: r)) =
      ⟨cursorAt ('.' :: '.' :: r.takeWhile notLineEnd) (r.dropWhile notLineEnd) 1, [],
        [⟨1, "Unexpected character"⟩]⟩ := by
  have hd := dispatch_dot (cursorAt [] ('.' :: '.' :: r) 1) rfl
  rw [scanDot_two _ _ _ hr] at hd
  dsimp only at hd
  rw [Run.start, ctor_eq_cursorAt, iteration_error _ _ _ hd, skipUntilNextLine_span]
  rfl

/-! ## Cursor movement of every operation -/

theorem adv_refl (s : Tokenizer) : Adv s s := Or.inl rfl

theorem advanced_consumeChar (s : Tokenizer) : Advanced s (consumeChar s) :=
  ⟨rfl, rfl, consistent_consumeChar s, Nat.lt_succ_self _⟩

theorem advanced_of_adv {a b c : Tokenizer} (h1 : Advanced a b) (h2 : Adv b c) :
    Advanced a c := by
  rcases h2 with e | ⟨e1, e2, e3, e4⟩
  · rw [e]; exact h1
  · exact ⟨e1.trans h1.1, e2.trans h1.2.1, e3, Nat.lt_trans h1.2.2.2 e4⟩

theorem adv_trans {a b c : Tokenizer} (h1 : Adv a b) (h2 : Adv b c) : Adv a c := by
  rcases h1 with e | h1
  · rw [e] at h2; exact h2
  · exact Or.inr (advanced_of_adv h1 h2)

theorem adv_source {s s' : Tokenizer} (h : Adv s s') : s'.m_sourceCode = s.m_sourceCode := by
  rcases h with e | h
  · rw [e]
  · exact h.1

theorem adv_line {s s' : Tokenizer} (h : Adv s s') : s'.m_line = s.m_line := by
  rcases h with e | h
  · rw [e]
  · exact h.2.1

theorem adv_position {s s' : Tokenizer} (h : Adv s s') : s.m_position ≤ s'.m_position := by
  rcases h with e | h
  · rw [e]
  · exact Nat.le_of_lt h.2.2.2

theorem adv_consistent {s s' : Tokenizer} (h : Adv s s') (hs : s.Consistent) :
    s'.Consistent := by
  rcases h with e | h
  · rw [e]; exact hs
  · exact h.2.2.1

theorem adv_skipWhitespaceLoop (n : Nat) : ∀ s : Tokenizer, Adv s (skipWhitespaceLoop n s) := by
  induction n with
  | zero => intro s; exact adv_refl s
  | succ n ih =>
    intro s
    rw [skipWhitespaceLoop]
    split
    · exact Or.inr (advanced_of_adv (advanced_consumeChar s) (ih _))
    · exact adv_refl s

theorem adv_skipWhitespace (s : Tokenizer) : Adv s (skipWhitespace s) :=
  adv_skipWhitespaceLoop _ s

theorem advanced_skipWhitespace (s : Tokenizer) (h : isspace s.m_currentChar = true) :
    Advanced s (skipWhitespace s) := by
  rw [skipWhitespace, Tokenizer.budget, skipWhitespaceLoop, if_pos h]
  exact advanced_of_adv (advanced_consumeChar s) (adv_skipWhitespaceLoop _ _)

theorem adv_skipUntilNextLineLoop (n : Nat) :
    ∀ s : Tokenizer, Adv s (skipUntilNextLineLoop n s) := by
  induction n with
  | zero => intro s; exact adv_refl s
  | succ n ih =>
    intro s
    rw [skipUntilNextLineLoop]
    split
    · exact Or.inr (advanced_of_adv (advanced_consumeChar s) (ih _))
    · exact adv_refl s

theorem adv_skipUntilNextLine (s : Tokenizer) : Adv s (skipUntilNextLine s) :=
  adv_skipUntilNextLineLoop _ s

theorem advanced_skipUntilNextLine (s : Tokenizer)
    (h : s.m_currentChar ≠ '\n' ∧ s.m_currentChar ≠ NUL) :
    Advanced s (skipUntilNextLine s) := by
  rw [skipUntilNextLine, Tokenizer.budget, skipUntilNextLineLoop, if_pos h]
  exact advanced_of_adv (advanced_consumeChar s) (adv_skipUntilNextLineLoop _ _)

theorem adv_scanCommentLoop (n : Nat) :
    ∀ (s : Tokenizer) (v : List Char), Adv s (scanCommentLoop n s v).1 := by
  induction n with
  | zero => intro s v; exact adv_refl s
  | succ n ih =>
    intro s v
    rw [scanCommentLoop]
    split
    · exact Or.inr (advanced_of_adv (advanced_consumeChar s) (ih _ _))
    · exact adv_refl s

theorem advanced_scanComment (s : Tokenizer) : Advanced s (scanComment s).1 :=
  advanced_of_adv (advanced_consumeChar s) (adv_scanCommentLoop _ _ _)

theorem advanced_scanOperator (s : Tokenizer) (firstChar : Char) :
    Advanced s (scanOperator s firstChar).1 := by
  rw [scanOperator]
  dsimp only
  split
  · exact advanced_of_adv (advanced_consumeChar s) (Or.inr (advanced_consumeChar _))
  · exact advanced_consumeChar s

theorem adv_scanSymbol (s : Tokenizer) (symbolChar : Char) :
    Adv s (scanSymbol s symbolChar).1 := by
  rw [scanSymbol]
  split
  · exact adv_refl s
  · exact Or.inr (advanced_consumeChar s)

theorem advanced_scanSymbol_NUL (s : Tokenizer) : Advanced s (scanSymbol s NUL).1 := by
  rw [scanSymbol, if_neg (by simp)]
  exact advanced_consumeChar s

theorem advanced_scanDot (s : Tokenizer) : Advanced s (scanDot s).1 := by
  rw [scanDot]
  dsimp only
  split
  · split
    · exact advanced_of_adv (advanced_consumeChar s)
        (Or.inr (advanced_of_adv (advanced_consumeChar _) (Or.inr (advanced_consumeChar _))))
    · exact advanced_of_adv (advanced_consumeChar s) (Or.inr (advanced_consumeChar _))
  · exact advanced_consumeChar s

theorem adv_scanNumericLiteralLoop (n : Nat) :
    ∀ (s : Tokenizer) (v : List Char) (d : Bool), Adv s (scanNumericLiteralLoop n s v d).1 := by
  induction n with
  | zero => intro s v d; exact adv_refl s
  | succ n ih =>
    intro s v d
    rw [scanNumericLiteralLoop]
    split
    · split
      · split
        · exact adv_refl s
        · exact Or.inr (advanced_of_adv (advanced_consumeChar s) (ih _ _ _))
      · exact Or.inr (advanced_of_adv (advanced_consumeChar s) (ih _ _ _))
    · exact adv_refl s

theorem state_scanNumericLiteral (s : Tokenizer) :
    (scanNumericLiteral s).1 = (scanNumericLiteralLoop s.budget s [] false).1 := by
  rw [scanNumericLiteral]
  rcases scanNumericLiteralLoop s.budget s [] false with ⟨s1, r⟩
  cases r <;> rfl

theorem adv_scanNumericLiteral (s : Tokenizer) : Adv s (scanNumericLiteral s).1 := by
  rw [state_scanNumericLiteral]
  exact adv_scanNumericLiteralLoop _ _ _ _

theorem advanced_scanNumericLiteral (s : Tokenizer) (h : isdigit s.m_currentChar = true) :
    Advanced s (scanNumericLiteral s).1 := by
  rw [state_scanNumericLiteral, Tokenizer.budget, scanNumericLiteralLoop, if_pos (Or.inl h),
    if_neg (isdigit_ne_dot h)]
  exact advanced_of_adv (advanced_consumeChar s) (adv_scanNumericLiteralLoop _ _ _ _)

theorem adv_scanIdentifierLoop (n : Nat) :
    ∀ (s : Tokenizer) (v : List Char), Adv s (scanIdentifierLoop n s v).1 := by
  induction n with
  | zero => intro s v; exact adv_refl s
  | succ n ih =>
    intro s v
    rw [scanIdentifierLoop]
    split
    · exact Or.inr (advanced_of_adv (advanced_consumeChar s) (ih _ _))
    · exact adv_refl s

theorem state_scanIdentifier (s : Tokenizer) :
    (scanIdentifier s).1 = (scanIdentifierLoop s.budget s []).1 := by
  rw [scanIdentifier]
  split <;> rfl

theorem adv_scanIdentifier (s : Tokenizer) : Adv s (scanIdentifier s).1 := by
  rw [state_scanIdentifier]
  exact adv_scanIdentifierLoop _ _ _

theorem advanced_scanIdentifier (s : Tokenizer)
    (h : isalpha s.m_currentChar = true ∨ s.m_currentChar = '_') :
    Advanced s (scanIdentifier s).1 := by
  rw [state_scanIdentifier, Tokenizer.budget, scanIdentifierLoop,
    if_pos (identStart_isalnum h)]
  exact advanced_of_adv (advanced_consumeChar s) (adv_scanIdentifierLoop _ _ _)

/-! ## Numeric literals -/

/-- The numeric-literal loop on the text under the cursor: it consumes the
whole run of digits and dots when the run, together with a dot already
seen, has at most one dot, and throws otherwise. -/
theorem scanNumericLiteralLoop_exact (rest : List Char) :
    ∀ (n : Nat) (pre : List Char) (L : Nat) (v : List Char) (d : Bool), rest.length ≤ n →
      ((rest.takeWhile isNumChar).count '.' + (if d then 1 else 0) ≤ 1 →
        scanNumericLiteralLoop n (cursorAt pre rest L) v d =
          (cursorAt (pre ++ rest.takeWhile isNumChar) (rest.dropWhile isNumChar) L,
            Except.ok (v ++ rest.takeWhile isNumChar))) ∧
      (2 ≤ (rest.takeWhile isNumChar).count '.' + (if d then 1 else 0) →
        ∃ s1, scanNumericLiteralLoop n (cursorAt pre rest L) v d =
          (s1, Except.error "Invalid numeric literal")) := by
  induction rest with
  | nil =>
    intro n pre L v d _
    refine ⟨fun _ => ?_, fun h => ?_⟩
    · rw [scanNumericLiteralLoop_stop _ _ _ _ (by rw [cur_cursorAt_nil]; decide)
        (by rw [cur_cursorAt_nil]; decide)]
      simp
    · cases d <;> simp at h
  | cons c r ih =>
    intro n pre L v d hn
    obtain ⟨m, rfl⟩ : ∃ m, n = m + 1 := ⟨n - 1, by simp at hn; omega⟩
    have hm : r.length ≤ m := by simpa using hn
    by_cases h1 : isdigit c = true
    · have hnc : isNumChar c = true := by simp [isNumChar, h1]
      have hcd : c ≠ '.' := isdigit_ne_dot h1
      have hstep : ∀ dd, scanNumericLiteralLoop (m + 1) (cursorAt pre (c :: r) L) v dd =
          scanNumericLiteralLoop m (cursorAt (pre ++ [c]) r L) (v ++ [c]) dd := by
        intro dd
        rw [scanNumericLiteralLoop]
        simp only [cur_cursorAt_cons, consumeChar_cursorAt]
        rw [if_pos (Or.inl h1), if_neg hcd]
      obtain ⟨ih1, ih2⟩ := ih m (pre ++ [c]) L (v ++ [c]) d hm
      rw [hstep]
      simp only [List.takeWhile_cons, List.dropWhile_cons, hnc, if_true,
        List.count_cons_of_ne (Ne.symm hcd)]
      refine ⟨fun h => ?_, fun h => ih2 h⟩
      rw [ih1 h]
      simp
    · by_cases h2 : c = '.'
      · subst h2
        have hnc : isNumChar '.' = true := by decide
        simp only [List.takeWhile_cons, List.dropWhile_cons, hnc, if_true,
          List.count_cons_self]
        cases d with
        | true =>
          refine ⟨fun h => by simp at h, fun _ => ⟨_, scanNumericLiteralLoop_secondDot _ _ _ _ _⟩⟩
        | false =>
          obtain ⟨ih1, ih2⟩ := ih m (pre ++ ['.']) L (v ++ ['.']) true hm
          rw [scanNumericLiteralLoop_firstDot]
          simp only [Bool.false_eq_true, if_false, if_true, Nat.add_zero] at ih1 ih2 ⊢
          refine ⟨fun h => ?_, fun h => ih2 h⟩
          rw [ih1 h]
          simp
      · have hnc : isNumChar c = false := by simp [isNumChar, h1, h2]
        simp only [List.takeWhile_cons, List.dropWhile_cons, hnc, Bool.false_eq_true,
          if_false, List.count_nil, Nat.zero_add]
        refine ⟨fun _ => ?_, fun h => by cases d <;> simp at h⟩
        rw [scanNumericLiteralLoop_stop _ _ _ _ (by simpa using h1) (by simpa using h2)]
        simp

/-- A loop round that starts on a digit: the whole run of digits and dots
becomes one NumericLiteral token when it has at most one dot, and is
rejected with the diagnostic `Invalid numeric literal`, without a token,
when it has a second dot. -/
theorem iteration_numeric (pre : List Char) (c : Char) (r : List Char) (L : Nat)
    (ts : List Token) (ds : List Diagnostic) (hc : isdigit c = true) :
    (((c :: r).takeWhile isNumChar).count '.' ≤ 1 →
      iteration ⟨cursorAt pre (c :: r) L, ts, ds⟩ =
        ⟨cursorAt (pre ++ (c :: r).takeWhile isNumChar) ((c :: r).dropWhile isNumChar) L,
          ts ++ [⟨TokenType.NUMERIC_LITERAL, (c :: r).takeWhile isNumChar, L⟩], ds⟩) ∧
    (2 ≤ ((c :: r).takeWhile isNumChar).count '.' →
      (iteration ⟨cursorAt pre (c :: r) L, ts, ds⟩).tokens = ts ∧
      (iteration ⟨cursorAt pre (c :: r) L, ts, ds⟩).cerr =
        ds ++ [⟨L, "Invalid numeric literal"⟩]) := by
  obtain ⟨h1, h2⟩ := scanNumericLiteralLoop_exact (c :: r) (cursorAt pre (c :: r) L).budget
    pre L [] false (by simp [budget_cursorAt])
  simp only [Bool.false_eq_true, if_false, Nat.add_zero] at h1 h2
  refine ⟨fun h => ?_, fun h => ?_⟩
  · have hd := dispatch_numeric_ok _ _ _ (by simpa using hc) (h1 h)
    rw [iteration_some _ _ _ hd]
    simp
  · obtain ⟨s1, hs⟩ := h2 h
    have hd := dispatch_numeric_error _ _ _ (by simpa using hc) hs
    have hl : s1.m_line = L := by
      have := adv_line (adv_scanNumericLiteralLoop (cursorAt pre (c :: r) L).budget
        (cursorAt pre (c :: r) L) [] false)
      rw [hs] at this
      simpa using this
    rw [iteration_error _ _ _ hd]
    simp [hl]

/-- When the first loop round on `src` emits one token and reaches the end
of the source, that token is the whole output. -/
theorem tokenize_single_token (src pre : List Char) (tok : Token)
    (h0 : src.getD 0 NUL ≠ NUL)
    (h : iteration (Run.start src) = ⟨cursorAt pre [] 1, [tok], []⟩) :
    tokenize 2 src = some ([tok], []) := by
  rw [tokenize, tokenizeLoop_succ, if_neg (by simpa [Run.start, Tokenizer.ctor] using h0), h,
    tokenizeLoop_succ, if_pos (by simp)]
  rfl

theorem span_isNumChar_all (l : List Char) (h : ∀ x ∈ l, isNumChar x = true) :
    l.takeWhile isNumChar = l ∧ l.dropWhile isNumChar = [] := by
  induction l with
  | nil => exact ⟨rfl, rfl⟩
  | cons c l ih =>
    have hc := h c (List.mem_cons_self _ _)
    obtain ⟨h1, h2⟩ := ih (fun x hx => h x (List.mem_cons_of_mem _ hx))
    simp [List.takeWhile_cons, List.dropWhile_cons, hc, h1, h2]

theorem count_dot_digits (l : List Char) (h : ∀ x ∈ l, isdigit x = true) :
    l.count '.' = 0 :=
  List.count_eq_zero.2 (fun hm => isdigit_ne_dot (h _ hm) rfl)

theorem isNumChar_of_isdigit {x : Char} (h : isdigit x = true) : isNumChar x = true := by
  simp [isNumChar, h]

/-! ## Symbols and brackets -/

theorem dispatch_bracket (s : Tokenizer)
    (h : s.m_currentChar = '[' ∨ s.m_currentChar = ']') :
    dispatch s = (s, Except.ok (some ⟨TokenType.UNKNOWN, [s.m_currentChar], s.m_line⟩)) := by
  unfold dispatch
  dsimp only
  rcases h with e | e <;> rw [e]
  · rw [if_neg (by decide), if_neg (by decide), if_neg (by decide), if_neg (by decide),
      if_neg (by decide), if_neg (by decide), if_pos rfl, scanSymbol, if_pos (by decide)]
  · rw [if_neg (by decide), if_neg (by decide), if_neg (by decide), if_neg (by decide),
      if_neg (by decide), if_neg (by decide), if_neg (by decide), if_pos rfl, scanSymbol,
      if_pos (by decide)]

/-- Once the cursor is on a bracket the loop never returns. -/
theorem tokenizeLoop_stuck (fuel : Nat) :
    ∀ x : Run, x.self.m_currentChar = '[' ∨ x.self.m_currentChar = ']' →
      tokenizeLoop fuel x = none := by
  induction fuel with
  | zero => intro x _; rfl
  | succ n ih =>
    intro x h
    rw [tokenizeLoop_succ, if_neg (by rcases h with e | e <;> rw [e] <;> decide),
      iteration_some _ _ _ (dispatch_bracket _ h)]
    exact ih _ h

/-- A source made only of the symbols `( ) { } ; ,` is one Unclassified token
per character. -/
theorem tokenizeLoop_symbols (s : List Char) (hs : ∀ c ∈ s, c ∈ ['(', ')', '{', '}', ';', ',']) :
    ∀ (pre : List Char) (L : Nat) (ts : List Token) (ds : List Diagnostic),
      tokenizeLoop (s.length + 1) ⟨cursorAt pre s L, ts, ds⟩ =
        some ⟨cursorAt (pre ++ s) [] L, ts ++ s.map (fun c => ⟨TokenType.UNKNOWN, [c], L⟩),
          ds⟩ := by
  induction s with
  | nil =>
    intro pre L ts ds
    rw [tokenizeLoop_succ, if_pos (by simp)]
    simp
  | cons c s ih =>
    intro pre L ts ds
    have hc := hs c (List.mem_cons_self _ _)
    have hd := dispatch_symbol (cursorAt pre (c :: s) L) (by simpa using hc)
    rw [scanSymbol_NUL] at hd
    have h0 : c ≠ NUL := by
      intro e; rw [e] at hc; exact absurd hc (by decide)
    rw [List.length_cons, tokenizeLoop_succ, if_neg (by simpa using h0),
      iteration_some _ _ _ hd, ih (fun d hd => hs d (List.mem_cons_of_mem _ hd))]
    simp

theorem tokenize_symbols (s : List Char) (hs : ∀ c ∈ s, c ∈ ['(', ')', '{', '}', ';', ',']) :
    tokenize (s.length + 1) s =
      some (s.map (fun c => ⟨TokenType.UNKNOWN, [c], 1⟩), []) := by
  rw [tokenize, Run.start, ctor_eq_cursorAt, tokenizeLoop_symbols s hs]
  simp

/-! ## What the scanners put into a token -/

theorem scanCommentLoop_value (n : Nat) :
    ∀ (s : Tokenizer) (v : List Char),
      ∃ w, (scanCommentLoop n s v).2 = v ++ w ∧ ∀ c ∈ w, c ≠ '\n' := by
  induction n with
  | zero => intro s v; exact ⟨[], by simp [scanCommentLoop], by simp⟩
  | succ n ih =>
    intro s v
    rw [scanCommentLoop]
    split
    · rename_i hc
      obtain ⟨w, hw, hn⟩ := ih (consumeChar s) (v ++ [s.m_currentChar])
      refine ⟨s.m_currentChar :: w, by rw [hw]; simp, fun c hm => ?_⟩
      rcases List.mem_cons.1 hm with e | e
      · rw [e]; exact hc.1
      · exact hn c e
    · exact ⟨[], by simp, by simp⟩

theorem wellKinded_scanComment (s : Tokenizer) (h : s.m_currentChar = '-') :
    WellKinded (scanComment s).2 ∧ (scanComment s).2.line = s.m_line := by
  obtain ⟨w, hw, hn⟩ := scanCommentLoop_value (consumeChar s).budget (consumeChar s)
    [s.m_currentChar]
  refine ⟨?_, ?_⟩
  · show '\n' ∉ (scanCommentLoop (consumeChar s).budget (consumeChar s) [s.m_currentChar]).2
    rw [hw, h]
    intro hm
    rcases List.mem_append.1 hm with e | e
    · exact absurd e (by decide)
    · exact hn _ e rfl
  · exact (advanced_scanComment s).2.1

theorem scanIdentifierLoop_value (n : Nat) :
    ∀ (s : Tokenizer) (v : List Char),
      ∃ w, (scanIdentifierLoop n s v).2 = v ++ w ∧
        ∀ c ∈ w, isalnum c = true ∨ c = '_' := by
  induction n with
  | zero => intro s v; exact ⟨[], by simp [scanIdentifierLoop], by simp⟩
  | succ n ih =>
    intro s v
    rw [scanIdentifierLoop]
    split
    · rename_i hc
      obtain ⟨w, hw, hn⟩ := ih (consumeChar s) (v ++ [s.m_currentChar])
      refine ⟨s.m_currentChar :: w, by rw [hw]; simp, fun c hm => ?_⟩
      rcases List.mem_cons.1 hm with e | e
      · rw [e]; exact hc
      · exact hn c e
    · exact ⟨[], by simp, by simp⟩

theorem wellKinded_scanIdentifier (s : Tokenizer)
    (h : isalpha s.m_currentChar = true ∨ s.m_currentChar = '_') :
    WellKinded (scanIdentifier s).2 ∧ (scanIdentifier s).2.line = s.m_line := by
  obtain ⟨w, hw, hn⟩ := scanIdentifierLoop_value (s.m_sourceCode.length - s.m_position)
    (consumeChar s) [s.m_currentChar]
  have hv : (scanIdentifierLoop s.budget s []).2 = s.m_currentChar :: w := by
    rw [Tokenizer.budget, scanIdentifierLoop, if_pos (identStart_isalnum h)]
    simpa using hw
  have hline := adv_line (adv_scanIdentifier s)
  rw [state_scanIdentifier] at hline
  rw [scanIdentifier]
  split
  · rename_i hk
    exact ⟨(isKeyword_iff _).1 hk, hline⟩
  · rename_i hk
    refine ⟨⟨?_, ?_, ?_, fun hm => hk ((isKeyword_iff _).2 hm)⟩, hline⟩
    · show (scanIdentifierLoop s.budget s []).2 ≠ []
      rw [hv]; simp
    · show ∀ c ∈ (scanIdentifierLoop s.budget s []).2, _
      rw [hv]
      intro c hm
      have hc : isalnum c = true ∨ c = '_' := by
        rcases List.mem_cons.1 hm with e | e
        · rw [e]; exact identStart_isalnum h
        · exact hn c e
      rcases hc with hc | hc
      · simp only [isalnum, Bool.or_eq_true] at hc
        rcases hc with hc | hc
        · exact Or.inl hc
        · exact Or.inr (Or.inl hc)
      · exact Or.inr (Or.inr hc)
    · show isdigit ((scanIdentifierLoop s.budget s []).2.headD NUL) = false
      rw [hv]
      exact identStart_not_digit h

theorem scanNumericLiteralLoop_value (n : Nat) :
    ∀ (s : Tokenizer) (v : List Char) (d : Bool) (u : List Char),
      (scanNumericLiteralLoop n s v d).2 = Except.ok u →
      ∃ w, u = v ++ w ∧ (∀ c ∈ w, isdigit c = true ∨ c = '.') ∧
        w.count '.' + (if d then 1 else 0) ≤ 1 := by
  induction n with
  | zero =>
    intro s v d u h
    simp only [scanNumericLiteralLoop, Except.ok.injEq] at h
    exact ⟨[], by simp [h], by simp, by cases d <;> simp⟩
  | succ n ih =>
    intro s v d u h
    rw [scanNumericLiteralLoop] at h
    by_cases hc : isdigit s.m_currentChar = true ∨ s.m_currentChar = '.'
    · rw [if_pos hc] at h
      by_cases hdot : s.m_currentChar = '.'
      · rw [if_pos hdot] at h
        cases d with
        | true => simp at h
        | false =>
          simp only [Bool.false_eq_true, if_false] at h
          obtain ⟨w, hw, hall, hcount⟩ := ih _ _ _ _ h
          refine ⟨s.m_currentChar :: w, by rw [hw]; simp, fun c hm => ?_, ?_⟩
          · rcases List.mem_cons.1 hm with e | e
            · rw [e]; exact hc
            · exact hall c e
          · rw [hdot, List.count_cons_self]
            simpa using hcount
      · rw [if_neg hdot] at h
        obtain ⟨w, hw, hall, hcount⟩ := ih _ _ _ _ h
        refine ⟨s.m_currentChar :: w, by rw [hw]; simp, fun c hm => ?_, ?_⟩
        · rcases List.mem_cons.1 hm with e | e
          · rw [e]; exact hc
          · exact hall c e
        · rw [List.count_cons_of_ne (Ne.symm hdot)]
          exact hcount
    · rw [if_neg hc] at h
      simp only [Except.ok.injEq] at h
      exact ⟨[], by simp [h], by simp, by cases d <;> simp⟩

theorem wellKinded_scanNumericLiteral (s : Tokenizer) (h : isdigit s.m_currentChar = true)
    (t : Token) (ht : (scanNumericLiteral s).2 = Except.ok t) :
    WellKinded t ∧ t.line = s.m_line := by
  have hline := adv_line (adv_scanNumericLiteral s)
  rw [scanNumericLiteral] at ht hline
  have hstep : scanNumericLiteralLoop s.budget s [] false =
      scanNumericLiteralLoop (s.m_sourceCode.length - s.m_position) (consumeChar s)
        ([] ++ [s.m_currentChar]) false := by
    rw [Tokenizer.budget, scanNumericLiteralLoop, if_pos (Or.inl h), if_neg (isdigit_ne_dot h)]
  revert ht hline
  rw [hstep]
  have key := scanNumericLiteralLoop_value (s.m_sourceCode.length - s.m_position)
    (consumeChar s) ([] ++ [s.m_currentChar]) false
  revert key
  rcases scanNumericLiteralLoop (s.m_sourceCode.length - s.m_position) (consumeChar s)
    ([] ++ [s.m_currentChar]) false with ⟨s1, r⟩
  cases r with
  | error e => intro _ ht; simp at ht
  | ok u =>
    intro key ht hline
    simp only [Except.ok.injEq] at ht
    obtain ⟨w, hw, hall, hcount⟩ := key u rfl
    simp only [List.nil_append, List.singleton_append, Bool.false_eq_true, if_false,
      Nat.add_zero] at hw hcount
    subst ht
    refine ⟨⟨?_, ?_, ?_⟩, hline⟩
    · show isdigit (u.headD NUL) = true
      rw [hw]; exact h
    · show ∀ c ∈ u, _
      rw [hw]
      intro c hm
      rcases List.mem_cons.1 hm with e | e
      · rw [e]; exact Or.inl h
      · exact hall c e
    · show u.count '.' ≤ 1
      rw [hw, List.count_cons_of_ne (Ne.symm (isdigit_ne_dot h))]
      exact hcount

/-! ## Every loop round is one of four kinds -/

theorem wellKinded_of_operator (t : Token) (h : t.type = TokenType.OPERATOR) :
    WellKinded t := by
  unfold WellKinded
  rw [h]
  trivial

theorem wellKinded_of_unknown (t : Token) (h : t.type = TokenType.UNKNOWN) :
    WellKinded t := by
  unfold WellKinded
  rw [h]
  trivial

theorem token_scanOperator (s : Tokenizer) (firstChar : Char) :
    (scanOperator s firstChar).2.type = TokenType.OPERATOR ∧
    (scanOperator s firstChar).2.line = s.m_line := by
  rw [scanOperator]
  dsimp only
  split <;> exact ⟨rfl, rfl⟩

theorem token_scanSymbol (s : Tokenizer) (symbolChar : Char) :
    (scanSymbol s symbolChar).2.type = TokenType.UNKNOWN ∧
    (scanSymbol s symbolChar).2.line = s.m_line := by
  rw [scanSymbol]
  split <;> exact ⟨rfl, rfl⟩

theorem token_scanDot (s : Tokenizer) (t : Token) (h : (scanDot s).2 = Except.ok t) :
    t.type = TokenType.UNKNOWN ∧ t.line = s.m_line := by
  rw [scanDot] at h
  dsimp only at h
  split at h
  · split at h
    · simp only [Except.ok.injEq] at h
      rw [← h]
      exact ⟨rfl, rfl⟩
    · simp at h
  · simp only [Except.ok.injEq] at h
    rw [← h]
    exact ⟨rfl, rfl⟩

theorem dispatch_newline_state (s : Tokenizer) (h : s.m_currentChar = '\n') :
    dispatch s =
      ({ consumeChar s with m_line := s.m_line + 1 }, Except.ok none) := by
  unfold dispatch
  dsimp only
  rw [h, if_neg (by decide), if_pos rfl]
  rfl

theorem dispatch_minus (s : Tokenizer) (h : s.m_currentChar = '-') :
    dispatch s =
      if (consumeChar s).m_currentChar = '-' then
        ((scanComment (consumeChar s)).1, Except.ok (some (scanComment (consumeChar s)).2))
      else
        ((scanOperator (consumeChar s) '-').1,
          Except.ok (some (scanOperator (consumeChar s) '-').2)) := by
  unfold dispatch
  dsimp only
  rw [h, if_neg (by decide), if_neg (by decide), if_pos rfl]

/-- One round of the loop of `tokenize`, whatever the state it starts in. -/
theorem round_iteration (x : Run) : Round x (iteration x) := by
  by_cases c1 : x.self.m_currentChar = ' ' ∨ x.self.m_currentChar = '\t'
  · rw [iteration_none _ _ (dispatch_blank _ c1)]
    refine Round.blank x _ ?_ (advanced_skipWhitespace _ ?_)
    · rcases c1 with e | e <;> rw [e] <;> decide
    · rcases c1 with e | e <;> rw [e] <;> decide
  by_cases c2 : x.self.m_currentChar = '\n'
  · rw [iteration_none _ _ (dispatch_newline_state _ c2)]
    exact Round.newline x c2
  by_cases c3 : x.self.m_currentChar = '-'
  · have hd := dispatch_minus _ c3
    by_cases c3a : (consumeChar x.self).m_currentChar = '-'
    · rw [if_pos c3a] at hd
      rw [iteration_some _ _ _ hd]
      have ha := advanced_of_adv (advanced_consumeChar x.self)
        (Or.inr (advanced_scanComment (consumeChar x.self)))
      have hw := wellKinded_scanComment (consumeChar x.self) c3a
      exact Round.token x _ _ c2 (Or.inr ha) (fun _ _ => ha.2.2.2) hw.2 hw.1
    · rw [if_neg c3a] at hd
      rw [iteration_some _ _ _ hd]
      have ha := advanced_of_adv (advanced_consumeChar x.self)
        (Or.inr (advanced_scanOperator (consumeChar x.self) '-'))
      have ht := token_scanOperator (consumeChar x.self) '-'
      exact Round.token x _ _ c2 (Or.inr ha) (fun _ _ => ha.2.2.2) ht.2
        (wellKinded_of_operator _ ht.1)
  by_cases c4 : x.self.m_currentChar ∈ ['+', '*', '/', '^', '%', '#', '>', '<', '=', '~']
  · rw [iteration_some _ _ _ (dispatch_operator _ c4)]
    have ha := advanced_scanOperator x.self NUL
    have ht := token_scanOperator x.self NUL
    exact Round.token x _ _ c2 (Or.inr ha) (fun _ _ => ha.2.2.2) ht.2
      (wellKinded_of_operator _ ht.1)
  by_cases c6 : x.self.m_currentChar ∈ ['(', ')', '{', '}', ';', ',']
  · rw [iteration_some _ _ _ (dispatch_symbol _ c6)]
    have ha := advanced_scanSymbol_NUL x.self
    have ht := token_scanSymbol x.self NUL
    exact Round.token x _ _ c2 (Or.inr ha) (fun _ _ => ha.2.2.2) ht.2
      (wellKinded_of_unknown _ ht.1)
  by_cases c7 : x.self.m_currentChar = '[' ∨ x.self.m_currentChar = ']'
  · rw [iteration_some _ _ _ (dispatch_bracket _ c7)]
    refine Round.token x _ _ c2 (adv_refl _) (fun h1 h2 => ?_) rfl
      (wellKinded_of_unknown _ rfl)
    rcases c7 with e | e
    · exact absurd e h1
    · exact absurd e h2
  by_cases c9 : x.self.m_currentChar = '.'
  · have hd := dispatch_dot _ c9
    have ha := advanced_scanDot x.self
    have ht := token_scanDot x.self
    revert hd ha ht
    rcases scanDot x.self with ⟨s1, r⟩
    cases r with
    | ok t =>
      intro hd ha ht
      rw [iteration_some _ _ _ hd]
      exact Round.token x _ _ c2 (Or.inr ha) (fun _ _ => ha.2.2.2) (ht t rfl).2
        (wellKinded_of_unknown _ (ht t rfl).1)
    | error e =>
      intro hd ha _
      have ha2 := advanced_of_adv ha (adv_skipUntilNextLine s1)
      have hl : s1.m_line = x.self.m_line := ha.2.1
      rw [iteration_error _ _ _ hd, hl]
      exact Round.reject x _ e c2 (Or.inr ha2) (fun _ => ha2.2.2.2) (skipUntilNextLine_exit s1)
  have hcl : x.self.m_currentChar ∉ caseLabels := by
    simp only [List.mem_cons, List.mem_singleton, List.not_mem_nil, or_false, not_or]
      at c1 c4 c6 c7
    simp only [caseLabels, List.mem_cons, List.mem_singleton, List.not_mem_nil, or_false, not_or]
    tauto
  have hd := dispatch_default _ hcl
  by_cases c10 : isdigit x.self.m_currentChar = true
  · rw [if_pos c10] at hd
    have ha := advanced_scanNumericLiteral x.self c10
    have ht := wellKinded_scanNumericLiteral x.self c10
    revert hd ha ht
    rcases scanNumericLiteral x.self with ⟨s1, r⟩
    cases r with
    | ok t =>
      intro hd ha ht
      rw [iteration_some _ _ _ hd]
      exact Round.token x _ _ c2 (Or.inr ha) (fun _ _ => ha.2.2.2) (ht t rfl).2 (ht t rfl).1
    | error e =>
      intro hd ha _
      have ha2 := advanced_of_adv ha (adv_skipUntilNextLine s1)
      have hl : s1.m_line = x.self.m_line := ha.2.1
      rw [iteration_error _ _ _ hd, hl]
      exact Round.reject x _ e c2 (Or.inr ha2) (fun _ => ha2.2.2.2) (skipUntilNextLine_exit s1)
  rw [if_neg c10] at hd
  by_cases c11 : isalpha x.self.m_currentChar = true ∨ x.self.m_currentChar = '_'
  · rw [if_pos c11] at hd
    rw [iteration_some _ _ _ hd]
    have ha := advanced_scanIdentifier x.self c11
    have hw := wellKinded_scanIdentifier x.self c11
    exact Round.token x _ _ c2 (Or.inr ha) (fun _ _ => ha.2.2.2) hw.2 hw.1
  · rw [if_neg c11] at hd
    rw [iteration_error _ _ _ hd]
    exact Round.reject x _ _ c2 (adv_skipUntilNextLine _)
      (fun h0 => (advanced_skipUntilNextLine _ ⟨c2, h0⟩).2.2.2) (skipUntilNextLine_exit _)

/-! ## The loop invariant -/

theorem count_take_mono (l : List Char) (a : Char) {p q : Nat} (h : p ≤ q) :
    (l.take p).count a ≤ (l.take q).count a :=
  (List.take_sublist_take_left l h).count_le a

theorem count_take_le (l : List Char) (a : Char) (p : Nat) :
    (l.take p).count a ≤ l.count a :=
  (List.take_sublist p l).count_le a

theorem count_take_newline (s : Tokenizer) (hs : s.Consistent)
    (h : s.m_currentChar = '\n') :
    (s.m_sourceCode.take (s.m_position + 1)).count '\n' =
      (s.m_sourceCode.take s.m_position).count '\n' + 1 := by
  rw [Tokenizer.Consistent, Tokenizer.rest, List.headD_eq_head?_getD, List.head?_drop] at hs
  rw [List.take_succ, List.count_append]
  cases hg : s.m_sourceCode[s.m_position]? with
  | none =>
    rw [hg] at hs
    rw [h] at hs
    exact absurd hs (by decide)
  | some c =>
    rw [hg] at hs
    simp only [Option.getD_some] at hs
    rw [← hs, h]
    simp

theorem runInv_start (src : List Char) : RunInv src (Run.start src) := by
  refine ⟨rfl, ?_, Nat.le_refl _, Nat.le_add_right _ _, ?_, List.Pairwise.nil, ?_,
    List.Pairwise.nil, ?_⟩
  · rw [Run.start, Tokenizer.Consistent, Tokenizer.rest]
    cases src <;> rfl
  · intro t ht; exact absurd ht (List.not_mem_nil _)
  · intro d hd; exact absurd hd (List.not_mem_nil _)
  · rintro ⟨d, hd, _⟩; exact absurd hd (List.not_mem_nil _)

/-- A loop round that starts on a character other than NUL keeps the loop
invariant. -/
theorem runInv_round {src : List Char} {x y : Run} (h : RunInv src x)
    (h0 : x.self.m_currentChar ≠ NUL) (hr : Round x y) : RunInv src y := by
  obtain ⟨h1, h2, h3, h4, h5, h6, h7, h8, h9⟩ := h
  have hlt : ∀ d ∈ x.cerr, x.self.m_currentChar ≠ '\n' → d.line < x.self.m_line := by
    intro d hd hn
    rcases Nat.lt_or_ge d.line x.self.m_line with hl | hl
    · exact hl
    · rcases h9 ⟨d, hd, Nat.le_antisymm (h7 d hd).2 hl⟩ with e | e
      · exact absurd e hn
      · exact absurd e h0
  cases hr with
  | blank s' hn ha =>
    obtain ⟨a1, a2, a3, a4⟩ := ha
    refine ⟨a1.trans h1, a3, by rw [a2]; exact h3, ?_, ?_, h6, ?_, h8, ?_⟩
    · rw [a2]
      exact Nat.le_trans h4 (Nat.add_le_add_left (count_take_mono src '\n' (Nat.le_of_lt a4)) 1)
    · intro t ht; rw [a2]; exact h5 t ht
    · intro d hd; rw [a2]; exact h7 d hd
    · rintro ⟨d, hd, he⟩
      rw [a2] at he
      exact absurd he (Nat.ne_of_lt (hlt d hd hn))
  | newline hn =>
    refine ⟨h1, consistent_consumeChar x.self, Nat.le_succ_of_le h3, ?_, ?_, h6, ?_, h8, ?_⟩
    · show x.self.m_line + 1 ≤ 1 + (src.take (x.self.m_position + 1)).count '\n'
      have := count_take_newline x.self h2 hn
      rw [h1] at this
      omega
    · intro t ht
      have := h5 t ht
      exact ⟨this.1, Nat.le_succ_of_le this.2.1, this.2.2⟩
    · intro d hd
      have := h7 d hd
      exact ⟨this.1, Nat.le_succ_of_le this.2⟩
    · rintro ⟨d, hd, he⟩
      have := (h7 d hd).2
      have he' : d.line = x.self.m_line + 1 := he
      omega
  | token s' t hn ha hp hl hk =>
    have a1 := adv_source ha
    have a2 := adv_line ha
    refine ⟨a1.trans h1, adv_consistent ha h2, by rw [a2]; exact h3, ?_, ?_, ?_, ?_, h8, ?_⟩
    · rw [a2]
      exact Nat.le_trans h4 (Nat.add_le_add_left (count_take_mono src '\n' (adv_position ha)) 1)
    · intro u hu
      rw [a2]
      rcases List.mem_append.1 hu with hu | hu
      · exact h5 u hu
      · rw [List.mem_singleton.1 hu, hl]
        exact ⟨h3, Nat.le_refl _, hk⟩
    · refine List.pairwise_append.2 ⟨h6, List.pairwise_singleton _ _, fun a ha' b hb => ?_⟩
      rw [List.mem_singleton.1 hb, hl]
      exact (h5 a ha').2.1
    · intro d hd; rw [a2]; exact h7 d hd
    · rintro ⟨d, hd, he⟩
      rw [a2] at he
      exact absurd he (Nat.ne_of_lt (hlt d hd hn))
  | reject s' e hn ha hp hc =>
    have a1 := adv_source ha
    have a2 := adv_line ha
    refine ⟨a1.trans h1, adv_consistent ha h2, by rw [a2]; exact h3, ?_, ?_, h6, ?_, ?_,
      fun _ => hc⟩
    · rw [a2]
      exact Nat.le_trans h4 (Nat.add_le_add_left (count_take_mono src '\n' (adv_position ha)) 1)
    · intro t ht; rw [a2]; exact h5 t ht
    · intro d hd
      rw [a2]
      rcases List.mem_append.1 hd with hd | hd
      · exact h7 d hd
      · rw [List.mem_singleton.1 hd]
        exact ⟨h3, Nat.le_refl _⟩
    · refine List.pairwise_append.2 ⟨h8, List.pairwise_singleton _ _, fun a ha' b hb => ?_⟩
      rw [List.mem_singleton.1 hb]
      exact hlt a ha' hn

theorem rounds_succ (n : Nat) (r : Run) :
    rounds (n + 1) r = if r.self.m_currentChar = NUL then r else rounds n (iteration r) := rfl

theorem runInv_rounds_from (src : List Char) (n : Nat) :
    ∀ x : Run, RunInv src x → RunInv src (rounds n x) := by
  induction n with
  | zero => intro x h; exact h
  | succ n ih =>
    intro x h
    rw [rounds_succ]
    split
    · exact h
    · rename_i h0
      exact ih _ (runInv_round h h0 (round_iteration x))

/-- The loop invariant holds after any number of rounds on any source. -/
theorem runInv_rounds (src : List Char) (n : Nat) : RunInv src (rounds n (Run.start src)) :=
  runInv_rounds_from src n _ (runInv_start src)

/-- What the loop returns is the state it has after as many rounds as it was
given fuel for, and the current character is then NUL. -/
theorem tokenizeLoop_eq_rounds (fuel : Nat) :
    ∀ x y : Run, tokenizeLoop fuel x = some y →
      y = rounds fuel x ∧ y.self.m_currentChar = NUL := by
  induction fuel with
  | zero => intro x y h; simp [tokenizeLoop] at h
  | succ n ih =>
    intro x y h
    rw [tokenizeLoop_succ] at h
    rw [rounds_succ]
    by_cases h0 : x.self.m_currentChar = NUL
    · rw [if_pos h0] at h ⊢
      simp only [Option.some.injEq] at h
      rw [← h]
      exact ⟨rfl, h0⟩
    · rw [if_neg h0] at h ⊢
      exact ih _ _ h

theorem tokenizeLoop_of_rounds (n : Nat) :
    ∀ x : Run, (rounds n x).self.m_currentChar = NUL →
      tokenizeLoop (n + 1) x = some (rounds n x) := by
  induction n with
  | zero =>
    intro x h
    have h' : x.self.m_currentChar = NUL := h
    rw [tokenizeLoop_succ, if_pos h']
    rfl
  | succ n ih =>
    intro x h
    rw [rounds_succ] at h ⊢
    rw [tokenizeLoop_succ]
    by_cases h0 : x.self.m_currentChar = NUL
    · rw [if_pos h0, if_pos h0]
    · rw [if_neg h0] at h ⊢
      rw [if_neg h0]
      exact ih _ h

/-- What `tokenize` returns is the output of the loop state reached. -/
theorem tokenize_eq_rounds (fuel : Nat) (src : List Char) (out : List Token × List Diagnostic)
    (h : tokenize fuel src = some out) :
    out = ((rounds fuel (Run.start src)).tokens, (rounds fuel (Run.start src)).cerr) := by
  rw [tokenize] at h
  cases hx : tokenizeLoop fuel (Run.start src) with
  | none => rw [hx] at h; simp at h
  | some y =>
    rw [hx] at h
    simp only [Option.map_some', Option.some.injEq] at h
    rw [← h, (tokenizeLoop_eq_rounds fuel _ _ hx).1]

/-! ## Consequences of the loop invariant -/

theorem cursorInv_iff_consistent (s : Tokenizer) : CursorInv s ↔ s.Consistent := by
  rw [CursorInv, Tokenizer.Consistent, Tokenizer.rest, List.headD_eq_head?_getD,
    List.head?_drop]
  by_cases h : s.m_position < s.m_sourceCode.length
  · rw [List.getElem?_eq_getElem h]
    simp only [Option.getD_some, List.get_eq_getElem]
    exact ⟨fun hc => hc.1 h, fun hc => ⟨fun _ => hc, fun hl => absurd h (Nat.not_lt.2 hl)⟩⟩
  · rw [List.getElem?_eq_none (Nat.not_lt.1 h)]
    simp only [Option.getD_none]
    exact ⟨fun hc => hc.2 (Nat.not_lt.1 h), fun hc => ⟨fun hl => absurd hl h, fun _ => hc⟩⟩

theorem cursorInv_of_adv {s s' : Tokenizer} (h : Adv s s') (hs : CursorInv s) :
    CursorInv s' ∧ s.m_position ≤ s'.m_position :=
  ⟨(cursorInv_iff_consistent s').2 (adv_consistent h ((cursorInv_iff_consistent s).1 hs)),
    adv_position h⟩

theorem round_adv {x y : Run} (hr : Round x y) :
    (x.self.Consistent → y.self.Consistent) ∧ x.self.m_position ≤ y.self.m_position := by
  cases hr with
  | blank s' _ ha => exact ⟨fun _ => ha.2.2.1, Nat.le_of_lt ha.2.2.2⟩
  | newline _ => exact ⟨fun _ => consistent_consumeChar x.self, Nat.le_succ _⟩
  | token s' t _ ha _ _ _ => exact ⟨adv_consistent ha, adv_position ha⟩
  | reject s' e _ ha _ _ => exact ⟨adv_consistent ha, adv_position ha⟩

/-- A loop round that starts on a character other than NUL and the brackets
moves the position forward and pushes at most one token. -/
theorem round_progress {x y : Run} (hr : Round x y) (h0 : x.self.m_currentChar ≠ NUL)
    (h1 : x.self.m_currentChar ≠ '[') (h2 : x.self.m_currentChar ≠ ']') :
    x.self.m_position < y.self.m_position ∧ y.tokens.length ≤ x.tokens.length + 1 := by
  cases hr with
  | blank s' _ ha => exact ⟨ha.2.2.2, Nat.le_succ _⟩
  | newline _ => exact ⟨Nat.lt_succ_self _, Nat.le_succ _⟩
  | token s' t _ ha hp _ _ => exact ⟨hp h1 h2, by simp⟩
  | reject s' e _ ha hp _ => exact ⟨hp h0, Nat.le_succ _⟩

theorem cur_mem_source {s : Tokenizer} (hs : s.Consistent) (h0 : s.m_currentChar ≠ NUL) :
    s.m_currentChar ∈ s.m_sourceCode ∧ s.m_position < s.m_sourceCode.length := by
  have hne := rest_ne_nil_of_cur hs h0
  rw [Tokenizer.Consistent] at hs
  refine ⟨?_, ?_⟩
  · rw [hs]
    cases hr : s.rest with
    | nil => exact absurd hr hne
    | cons c r =>
      have : c ∈ s.rest := by rw [hr]; exact List.mem_cons_self _ _
      exact List.mem_of_mem_drop this
  · by_contra hlt
    exact hne (List.drop_eq_nil_of_le (Nat.not_lt.1 hlt))

theorem cur_NUL_of_end {s : Tokenizer} (hs : s.Consistent)
    (h : s.m_sourceCode.length ≤ s.m_position) : s.m_currentChar = NUL := by
  rw [Tokenizer.Consistent, Tokenizer.rest, List.drop_eq_nil_of_le h] at hs
  exact hs

/-- On a source without brackets the loop reaches the end of input within
one round per character left, pushing at most one token per round. -/
theorem rounds_terminate (src : List Char) (hb : ∀ c ∈ src, c ≠ '[' ∧ c ≠ ']') (k : Nat) :
    ∀ x : Run, RunInv src x → src.length - x.self.m_position ≤ k →
      (rounds k x).self.m_currentChar = NUL ∧
      (rounds k x).tokens.length ≤ x.tokens.length + (src.length - x.self.m_position) := by
  induction k with
  | zero =>
    intro x h hk
    refine ⟨cur_NUL_of_end h.2.1 ?_, Nat.le_add_right _ _⟩
    show x.self.m_sourceCode.length ≤ x.self.m_position
    rw [h.1]
    omega
  | succ k ih =>
    intro x h hk
    rw [rounds_succ]
    by_cases h0 : x.self.m_currentChar = NUL
    · rw [if_pos h0]
      exact ⟨h0, Nat.le_add_right _ _⟩
    · rw [if_neg h0]
      obtain ⟨hm, hlt⟩ := cur_mem_source h.2.1 h0
      rw [h.1] at hm hlt
      have hr := round_iteration x
      obtain ⟨hp, ht⟩ := round_progress hr h0 (hb _ hm).1 (hb _ hm).2
      obtain ⟨i1, i2⟩ := ih (iteration x) (runInv_round h h0 hr) (by omega)
      exact ⟨i1, by omega⟩

theorem rounds_one_rounds (n : Nat) : ∀ x : Run, rounds (n + 1) x = rounds 1 (rounds n x) := by
  induction n with
  | zero => intro x; rfl
  | succ n ih =>
    intro x
    by_cases h0 : x.self.m_currentChar = NUL
    · have e1 : rounds (n + 1 + 1) x = x := by rw [rounds_succ, if_pos h0]
      have e2 : rounds (n + 1) x = x := by rw [rounds_succ, if_pos h0]
      have e3 : rounds 1 x = x := by rw [rounds_succ, if_pos h0]
      rw [e1, e2, e3]
    · have e1 : rounds (n + 1 + 1) x = rounds (n + 1) (iteration x) := by
        rw [rounds_succ, if_neg h0]
      have e2 : rounds (n + 1) x = rounds n (iteration x) := by rw [rounds_succ, if_neg h0]
      rw [e1, e2]
      exact ih _

theorem position_rounds_le (n : Nat) (x : Run) :
    (rounds n x).self.m_position ≤ (rounds (n + 1) x).self.m_position := by
  rw [rounds_one_rounds, rounds_succ]
  split
  · exact Nat.le_refl _
  · exact (round_adv (round_iteration _)).2

/-- A list of diagnostics whose lines strictly increase and lie above `k`
and at most at `M` has at most `M - k` entries. -/
theorem length_le_of_lines_increasing (l : List Diagnostic) :
    ∀ (k M : Nat), l.Pairwise (fun a b => a.line < b.line) →
      (∀ d ∈ l, k < d.line ∧ d.line ≤ M) → l.length ≤ M - k := by
  induction l with
  | nil => intro k M _ _; exact Nat.zero_le _
  | cons a l ih =>
    intro k M hp hb
    have ha := hb a (List.mem_cons_self _ _)
    rw [List.pairwise_cons] at hp
    have := ih a.line M hp.2 (fun d hd => ⟨hp.1 d hd, (hb d (List.mem_cons_of_mem _ hd)).2⟩)
    rw [List.length_cons]
    omega
/-! ## The counters stay in the range of `int` -/

theorem within_of_le {s : Tokenizer} {B : Nat} (hl : s.m_sourceCode.length ≤ B)
    (hp : s.m_position ≤ B) : s.Within B :=
  ⟨hl, Nat.le_succ_of_le hp⟩

/-- Consuming a character other than NUL leaves the position within the
source or at its end. -/
theorem consumeChar_le {s : Tokenizer} (hs : s.Consistent) (h0 : s.m_currentChar ≠ NUL) :
    (consumeChar s).m_position ≤ (consumeChar s).m_sourceCode.length :=
  (cur_mem_source hs h0).2

theorem within_consumeChar {s : Tokenizer} {B : Nat} (hs : s.Consistent)
    (h0 : s.m_currentChar ≠ NUL) (hl : s.m_sourceCode.length ≤ B) :
    (consumeChar s).Within B :=
  within_of_le hl (Nat.le_trans (consumeChar_le hs h0) hl)

theorem within_consumeChar_of_le {s : Tokenizer} {B : Nat} (hl : s.m_sourceCode.length ≤ B)
    (hp : s.m_position ≤ B) : (consumeChar s).Within B :=
  ⟨hl, Nat.succ_le_succ hp⟩

theorem isspace_ne_NUL {c : Char} (h : isspace c = true) : c ≠ NUL := by
  intro e; rw [e] at h; exact absurd h (by decide)

theorem isalnum_ne_NUL {c : Char} (h : isalnum c = true ∨ c = '_') : c ≠ NUL := by
  intro e; rw [e] at h; exact absurd h (by decide)

theorem isNum_ne_NUL {c : Char} (h : isdigit c = true ∨ c = '.') : c ≠ NUL := by
  intro e; rw [e] at h; exact absurd h (by decide)

theorem within_skipWhitespaceLoop (B n : Nat) :
    ∀ s : Tokenizer, s.Consistent → s.Within B → (skipWhitespaceLoop n s).Within B := by
  induction n with
  | zero => intro s _ hn; exact hn
  | succ n ih =>
    intro s hs hn
    rw [skipWhitespaceLoop]
    split
    · rename_i h
      exact ih _ (consistent_consumeChar s) (within_consumeChar hs (isspace_ne_NUL h) hn.1)
    · exact hn

theorem within_skipWhitespace {B : Nat} (s : Tokenizer) (hs : s.Consistent)
    (hn : s.Within B) : (skipWhitespace s).Within B :=
  within_skipWhitespaceLoop B _ s hs hn

theorem within_skipUntilNextLineLoop (B n : Nat) :
    ∀ s : Tokenizer, s.Consistent → s.Within B → (skipUntilNextLineLoop n s).Within B := by
  induction n with
  | zero => intro s _ hn; exact hn
  | succ n ih =>
    intro s hs hn
    rw [skipUntilNextLineLoop]
    split
    · rename_i h
      exact ih _ (consistent_consumeChar s) (within_consumeChar hs h.2 hn.1)
    · exact hn

theorem within_skipUntilNextLine {B : Nat} (s : Tokenizer) (hs : s.Consistent)
    (hn : s.Within B) : (skipUntilNextLine s).Within B :=
  within_skipUntilNextLineLoop B _ s hs hn

theorem within_scanCommentLoop (B n : Nat) :
    ∀ (s : Tokenizer) (v : List Char), s.Consistent → s.Within B →
      (scanCommentLoop n s v).1.Within B := by
  induction n with
  | zero => intro s v _ hn; exact hn
  | succ n ih =>
    intro s v hs hn
    rw [scanCommentLoop]
    split
    · rename_i h
      exact ih _ _ (consistent_consumeChar s) (within_consumeChar hs h.2 hn.1)
    · exact hn

theorem within_scanComment {B : Nat} (s : Tokenizer) (hl : s.m_sourceCode.length ≤ B)
    (hp : s.m_position ≤ B) : (scanComment s).1.Within B :=
  within_scanCommentLoop B _ _ _ (consistent_consumeChar s) (within_consumeChar_of_le hl hp)

theorem within_scanOperator {B : Nat} (s : Tokenizer) (firstChar : Char)
    (hl : s.m_sourceCode.length ≤ B) (hp : s.m_position ≤ B) :
    (scanOperator s firstChar).1.Within B := by
  rw [scanOperator]
  dsimp only
  split
  · rename_i hc
    refine within_consumeChar (consistent_consumeChar s) ?_ hl
    rcases hc with ⟨_, e | e | e | e⟩ | ⟨_, e⟩ <;> rw [e] <;> decide
  · exact within_consumeChar_of_le hl hp

theorem within_scanSymbol {B : Nat} (s : Tokenizer) (symbolChar : Char)
    (hl : s.m_sourceCode.length ≤ B) (hp : s.m_position ≤ B) :
    (scanSymbol s symbolChar).1.Within B := by
  rw [scanSymbol]
  split
  · exact within_of_le hl hp
  · exact within_consumeChar_of_le hl hp

theorem within_scanDot {B : Nat} (s : Tokenizer) (hl : s.m_sourceCode.length ≤ B)
    (hp : s.m_position ≤ B) : (scanDot s).1.Within B := by
  rw [scanDot]
  dsimp only
  split
  · rename_i h1
    split
    · rename_i h2
      exact within_consumeChar (consistent_consumeChar _) (by rw [h2]; decide) hl
    · exact within_consumeChar (consistent_consumeChar _) (by rw [h1]; decide) hl
  · exact within_consumeChar_of_le hl hp

theorem within_scanNumericLiteralLoop (B n : Nat) :
    ∀ (s : Tokenizer) (v : List Char) (d : Bool), s.Consistent → s.Within B →
      (scanNumericLiteralLoop n s v d).1.Within B := by
  induction n with
  | zero => intro s v d _ hn; exact hn
  | succ n ih =>
    intro s v d hs hn
    rw [scanNumericLiteralLoop]
    split
    · rename_i h
      split
      · split
        · exact hn
        · exact ih _ _ _ (consistent_consumeChar s)
            (within_consumeChar hs (isNum_ne_NUL h) hn.1)
      · exact ih _ _ _ (consistent_consumeChar s)
          (within_consumeChar hs (isNum_ne_NUL h) hn.1)
    · exact hn

theorem within_scanNumericLiteral {B : Nat} (s : Tokenizer) (hs : s.Consistent)
    (hn : s.Within B) : (scanNumericLiteral s).1.Within B := by
  rw [state_scanNumericLiteral]
  exact within_scanNumericLiteralLoop B _ _ _ _ hs hn

theorem within_scanIdentifierLoop (B n : Nat) :
    ∀ (s : Tokenizer) (v : List Char), s.Consistent → s.Within B →
      (scanIdentifierLoop n s v).1.Within B := by
  induction n with
  | zero => intro s v _ hn; exact hn
  | succ n ih =>
    intro s v hs hn
    rw [scanIdentifierLoop]
    split
    · rename_i h
      exact ih _ _ (consistent_consumeChar s) (within_consumeChar hs (isalnum_ne_NUL h) hn.1)
    · exact hn

theorem within_scanIdentifier {B : Nat} (s : Tokenizer) (hs : s.Consistent)
    (hn : s.Within B) : (scanIdentifier s).1.Within B := by
  rw [state_scanIdentifier]
  exact within_scanIdentifierLoop B _ _ _ hs hn

/-- One loop round, started over a source of at most `B` characters at a
position of at most `B`, leaves the position at most one past `B`. -/
theorem within_iteration {B : Nat} (x : Run) (hs : x.self.Consistent)
    (hl : x.self.m_sourceCode.length ≤ B) (hb : x.self.m_position ≤ B) :
    (iteration x).self.Within B := by
  by_cases c1 : x.self.m_currentChar = ' ' ∨ x.self.m_currentChar = '\t'
  · rw [iteration_none _ _ (dispatch_blank _ c1)]
    exact within_skipWhitespace _ hs (within_of_le hl hb)
  by_cases c2 : x.self.m_currentChar = '\n'
  · rw [iteration_none _ _ (dispatch_newline_state _ c2)]
    exact within_consumeChar_of_le hl hb
  by_cases c3 : x.self.m_currentChar = '-'
  · have hd := dispatch_minus _ c3
    have h1 : (consumeChar x.self).m_position ≤ B :=
      Nat.le_trans (consumeChar_le hs (by rw [c3]; decide)) hl
    by_cases c3a : (consumeChar x.self).m_currentChar = '-'
    · rw [if_pos c3a] at hd
      rw [iteration_some _ _ _ hd]
      exact within_scanComment _ hl h1
    · rw [if_neg c3a] at hd
      rw [iteration_some _ _ _ hd]
      exact within_scanOperator _ _ hl h1
  by_cases c4 : x.self.m_currentChar ∈ ['+', '*', '/', '^', '%', '#', '>', '<', '=', '~']
  · rw [iteration_some _ _ _ (dispatch_operator _ c4)]
    exact within_scanOperator _ _ hl hb
  by_cases c6 : x.self.m_currentChar ∈ ['(', ')', '{', '}', ';', ',']
  · rw [iteration_some _ _ _ (dispatch_symbol _ c6)]
    exact within_scanSymbol _ _ hl hb
  by_cases c7 : x.self.m_currentChar = '[' ∨ x.self.m_currentChar = ']'
  · rw [iteration_some _ _ _ (dispatch_bracket _ c7)]
    exact within_of_le hl hb
  by_cases c9 : x.self.m_currentChar = '.'
  · have hd := dispatch_dot _ c9
    have ha := advanced_scanDot x.self
    have hn := within_scanDot x.self hl hb
    revert hd ha hn
    rcases scanDot x.self with ⟨s1, r⟩
    cases r with
    | ok t =>
      intro hd _ hn
      rw [iteration_some _ _ _ hd]
      exact hn
    | error e =>
      intro hd ha hn
      rw [iteration_error _ _ _ hd]
      exact within_skipUntilNextLine _ ha.2.2.1 hn
  have hcl : x.self.m_currentChar ∉ caseLabels := by
    simp only [List.mem_cons, List.mem_singleton, List.not_mem_nil, or_false, not_or]
      at c1 c4 c6 c7
    simp only [caseLabels, List.mem_cons, List.mem_singleton, List.not_mem_nil, or_false, not_or]
    tauto
  have hd := dispatch_default _ hcl
  by_cases c10 : isdigit x.self.m_currentChar = true
  · rw [if_pos c10] at hd
    have ha := adv_scanNumericLiteral x.self
    have hn := within_scanNumericLiteral x.self hs (within_of_le hl hb)
    revert hd ha hn
    rcases scanNumericLiteral x.self with ⟨s1, r⟩
    cases r with
    | ok t =>
      intro hd _ hn
      rw [iteration_some _ _ _ hd]
      exact hn
    | error e =>
      intro hd ha hn
      rw [iteration_error _ _ _ hd]
      exact within_skipUntilNextLine _ (adv_consistent ha hs) hn
  rw [if_neg c10] at hd
  by_cases c11 : isalpha x.self.m_currentChar = true ∨ x.self.m_currentChar = '_'
  · rw [if_pos c11] at hd
    rw [iteration_some _ _ _ hd]
    exact within_scanIdentifier _ hs (within_of_le hl hb)
  · rw [if_neg c11] at hd
    rw [iteration_error _ _ _ hd]
    exact within_skipUntilNextLine _ hs (within_of_le hl hb)

theorem within_rounds_from (src : List Char) (n : Nat) :
    ∀ x : Run, RunInv src x → x.self.Within src.length →
      (rounds n x).self.Within src.length := by
  induction n with
  | zero => intro x _ hn; exact hn
  | succ n ih =>
    intro x h hn
    rw [rounds_succ]
    split
    · exact hn
    · rename_i h0
      refine ih _ (runInv_round h h0 (round_iteration x))
        (within_iteration x h.2.1 hn.1 ?_)
      exact Nat.le_trans (Nat.le_of_lt (cur_mem_source h.2.1 h0).2) hn.1

/-- The position can pass the end of the source by one: on the source `-` the
loop round consumes the minus and `scanOperator` consumes once more. -/
theorem position_past_end : (rounds 1 (Run.start ['-'])).self.m_position = 2 := by
  decide

/-- After any number of rounds of the loop of `tokenize` the position is at
most one past the end of the source. -/
theorem position_rounds_bound (src : List Char) (n : Nat) :
    (rounds n (Run.start src)).self.m_position ≤ src.length + 1 :=
  (within_rounds_from src n _ (runInv_start src) ⟨Nat.le_refl _, Nat.zero_le _⟩).2

/-- After any number of rounds of the loop of `tokenize` the line counter is
at most one more than the number of newlines of the source. -/
theorem line_rounds_bound (src : List Char) (n : Nat) :
    (rounds n (Run.start src)).self.m_line ≤ 1 + src.count '\n' :=
  Nat.le_trans (runInv_rounds src n).2.2.2.1
    (Nat.add_le_add_left (count_take_le src '\n' _) 1)

/-- On a source shorter than `INT_MAX` characters the counters `m_position`
and `m_line` hold a value of the type `int` after any number of rounds of
the loop of `tokenize`.  Inside a round the position lies between its values
at the start and at the end of the round, since no operation moves it
backwards, and the line counter changes once at most; so no `m_position++`
and no `m_line++` of the run overflows. -/
theorem inRange_rounds (src : List Char) (hlen : src.length < INT_MAX) (n : Nat) :
    (rounds n (Run.start src)).self.InRange := by
  have h1 := position_rounds_bound src n
  have h2 := line_rounds_bound src n
  have h3 : src.count '\n' ≤ src.length := List.count_le_length _ _
  exact ⟨by omega, by omega⟩

/-- A state over a source shorter than `INT_MAX` characters that is within
`INT_MAX - 1` has a position of the type `int`. -/
theorem le_INT_MAX_of_within {s : Tokenizer} (h : s.Within (INT_MAX - 1)) :
    s.m_position ≤ INT_MAX :=
  h.2

theorem round_source {x y : Run} (hr : Round x y) :
    y.self.m_sourceCode = x.self.m_sourceCode := by
  cases hr with
  | blank s' _ ha => exact ha.1
  | newline _ => rfl
  | token s' t _ ha _ _ _ => exact adv_source ha
  | reject s' e _ ha _ _ => exact adv_source ha

theorem source_iteration (x : Run) :
    (iteration x).self.m_sourceCode = x.self.m_sourceCode :=
  round_source (round_iteration x)

/-! ## Claims -/

/-- C1, evaluated at the sources `[` and `]`: the loop round that starts on
a bracket pushes a token and leaves the cursor position unchanged, although
the current character is not the sentinel, so `tokenize` returns for no
amount of fuel. -/
theorem C1_bracket_never_returns :
    (Run.start ['[']).self.m_currentChar ≠ NUL ∧
    (iteration (Run.start ['['])).self.m_position = (Run.start ['[']).self.m_position ∧
    (iteration (Run.start [']'])).self.m_position = (Run.start [']']).self.m_position ∧
    (∀ fuel : Nat, tokenize fuel ['['] = none) ∧
    (∀ fuel : Nat, tokenize fuel [']'] = none) := by
  refine ⟨by decide, by decide, by decide, fun fuel => ?_, fun fuel => ?_⟩
  · rw [tokenize, Run.start, ctor_eq_cursorAt, tokenizeLoop_bracket '[' (Or.inl rfl)]
    rfl
  · rw [tokenize, Run.start, ctor_eq_cursorAt, tokenizeLoop_bracket ']' (Or.inr rfl)]
    rfl

/-- C2, evaluated at the source `-- hi` newline `local`: the Comment token
on line 1 has the text `- hi`, with one dash only, and is followed by the
Keyword `local` on line 2. -/
theorem C2_comment_drops_first_dash :
    ∀ k : Nat, tokenize (4 + k) "-- hi\nlocal".toList =
      some ([⟨TokenType.COMMENT, "- hi".toList, 1⟩,
             ⟨TokenType.KEYWORD, "local".toList, 2⟩], []) :=
  fun k => tokenize_mono 4 k _ _ (by decide)

/-- C3, evaluated at the sources `-x` and `-`: the first yields the single
Operator token `-x`, with the `x` swallowed and no Identifier; the second
yields an Operator token whose text is `-` followed by the sentinel NUL. -/
theorem C3_minus_swallows_next_char :
    (∀ k : Nat, tokenize (2 + k) "-x".toList =
      some ([⟨TokenType.OPERATOR, "-x".toList, 1⟩], [])) ∧
    (∀ k : Nat, tokenize (2 + k) "-".toList =
      some ([⟨TokenType.OPERATOR, ['-', NUL], 1⟩], [])) :=
  ⟨fun k => tokenize_mono 2 k _ _ (by decide), fun k => tokenize_mono 2 k _ _ (by decide)⟩

/-- C5, evaluated at the source space, newline, `x`: one newline precedes
`x`, yet the Identifier `x` is stamped with line 1, because `skipWhitespace`
consumed the newline without the line counter being incremented. -/
theorem C5_newline_after_space_not_counted :
    (" \nx".toList.take 2).count '\n' = 1 ∧
    skipWhitespace (Tokenizer.ctor " \nx".toList) = cursorAt " \n".toList "x".toList 1 ∧
    ∀ k : Nat, tokenize (3 + k) " \nx".toList =
      some ([⟨TokenType.IDENTIFIER, "x".toList, 1⟩], []) :=
  ⟨by decide, by decide, fun k => tokenize_mono 3 k _ _ (by decide)⟩

/-- C6, amended: lossless reconstruction on clean sources.  For every source
shorter than `INT_MAX` characters (`2^31 - 1`, the range of the `int`
counters `m_position` and `m_line`) that contains no NUL, no `-`, no `[` or
`]` and no vertical tab, form feed or carriage return, `tokenize` returns
within one loop round per character, and when it has emitted no diagnostic
there are strings `w0..wn` made only of space, tab and newline characters
such that `source = w0 ++ t1.text ++ w1 ++ ... ++ tn.text ++ wn` for the
returned tokens `t1..tn`; on the way both counters keep a value of the type
`int` after every loop round. -/
theorem C6_lossless_reconstruction (src : List Char) (hlen : src.length < INT_MAX)
    (h : ∀ c ∈ src, Clean c) :
    (∃ out, tokenize (src.length + 1) src = some out ∧
      (out.2 = [] → Reconstructs src out.1)) ∧
    ∀ n : Nat, (rounds n (Run.start src)).self.InRange := by
  obtain ⟨y, hy, hc⟩ := tokenizeLoop_clean (src.length + 1) src [] 1 [] [] (Nat.lt_succ_self _) h
  refine ⟨⟨(y.tokens, y.cerr), ?_, fun hcerr => ?_⟩, inRange_rounds src hlen⟩
  · rw [tokenize, Run.start, ctor_eq_cursorAt, hy]
    rfl
  · have := (hc hcerr).2 (Covered.blank [] (by simp))
    exact covered_reconstructs (by simpa using this)

/-- C6, instance: the source `local x = 1.5`. -/
theorem C6_lossless_reconstruction_witness :
    (∃ out, tokenize ("local x = 1.5".toList.length + 1) "local x = 1.5".toList = some out ∧
      (out.2 = [] → Reconstructs "local x = 1.5".toList out.1)) ∧
    ∀ n : Nat, (rounds n (Run.start "local x = 1.5".toList)).self.InRange :=
  C6_lossless_reconstruction "local x = 1.5".toList (by decide) (by decide)

/-- C6, as stated, fails: on the source `a`, NUL, `b` the scan stops at the
NUL, which is its end-of-input sentinel, and returns the one Identifier `a`
without a diagnostic; the source is not that token between two strings of
spaces, tabs and newlines. -/
theorem C6_counterexample :
    tokenize 2 ['a', NUL, 'b'] = some ([⟨TokenType.IDENTIFIER, ['a'], 1⟩], []) ∧
    ¬ Reconstructs ['a', NUL, 'b'] [⟨TokenType.IDENTIFIER, ['a'], 1⟩] := by
  refine ⟨by decide, fun h => ?_⟩
  have := reconstructs_count h 'b' (by decide)
  exact absurd this (by decide)

/-- C13, evaluated at the source `(]`: after the token for `(` the cursor is
on `]`; the loop round on `]` pushes a token without consuming the
character, so `tokenize` returns for no amount of fuel, instead of
returning the two tokens `(` and `]`. -/
theorem C13_bracket_symbol_never_returns :
    iteration (Run.start ['(', ']']) =
      ⟨cursorAt ['('] [']'] 1, [⟨TokenType.UNKNOWN, ['('], 1⟩], []⟩ ∧
    iteration ⟨cursorAt ['('] [']'] 1, [⟨TokenType.UNKNOWN, ['('], 1⟩], []⟩ =
      ⟨cursorAt ['('] [']'] 1,
        [⟨TokenType.UNKNOWN, ['('], 1⟩, ⟨TokenType.UNKNOWN, [']'], 1⟩], []⟩ ∧
    ∀ fuel : Nat, tokenize fuel ['(', ']'] = none := by
  refine ⟨by decide, by decide, fun fuel => ?_⟩
  cases fuel with
  | zero => rfl
  | succ n =>
    have e : iteration (Run.start ['(', ']']) =
        ⟨cursorAt ['('] [']'] 1, [⟨TokenType.UNKNOWN, ['('], 1⟩], []⟩ := by decide
    rw [tokenize, tokenizeLoop_succ, if_neg (by decide), e,
      tokenizeLoop_stuck n _ (Or.inr rfl)]
    rfl

/-- C14: empty input.  On the empty source `tokenize` returns at the first
test of the loop condition, with the empty token sequence and no
diagnostic. -/
theorem C14_empty_input :
    ∀ k : Nat, tokenize (1 + k) [] = some ([], []) :=
  fun k => tokenize_mono 1 k _ _ (by decide)

/-- C15: cursor invariant, on the range of the `int` position.  The state
built by the constructor satisfies the cursor invariant (the current
character is the source character at the position, or NUL when the position
is at or past the end); `consumeChar` establishes it from any state whose
position is below `INT_MAX` (`2^31 - 1`) and moves the position forward by
one, to a value of the type `int`; every cursor primitive, every sub-scanner
and the loop round, started in a state whose source is shorter than
`INT_MAX` characters and whose position is below `INT_MAX`, keep the
invariant, never move the position backwards and leave it at a value of the
type `int`; so for every source shorter than `INT_MAX` characters the
invariant holds in the state of the dispatch loop after any number of
rounds, both counters have a value of the type `int` there, and the position
never decreases from one round to the next. -/
theorem C15_cursor_invariant (src : List Char) (hlen : src.length < INT_MAX) :
    (CursorInv (Tokenizer.ctor src) ∧ (Tokenizer.ctor src).InRange) ∧
    (∀ s : Tokenizer, s.m_position < INT_MAX →
      CursorInv (consumeChar s) ∧ (consumeChar s).m_position = s.m_position + 1 ∧
        (consumeChar s).m_position ≤ INT_MAX) ∧
    (∀ s : Tokenizer, s.m_sourceCode.length < INT_MAX → s.m_position < INT_MAX →
        CursorInv s →
      (CursorInv (skipWhitespace s) ∧ s.m_position ≤ (skipWhitespace s).m_position ∧
        (skipWhitespace s).m_position ≤ INT_MAX) ∧
      (CursorInv (skipUntilNextLine s) ∧ s.m_position ≤ (skipUntilNextLine s).m_position ∧
        (skipUntilNextLine s).m_position ≤ INT_MAX) ∧
      (CursorInv (scanComment s).1 ∧ s.m_position ≤ (scanComment s).1.m_position ∧
        (scanComment s).1.m_position ≤ INT_MAX) ∧
      (∀ f : Char,
        CursorInv (scanOperator s f).1 ∧ s.m_position ≤ (scanOperator s f).1.m_position ∧
          (scanOperator s f).1.m_position ≤ INT_MAX) ∧
      (∀ f : Char,
        CursorInv (scanSymbol s f).1 ∧ s.m_position ≤ (scanSymbol s f).1.m_position ∧
          (scanSymbol s f).1.m_position ≤ INT_MAX) ∧
      (CursorInv (scanDot s).1 ∧ s.m_position ≤ (scanDot s).1.m_position ∧
        (scanDot s).1.m_position ≤ INT_MAX) ∧
      (CursorInv (scanNumericLiteral s).1 ∧
        s.m_position ≤ (scanNumericLiteral s).1.m_position ∧
        (scanNumericLiteral s).1.m_position ≤ INT_MAX) ∧
      (CursorInv (scanIdentifier s).1 ∧ s.m_position ≤ (scanIdentifier s).1.m_position ∧
        (scanIdentifier s).1.m_position ≤ INT_MAX)) ∧
    (∀ x : Run, x.self.m_sourceCode.length < INT_MAX → x.self.m_position < INT_MAX →
        CursorInv x.self →
      CursorInv (iteration x).self ∧ x.self.m_position ≤ (iteration x).self.m_position ∧
        (iteration x).self.m_position ≤ INT_MAX) ∧
    (∀ n : Nat, CursorInv (rounds n (Run.start src)).self ∧
      (rounds n (Run.start src)).self.InRange ∧
      (rounds n (Run.start src)).self.m_position ≤
        (rounds (n + 1) (Run.start src)).self.m_position) := by
  have op : ∀ s s' : Tokenizer, CursorInv s → Adv s s' → s'.Within (INT_MAX - 1) →
      CursorInv s' ∧ s.m_position ≤ s'.m_position ∧ s'.m_position ≤ INT_MAX :=
    fun s s' hs ha hn =>
      ⟨(cursorInv_of_adv ha hs).1, (cursorInv_of_adv ha hs).2, le_INT_MAX_of_within hn⟩
  refine ⟨⟨(cursorInv_iff_consistent _).2 (runInv_start src).2.1, inRange_rounds src hlen 0⟩,
    fun s hp => ⟨(cursorInv_iff_consistent _).2 (consistent_consumeChar s), rfl, hp⟩,
    fun s hl hp hs => ?_, fun x hl hp hx => ?_,
    fun n => ⟨(cursorInv_iff_consistent _).2 (runInv_rounds src n).2.1,
      inRange_rounds src hlen n, position_rounds_le n _⟩⟩
  · have hc := (cursorInv_iff_consistent s).1 hs
    have hl1 : s.m_sourceCode.length ≤ INT_MAX - 1 := Nat.le_pred_of_lt hl
    have hp1 : s.m_position ≤ INT_MAX - 1 := Nat.le_pred_of_lt hp
    have hw := within_of_le hl1 hp1
    exact ⟨op s _ hs (adv_skipWhitespace s) (within_skipWhitespace s hc hw),
      op s _ hs (adv_skipUntilNextLine s) (within_skipUntilNextLine s hc hw),
      op s _ hs (Or.inr (advanced_scanComment s)) (within_scanComment s hl1 hp1),
      fun f => op s _ hs (Or.inr (advanced_scanOperator s f)) (within_scanOperator s f hl1 hp1),
      fun f => op s _ hs (adv_scanSymbol s f) (within_scanSymbol s f hl1 hp1),
      op s _ hs (Or.inr (advanced_scanDot s)) (within_scanDot s hl1 hp1),
      op s _ hs (adv_scanNumericLiteral s) (within_scanNumericLiteral s hc hw),
      op s _ hs (adv_scanIdentifier s) (within_scanIdentifier s hc hw)⟩
  · have hc := (cursorInv_iff_consistent _).1 hx
    have hr := round_adv (round_iteration x)
    have hn := within_iteration x hc (Nat.le_pred_of_lt hl) (Nat.le_pred_of_lt hp)
    exact ⟨(cursorInv_iff_consistent _).2 (hr.1 hc), hr.2, le_INT_MAX_of_within hn⟩

/-- C15, instance: the source `a-`, whose final minus takes the position one past
the end. -/
theorem C15_cursor_invariant_witness :
    (CursorInv (Tokenizer.ctor "a-".toList) ∧ (Tokenizer.ctor "a-".toList).InRange) ∧
    (∀ s : Tokenizer, s.m_position < INT_MAX →
      CursorInv (consumeChar s) ∧ (consumeChar s).m_position = s.m_position + 1 ∧
        (consumeChar s).m_position ≤ INT_MAX) ∧
    (∀ s : Tokenizer, s.m_sourceCode.length < INT_MAX → s.m_position < INT_MAX →
        CursorInv s →
      (CursorInv (skipWhitespace s) ∧ s.m_position ≤ (skipWhitespace s).m_position ∧
        (skipWhitespace s).m_position ≤ INT_MAX) ∧
      (CursorInv (skipUntilNextLine s) ∧ s.m_position ≤ (skipUntilNextLine s).m_position ∧
        (skipUntilNextLine s).m_position ≤ INT_MAX) ∧
      (CursorInv (scanComment s).1 ∧ s.m_position ≤ (scanComment s).1.m_position ∧
        (scanComment s).1.m_position ≤ INT_MAX) ∧
      (∀ f : Char,
        CursorInv (scanOperator s f).1 ∧ s.m_position ≤ (scanOperator s f).1.m_position ∧
          (scanOperator s f).1.m_position ≤ INT_MAX) ∧
      (∀ f : Char,
        CursorInv (scanSymbol s f).1 ∧ s.m_position ≤ (scanSymbol s f).1.m_position ∧
          (scanSymbol s f).1.m_position ≤ INT_MAX) ∧
      (CursorInv (scanDot s).1 ∧ s.m_position ≤ (scanDot s).1.m_position ∧
        (scanDot s).1.m_position ≤ INT_MAX) ∧
      (CursorInv (scanNumericLiteral s).1 ∧
        s.m_position ≤ (scanNumericLiteral s).1.m_position ∧
        (scanNumericLiteral s).1.m_position ≤ INT_MAX) ∧
      (CursorInv (scanIdentifier s).1 ∧ s.m_position ≤ (scanIdentifier s).1.m_position ∧
        (scanIdentifier s).1.m_position ≤ INT_MAX)) ∧
    (∀ x : Run, x.self.m_sourceCode.length < INT_MAX → x.self.m_position < INT_MAX →
        CursorInv x.self →
      CursorInv (iteration x).self ∧ x.self.m_position ≤ (iteration x).self.m_position ∧
        (iteration x).self.m_position ≤ INT_MAX) ∧
    (∀ n : Nat, CursorInv (rounds n (Run.start "a-".toList)).self ∧
      (rounds n (Run.start "a-".toList)).self.InRange ∧
      (rounds n (Run.start "a-".toList)).self.m_position ≤
        (rounds (n + 1) (Run.start "a-".toList)).self.m_position) :=
  C15_cursor_invariant "a-".toList (by decide)

/-- C16, evaluated at the state the constructor builds on the source space,
newline, carriage return, `y`: `skipWhitespace` leaves the cursor on `y`, at
position 3, having consumed the newline and the carriage return, although
the first character that is neither space nor tab is the newline at
position 1; the line counter is still 1. -/
theorem C16_skipWhitespace_consumes_newline :
    skipWhitespace (Tokenizer.ctor [' ', '\n', '\r', 'y']) =
      cursorAt [' ', '\n', '\r'] ['y'] 1 ∧
    (skipWhitespace (Tokenizer.ctor [' ', '\n', '\r', 'y'])).m_position = 3 ∧
    (skipWhitespace (Tokenizer.ctor [' ', '\n', '\r', 'y'])).m_currentChar = 'y' ∧
    (skipWhitespace (Tokenizer.ctor [' ', '\n', '\r', 'y'])).m_line = 1 := by
  refine ⟨by decide, by decide, by decide, by decide⟩

/-- C17: progress and termination without brackets, on the range of the
`int` counters.  For every source shorter than `INT_MAX` characters
(`2^31 - 1`) that contains neither `[` nor `]`, every round of the dispatch
loop (the state after any number of rounds, when its current character is
not NUL) moves the position forward by at least one, the error-recovery path
included, to a value of the type `int`; so `tokenize` returns within one
round per character of the source, and the number of tokens returned is at
most the length of the source; both counters have a value of the type `int`
after every round. -/
theorem C17_progress_and_termination (src : List Char) (hlen : src.length < INT_MAX)
    (hb : ∀ c ∈ src, c ≠ '[' ∧ c ≠ ']') :
    (∀ n : Nat, (rounds n (Run.start src)).self.m_currentChar ≠ NUL →
      (rounds n (Run.start src)).self.m_position + 1 ≤
        (iteration (rounds n (Run.start src))).self.m_position ∧
      (iteration (rounds n (Run.start src))).self.m_position ≤ INT_MAX) ∧
    (∃ out, tokenize (src.length + 1) src = some out ∧ out.1.length ≤ src.length) ∧
    ∀ n : Nat, (rounds n (Run.start src)).self.InRange := by
  refine ⟨fun n h0 => ?_, ?_, inRange_rounds src hlen⟩
  · have hi := runInv_rounds src n
    obtain ⟨hm, hlt⟩ := cur_mem_source hi.2.1 h0
    rw [hi.1] at hm
    refine ⟨(round_progress (round_iteration _) h0 (hb _ hm).1 (hb _ hm).2).1, ?_⟩
    have hn := within_iteration _ hi.2.1 (Nat.le_of_eq (congrArg List.length hi.1))
      (Nat.le_trans (Nat.le_of_lt hlt) (Nat.le_of_eq (congrArg List.length hi.1)))
    exact Nat.le_trans hn.2 hlen
  · obtain ⟨h1, h2⟩ := rounds_terminate src hb src.length (Run.start src) (runInv_start src)
      (Nat.sub_le _ _)
    refine ⟨((rounds src.length (Run.start src)).tokens,
      (rounds src.length (Run.start src)).cerr), ?_, ?_⟩
    · rw [tokenize, tokenizeLoop_of_rounds _ _ h1]
      rfl
    · simpa [Run.start, Tokenizer.ctor] using h2

/-- C17, instance: the source `a - .. 1.2.3` newline `@ b`, which takes the
comment-free minus path and all three error paths. -/
theorem C17_progress_and_termination_witness :
    (∀ n : Nat, (rounds n (Run.start "a - .. 1.2.3\n@ b".toList)).self.m_currentChar ≠ NUL →
      (rounds n (Run.start "a - .. 1.2.3\n@ b".toList)).self.m_position + 1 ≤
        (iteration (rounds n (Run.start "a - .. 1.2.3\n@ b".toList))).self.m_position ∧
      (iteration (rounds n (Run.start "a - .. 1.2.3\n@ b".toList))).self.m_position ≤ INT_MAX) ∧
    (∃ out, tokenize ("a - .. 1.2.3\n@ b".toList.length + 1) "a - .. 1.2.3\n@ b".toList =
        some out ∧ out.1.length ≤ "a - .. 1.2.3\n@ b".toList.length) ∧
    ∀ n : Nat, (rounds n (Run.start "a - .. 1.2.3\n@ b".toList)).self.InRange :=
  C17_progress_and_termination "a - .. 1.2.3\n@ b".toList (by decide) (by decide)

/-- C18: the kind of every emitted token is consistent with its text.  For
every source, every token pushed after any number of loop rounds, and hence
every token of a returned sequence, is well kinded: a Keyword's text is one
of the 21 reserved words; an Identifier's text is a non-empty string of
ASCII letters, digits and underscores that does not start with a digit and
is not a reserved word; a NumericLiteral's text starts with a digit, consists
of digits and dots only and has at most one dot; a Comment's text has no
newline. -/
theorem C18_token_kinds (src : List Char) :
    (∀ n : Nat, ∀ t ∈ (rounds n (Run.start src)).tokens, WellKinded t) ∧
    (∀ (fuel : Nat) (out : List Token × List Diagnostic), tokenize fuel src = some out →
      ∀ t ∈ out.1, WellKinded t) := by
  refine ⟨fun n t ht => ((runInv_rounds src n).2.2.2.2.1 t ht).2.2, fun fuel out h t ht => ?_⟩
  rw [tokenize_eq_rounds fuel src out h] at ht
  exact ((runInv_rounds src fuel).2.2.2.2.1 t ht).2.2

/-- C19: token lines, on the range of the `int` counters.  For every source
shorter than `INT_MAX` characters (`2^31 - 1`), in the tokens pushed after
any number of loop rounds, and hence in every returned sequence, the line
numbers never decrease from a token to a later one, and every token's line
is at least 1 and at most 1 plus the number of newline characters of the
source; the line counter and the position have a value of the type `int`
after every round. -/
theorem C19_token_lines (src : List Char) (hlen : src.length < INT_MAX) :
    (∀ n : Nat,
      (rounds n (Run.start src)).tokens.Pairwise (fun a b => a.line ≤ b.line) ∧
      ∀ t ∈ (rounds n (Run.start src)).tokens, 1 ≤ t.line ∧ t.line ≤ 1 + src.count '\n') ∧
    (∀ (fuel : Nat) (out : List Token × List Diagnostic), tokenize fuel src = some out →
      out.1.Pairwise (fun a b => a.line ≤ b.line) ∧
      ∀ t ∈ out.1, 1 ≤ t.line ∧ t.line ≤ 1 + src.count '\n') ∧
    (1 + src.count '\n' ≤ INT_MAX ∧ ∀ n : Nat, (rounds n (Run.start src)).self.InRange) := by
  have key : ∀ n : Nat,
      (rounds n (Run.start src)).tokens.Pairwise (fun a b => a.line ≤ b.line) ∧
      ∀ t ∈ (rounds n (Run.start src)).tokens, 1 ≤ t.line ∧ t.line ≤ 1 + src.count '\n' := by
    intro n
    obtain ⟨_, _, _, h4, h5, h6, _⟩ := runInv_rounds src n
    refine ⟨h6, fun t ht => ⟨(h5 t ht).1, ?_⟩⟩
    exact Nat.le_trans (h5 t ht).2.1
      (Nat.le_trans h4 (Nat.add_le_add_left (count_take_le src '\n' _) 1))
  refine ⟨key, fun fuel out h => ?_, ?_, inRange_rounds src hlen⟩
  · rw [tokenize_eq_rounds fuel src out h]
    exact key fuel
  · have h2 : src.count '\n' ≤ src.length := List.count_le_length _ _
    omega

/-- C19, instance: the source `a`, newline, `b`. -/
theorem C19_token_lines_witness :
    (∀ n : Nat,
      (rounds n (Run.start "a\nb".toList)).tokens.Pairwise (fun a b => a.line ≤ b.line) ∧
      ∀ t ∈ (rounds n (Run.start "a\nb".toList)).tokens,
        1 ≤ t.line ∧ t.line ≤ 1 + "a\nb".toList.count '\n') ∧
    (∀ (fuel : Nat) (out : List Token × List Diagnostic),
      tokenize fuel "a\nb".toList = some out →
      out.1.Pairwise (fun a b => a.line ≤ b.line) ∧
      ∀ t ∈ out.1, 1 ≤ t.line ∧ t.line ≤ 1 + "a\nb".toList.count '\n') ∧
    (1 + "a\nb".toList.count '\n' ≤ INT_MAX ∧
      ∀ n : Nat, (rounds n (Run.start "a\nb".toList)).self.InRange) :=
  C19_token_lines "a\nb".toList (by decide)

/-- C20: line-level recovery bounds the diagnostics, on the range of the
`int` counters.  For every source shorter than `INT_MAX` characters
(`2^31 - 1`), in the diagnostics emitted after any number of loop rounds,
and hence in those of every returned run, the cited lines strictly increase
from a diagnostic to a later one (two diagnostics never cite the same line),
every cited line is at least 1 and at most 1 plus the number of newline
characters of the source, and so the number of diagnostics is at most 1 plus
that number; the line counter and the position have a value of the type
`int` after every round. -/
theorem C20_diagnostics_bound (src : List Char) (hlen : src.length < INT_MAX) :
    (∀ n : Nat,
      (rounds n (Run.start src)).cerr.Pairwise (fun a b => a.line < b.line) ∧
      (∀ d ∈ (rounds n (Run.start src)).cerr, 1 ≤ d.line ∧ d.line ≤ 1 + src.count '\n') ∧
      (rounds n (Run.start src)).cerr.length ≤ 1 + src.count '\n') ∧
    (∀ (fuel : Nat) (out : List Token × List Diagnostic), tokenize fuel src = some out →
      out.2.Pairwise (fun a b => a.line < b.line) ∧
      (∀ d ∈ out.2, 1 ≤ d.line ∧ d.line ≤ 1 + src.count '\n') ∧
      out.2.length ≤ 1 + src.count '\n') ∧
    (1 + src.count '\n' ≤ INT_MAX ∧ ∀ n : Nat, (rounds n (Run.start src)).self.InRange) := by
  have key : ∀ n : Nat,
      (rounds n (Run.start src)).cerr.Pairwise (fun a b => a.line < b.line) ∧
      (∀ d ∈ (rounds n (Run.start src)).cerr, 1 ≤ d.line ∧ d.line ≤ 1 + src.count '\n') ∧
      (rounds n (Run.start src)).cerr.length ≤ 1 + src.count '\n' := by
    intro n
    obtain ⟨_, _, _, h4, _, _, h7, h8, _⟩ := runInv_rounds src n
    have hb : ∀ d ∈ (rounds n (Run.start src)).cerr,
        1 ≤ d.line ∧ d.line ≤ 1 + src.count '\n' := fun d hd =>
      ⟨(h7 d hd).1, Nat.le_trans (h7 d hd).2
        (Nat.le_trans h4 (Nat.add_le_add_left (count_take_le src '\n' _) 1))⟩
    exact ⟨h8, hb, length_le_of_lines_increasing _ 0 _ h8 (fun d hd => hb d hd)⟩
  refine ⟨key, fun fuel out h => ?_, ?_, inRange_rounds src hlen⟩
  · rw [tokenize_eq_rounds fuel src out h]
    exact key fuel
  · have h2 : src.count '\n' ≤ src.length := List.count_le_length _ _
    omega

/-- C20, instance: the source `@`, newline, `..`, with one rejected lexeme on
each of its two lines. -/
theorem C20_diagnostics_bound_witness :
    (∀ n : Nat,
      (rounds n (Run.start "@\n..".toList)).cerr.Pairwise (fun a b => a.line < b.line) ∧
      (∀ d ∈ (rounds n (Run.start "@\n..".toList)).cerr,
        1 ≤ d.line ∧ d.line ≤ 1 + "@\n..".toList.count '\n') ∧
      (rounds n (Run.start "@\n..".toList)).cerr.length ≤ 1 + "@\n..".toList.count '\n') ∧
    (∀ (fuel : Nat) (out : List Token × List Diagnostic),
      tokenize fuel "@\n..".toList = some out →
      out.2.Pairwise (fun a b => a.line < b.line) ∧
      (∀ d ∈ out.2, 1 ≤ d.line ∧ d.line ≤ 1 + "@\n..".toList.count '\n') ∧
      out.2.length ≤ 1 + "@\n..".toList.count '\n') ∧
    (1 + "@\n..".toList.count '\n' ≤ INT_MAX ∧
      ∀ n : Nat, (rounds n (Run.start "@\n..".toList)).self.InRange) :=
  C20_diagnostics_bound "@\n..".toList (by decide)

end LuauTokenizer
